import Mathlib

/-!
# fibdrv `xs` string: a shallow embedding of `xs.h` / `xs.c`

The 16-byte cell `xs` is modelled bit-exactly for a little-endian 64-bit target
(the layout the bit-fields of `xs.h` get from GCC on x86-64):

* bytes 0..7   : the `ptr` member (for an inline string: `data[0..7]`);
* bytes 8..14  : bits 0..55 of the second word; bits 0..53 are `size`,
                 bits 54..55 are the two low bits of `capacity`;
* byte 15      : `space_left` (bits 0..3, which are also the four high bits of
                 `capacity`), `is_ptr`, `is_large_string`, `flag2`, `flag3`.

Heap memory is a list of blocks addressed by block number (address 0 is NULL);
every access is bounds-checked and undefined behaviour is the result `none`.
-/

namespace Xs

/-! ## Bytes and little-endian words -/

/-- Value of a little-endian byte string. -/
def leDecode : List Nat → Nat
  | [] => 0
  | b :: bs => b % 256 + 256 * leDecode bs

/-- The `n` little-endian bytes of `v` (truncating). -/
def leEncode : Nat → Nat → List Nat
  | 0, _ => []
  | n + 1, v => v % 256 :: leEncode n (v / 256)

/-- Numeric value of a C `bool` bit. -/
def bit (b : Bool) : Nat := if b then 1 else 0

/-- A 32-bit pattern read as a C `int` (two's complement). -/
def toInt32 (v : Nat) : Int :=
  if v % 4294967296 < 2147483648 then (v % 4294967296 : Nat) else (v % 4294967296 : Nat) - 4294967296

/-- The 32-bit pattern of a C `int` (wrapping, as the kernel is built with
`-fno-strict-overflow`). -/
def ofInt32 (i : Int) : Nat := (i % 4294967296).toNat

/-! ## Constants of `xs.h` -/

def MAX_STR_LEN_BITS : Nat := 54
def MAX_STR_LEN : Nat := 2 ^ MAX_STR_LEN_BITS - 1
def LARGE_STRING_LEN : Nat := 256

/-! ## The cell -/

/-- The 16-byte union `xs`, stored as its two words and the bit-fields of byte 15. -/
structure xs where
  /-- bytes 0..7, the member `ptr` -/
  ptr : Nat
  /-- bytes 8..14: `size` (54 bits) and the two low bits of `capacity` -/
  lo56 : Nat
  space_left : Nat
  is_ptr : Bool
  is_large_string : Bool
  flag2 : Bool
  flag3 : Bool

/-- The macro `xs_literal_empty()`: `(xs) { .space_left = 15 }`. -/
def xs_literal_empty : xs :=
  { ptr := 0, lo56 := 0, space_left := 15, is_ptr := false,
    is_large_string := false, flag2 := false, flag3 := false }

/-- The bit-field `size : 54`. -/
def xs.size (x : xs) : Nat := x.lo56 % 18014398509481984

/-- The bit-field `capacity : 6` (bits 54..59 of the second word). -/
def xs.capacity (x : xs) : Nat := x.lo56 / 18014398509481984 % 4 + 4 * (x.space_left % 16)

/-- Assignment `x->size = v` (truncated to 54 bits). -/
def xs.set_size (x : xs) (v : Nat) : xs :=
  { x with lo56 := v % 18014398509481984 + 18014398509481984 * (x.lo56 / 18014398509481984 % 4) }

/-- Assignment `x->capacity = c` (truncated to 6 bits; overwrites `space_left`). -/
def xs.set_capacity (x : xs) (c : Nat) : xs :=
  { x with lo56 := x.lo56 % 18014398509481984 + 18014398509481984 * (c % 4),
           space_left := c / 4 % 16 }

/-- Assignment `x->space_left = v` (truncated to 4 bits). -/
def xs.set_space_left (x : xs) (v : Nat) : xs := { x with space_left := v % 16 }

/-- Byte 15 of the cell. -/
def xs.byte15 (x : xs) : Nat :=
  x.space_left % 16 + 16 * bit x.is_ptr + 32 * bit x.is_large_string
    + 64 * bit x.flag2 + 128 * bit x.flag3

/-- The member `data[16]`: the cell seen as bytes. -/
def xs.data (x : xs) : List Nat :=
  leEncode 8 x.ptr ++ leEncode 7 x.lo56 ++ [x.byte15]

/-- The cell whose 16 bytes are `l`. -/
def xs.of_data (l : List Nat) : xs :=
  { ptr := leDecode (l.take 8),
    lo56 := leDecode ((l.drop 8).take 7),
    space_left := l.getD 15 0 % 16,
    is_ptr := decide (l.getD 15 0 / 16 % 2 = 1),
    is_large_string := decide (l.getD 15 0 / 32 % 2 = 1),
    flag2 := decide (l.getD 15 0 / 64 % 2 = 1),
    flag3 := decide (l.getD 15 0 / 128 % 2 = 1) }

def xs_is_ptr (x : xs) : Bool := x.is_ptr

def xs_is_large_string (x : xs) : Bool := x.is_large_string

/-- `xs_size`: `xs_is_ptr(x) ? x->size : 15 - x->space_left`. -/
def xs_size (x : xs) : Nat :=
  if xs_is_ptr x then x.size else 15 - x.space_left % 16

/-- `xs_capacity`: `xs_is_ptr(x) ? ((size_t) 1 << x->capacity) - 1 : 15`. -/
def xs_capacity (x : xs) : Nat :=
  if xs_is_ptr x then 2 ^ x.capacity - 1 else 15

/-! ## Memory -/

/-- A `char *`: into the cell itself, or into a heap block at an offset. -/
inductive Loc where
  | cell (off : Nat)
  | heap (p : Nat) (off : Nat)

/-- Pointer arithmetic `l + i`. -/
def Loc.add : Loc → Nat → Loc
  | .cell off, i => .cell (off + i)
  | .heap p off, i => .heap p (off + i)

/-- The heap: block `a` (address `a + 1`) is live with its bytes, or freed.
`junk` is the content of memory that was never written. -/
structure Heap where
  blocks : List (Option (List Nat))
  junk : Nat → Nat

/-- The live block at address `p`, if any. -/
def Heap.block (h : Heap) : Nat → Option (List Nat)
  | 0 => none
  | a + 1 => (h.blocks.getD a none)

/-- Replace the block at address `p`. -/
def Heap.set_block (h : Heap) : Nat → Option (List Nat) → Heap
  | 0, _ => h
  | a + 1, b => { h with blocks := h.blocks.set a b }

/-- Uninitialised bytes for the offsets `start .. start + n`. -/
def Heap.fresh (h : Heap) (start n : Nat) : List Nat :=
  (List.range n).map (fun i => h.junk (start + i) % 256)

/-- Modelled from the spec: `allocate(size) -> buffer` (here `kmalloc`, whose
code is the kernel's): an uninitialised buffer of `size` bytes at a new
address; allocation is taken to succeed. -/
def kmalloc (h : Heap) (n : Nat) : Nat × Heap :=
  (h.blocks.length + 1, { h with blocks := h.blocks ++ [some (h.fresh 0 n)] })

/-- Modelled from the spec: `reallocate(buffer, new_size) -> buffer` (here
`krealloc`): keeps the bytes up to `min(old,new)`; a NULL buffer allocates;
a pointer that is not a live block is undefined behaviour. -/
def krealloc (h : Heap) (p n : Nat) : Option (Nat × Heap) :=
  if p = 0 then some (kmalloc h n)
  else match h.block p with
    | some b => some (p, h.set_block p (some (b.take n ++ h.fresh b.length (n - b.length))))
    | none => none

/-- Modelled from the spec: `release(buffer)` (here `kfree`): reclaims a live
block; NULL is ignored; anything else is undefined behaviour. -/
def kfree (h : Heap) (p : Nat) : Option Heap :=
  if p = 0 then some h
  else match h.block p with
    | some _ => some (h.set_block p none)
    | none => none

/-- Read `n` bytes at offset `off` of block `p`. -/
def Heap.read (h : Heap) (p off n : Nat) : Option (List Nat) :=
  match h.block p with
  | some b =>
    if off + n ≤ b.length ∧ off + n < 18446744073709551616 then some ((b.drop off).take n) else none
  | none => none

/-- Write `bs` at offset `off` of block `p`. -/
def Heap.write (h : Heap) (p off : Nat) (bs : List Nat) : Option Heap :=
  match h.block p with
  | some b =>
    if off + bs.length ≤ b.length ∧ off + bs.length < 18446744073709551616 then
      some (h.set_block p (some (b.take off ++ bs ++ b.drop (off + bs.length))))
    else none
  | none => none

/-- Read `n` bytes through a `char *` that belongs to the value `x`. -/
def load (h : Heap) (x : xs) : Loc → Nat → Option (List Nat)
  | .cell off, n => if off + n ≤ 16 then some ((x.data.drop off).take n) else none
  | .heap p off, n => h.read p off n

/-- Write `bs` through a `char *` that belongs to the value `x`. -/
def store (h : Heap) (x : xs) : Loc → List Nat → Option (Heap × xs)
  | .cell off, bs =>
    if off + bs.length ≤ 16 then
      some (h, xs.of_data (x.data.take off ++ bs ++ x.data.drop (off + bs.length)))
    else none
  | .heap p off, bs => (h.write p off bs).map (fun h1 => (h1, x))

/-- `xs_data`: the cell itself, `ptr + 4` for a large string, else `ptr`. -/
def xs_data (x : xs) : Loc :=
  if !xs_is_ptr x then .cell 0
  else if xs_is_large_string x then .heap x.ptr 4
  else .heap x.ptr 0

/-! ## External helpers -/

/-- Halving loop behind `ilog2`: the number of times `n` can be halved before
it drops below 2, at most `fuel` times. -/
def ilog2_go : Nat → Nat → Nat
  | 0, _ => 0
  | fuel + 1, n => if 2 ≤ n then ilog2_go fuel (n / 2) + 1 else 0

/-- Modelled from the spec: the "integer-log2 utility" (the kernel's `ilog2`),
the floor of the binary logarithm of a 64-bit value. -/
def ilog2 (n : Nat) : Nat := ilog2_go 64 n

/-- The C library's `strlen` on the array `p` followed by its terminator. -/
def strlen (p : List Nat) : Nat := (p.takeWhile (fun b => b % 256 != 0)).length

/-- The first `n` bytes of the C string whose array is `p` (a zero byte follows `p`). -/
def cbytes (p : List Nat) (n : Nat) : List Nat := ((p ++ [0]).take n).map (fun b => b % 256)

/-- The expression `1 << c` in C `int` arithmetic; undefined once the result
does not fit. -/
def int_shl_one (c : Nat) : Option Nat := if c < 31 then some (2 ^ c) else none

/-! ## Reference count (`xs.h`) -/

/-- `xs_set_ref_count`: `*((int *) x->ptr) = val`. -/
def xs_set_ref_count (h : Heap) (x : xs) (val : Int) : Option Heap :=
  h.write x.ptr 0 (leEncode 4 (ofInt32 val))

/-- The `int` stored at the start of the block of `x`. -/
def ref_count_at (h : Heap) (p : Nat) : Option Int :=
  (h.read p 0 4).map (fun bs => toInt32 (leDecode bs))

/-- `xs_inc_ref_count`. -/
def xs_inc_ref_count (h : Heap) (x : xs) : Option Heap :=
  if xs_is_large_string x then
    (ref_count_at h x.ptr).bind (fun c => xs_set_ref_count h x (toInt32 (ofInt32 (c + 1))))
  else some h

/-- `xs_dec_ref_count`: returns the new count (0 when not large). -/
def xs_dec_ref_count (h : Heap) (x : xs) : Option (Heap × Int) :=
  if !xs_is_large_string x then some (h, 0)
  else
    (ref_count_at h x.ptr).bind (fun c =>
      (xs_set_ref_count h x (toInt32 (ofInt32 (c - 1)))).map
        (fun h1 => (h1, toInt32 (ofInt32 (c - 1)))))

/-- `xs_get_ref_count`. -/
def xs_get_ref_count (h : Heap) (x : xs) : Option Int :=
  if !xs_is_large_string x then some 0 else ref_count_at h x.ptr

/-- `xs_newempty`. -/
def xs_newempty (_x : xs) : xs := xs_literal_empty

/-- `xs_free`. -/
def xs_free (h : Heap) (x : xs) : Option (Heap × xs) :=
  if xs_is_ptr x then
    (xs_dec_ref_count h x).bind (fun r =>
      if r.2 ≤ 0 then (kfree r.1 x.ptr).map (fun h2 => (h2, xs_newempty x))
      else some (r.1, xs_newempty x))
  else some (h, xs_newempty x)

/-! ## `xs.c` -/

/-- `xs_allocate_data`. -/
def xs_allocate_data (h : Heap) (x : xs) (len : Nat) (reallocate : Bool) : Option (Heap × xs) :=
  (int_shl_one x.capacity).bind (fun n =>
    if len < LARGE_STRING_LEN then
      (if reallocate then krealloc h x.ptr n else some (kmalloc h n)).map
        (fun r => (r.2, { x with ptr := r.1 }))
    else
      let x1 := { x with is_large_string := true }
      (if reallocate then krealloc h x1.ptr (n + 4) else some (kmalloc h (n + 4))).bind
        (fun r =>
          let x2 := { x1 with ptr := r.1 }
          (xs_set_ref_count r.2 x2 1).map (fun h2 => (h2, x2))))

/-- `xs_new(x, p)`; the old content of `*x` is overwritten, so only the heap
and the source array are arguments. -/
def xs_new (h : Heap) (p : List Nat) : Option (Heap × xs) :=
  let x := xs_literal_empty
  let len := strlen p + 1
  if len > 16 then
    let x := x.set_capacity (ilog2 len + 1)
    let x := x.set_size (len - 1)
    let x := { x with is_ptr := true }
    (xs_allocate_data h x x.size false).bind (fun r =>
      store r.1 r.2 (xs_data r.2) (cbytes p len))
  else
    (store h x (.cell 0) (cbytes p len)).map (fun r =>
      (r.1, r.2.set_space_left (15 - (len - 1))))

/-- `xs_grow`. -/
def xs_grow (h : Heap) (x : xs) (len : Nat) : Option (Heap × xs) :=
  if len ≤ xs_capacity x then some (h, x)
  else
    let buf := if !xs_is_ptr x then x.data else h.fresh 0 16
    let x := { x with is_ptr := true }
    let x := x.set_capacity (ilog2 len + 1)
    if xs_is_ptr x then xs_allocate_data h x len true
    else
      (xs_allocate_data h x len false).bind (fun r => store r.1 r.2 (xs_data r.2) buf)

/-- `xs_cow_lazy_copy(x, data)`: returns the heap, the cell, the updated
`*data` and the boolean result. -/
def xs_cow_lazy_copy (h : Heap) (x : xs) (data : Option Loc) :
    Option (Heap × xs × Option Loc × Bool) :=
  (xs_get_ref_count h x).bind (fun c =>
    if c ≤ 1 then some (h, x, data, false)
    else
      (xs_dec_ref_count h x).bind (fun r =>
        (xs_allocate_data r.1 x x.size false).bind (fun a =>
          match data with
          | some d =>
            (load a.1 a.2 d a.2.size).bind (fun bs =>
              (store a.1 a.2 (xs_data a.2) bs).map (fun s =>
                (s.1, s.2, some (xs_data s.2), true)))
          | none => some (a.1, a.2, none, true))))

/-- Lines 97-116 of `xs.c`: the two branches of `xs_concat` after the
copy-on-write check. `data` is the (possibly updated) data pointer of `string`;
`size` and `capacity` were read before the check. -/
def xs_concat_body (h : Heap) (string pfx sfx : xs) (data : Loc) (size capacity : Nat) :
    Option (Heap × xs) :=
  let pres := xs_size pfx
  let sufs := xs_size sfx
  let pre := xs_data pfx
  let suf := xs_data sfx
  let total := (size + pres + sufs) % 18446744073709551616
  if total ≤ capacity then
    (load h string data size).bind (fun bs =>
    (store h string (data.add pres) bs).bind (fun s1 =>
    (load s1.1 pfx pre pres).bind (fun pb =>
    (store s1.1 s1.2 data pb).bind (fun s2 =>
    (load s2.1 sfx suf (sufs + 1)).bind (fun sb =>
    (store s2.1 s2.2 (data.add (pres + size)) sb).map (fun s3 =>
      if xs_is_ptr s3.2 then (s3.1, s3.2.set_size total)
      else (s3.1, s3.2.set_space_left ((15 + 18446744073709551616 - total) % 18446744073709551616))))))))
  else
    (xs_grow h xs_literal_empty total).bind (fun g =>
      let tmpdata := xs_data g.2
      (load g.1 string data size).bind (fun bs =>
      (store g.1 g.2 (tmpdata.add pres) bs).bind (fun s1 =>
      (load s1.1 pfx pre pres).bind (fun pb =>
      (store s1.1 s1.2 tmpdata pb).bind (fun s2 =>
      (load s2.1 sfx suf (sufs + 1)).bind (fun sb =>
      (store s2.1 s2.2 (tmpdata.add (pres + size)) sb).bind (fun s3 =>
      (xs_free s3.1 string).map (fun f =>
        (f.1, s3.2.set_size total)))))))))

/-- `xs_concat(string, pfx, sfx)`; the cells of the two operands are distinct
from the cell of `string`. -/
def xs_concat (h : Heap) (string pfx sfx : xs) : Option (Heap × xs) :=
  (xs_cow_lazy_copy h string (some (xs_data string))).bind (fun c =>
    xs_concat_body c.1 c.2.1 pfx sfx (c.2.2.1.getD (xs_data string))
      (xs_size string) (xs_capacity string))

/-- The macro `set_bit` of `xs_trim` on the 32-byte mask. -/
def set_bit (mask : List Nat) (byte : Nat) : List Nat :=
  mask.set (byte % 256 / 8) ((mask.getD (byte % 256 / 8) 0 ||| (1 <<< (byte % 256 % 8))) % 256)

/-- The macro `check_bit` of `xs_trim`. -/
def check_bit (mask : List Nat) (byte : Nat) : Bool :=
  (mask.getD (byte % 256 / 8) 0 &&& (1 <<< (byte % 256 % 8))) != 0

/-- The first loop of `xs_trim`, with `r = slen - i` iterations left. -/
def trim_front (rd : Nat → Option Nat) (mask : List Nat) : Nat → Nat → Option Nat
  | 0, i => some i
  | r + 1, i => (rd i).bind (fun b => if check_bit mask b then trim_front rd mask r (i + 1) else some i)

/-- The second loop of `xs_trim`, counting `slen` down. -/
def trim_back (rd : Nat → Option Nat) (mask : List Nat) : Nat → Option Nat
  | 0 => some 0
  | s + 1 => (rd s).bind (fun b => if check_bit mask b then trim_back rd mask s else some (s + 1))

/-- The byte `l[i]` read through a `char *` of `x`. -/
def load_byte (h : Heap) (x : xs) (l : Loc) (i : Nat) : Option Nat :=
  (load h x (l.add i) 1).map (fun bs => bs.headD 0)

/-- Lines 130-162 of `xs.c`: `xs_trim` after the copy-on-write check, with
`dataptr` and `orig` as they are at that point. -/
def xs_trim_body (h1 : Heap) (x1 : xs) (dataptr orig : Loc) (trimset : List Nat) :
    Option (Heap × xs) :=
  let mask := (trimset.take (strlen trimset)).foldl set_bit (List.replicate 32 0)
  let slen := xs_size x1
  (trim_front (load_byte h1 x1 dataptr) mask slen 0).bind (fun i =>
  (trim_back (load_byte h1 x1 dataptr) mask slen).bind (fun slen1 =>
    let dataptr1 := dataptr.add i
    let slen2 := (slen1 + 18446744073709551616 - i) % 18446744073709551616
    (load h1 x1 dataptr1 slen2).bind (fun bs =>
    (store h1 x1 orig bs).bind (fun s1 =>
    (load_byte s1.1 s1.2 orig slen2).bind (fun b =>
    (if b ≠ 0 then store s1.1 s1.2 (orig.add slen2) [0] else some s1).map (fun s2 =>
      if xs_is_ptr s2.2 then (s2.1, s2.2.set_size slen2)
      else (s2.1, s2.2.set_space_left ((15 + 18446744073709551616 - slen2) % 18446744073709551616))))))))

/-- `xs_trim(x, trimset)`. -/
def xs_trim (h : Heap) (x : xs) (trimset : List Nat) : Option (Heap × xs) :=
  if (cbytes trimset 1).headD 0 = 0 then some (h, x)
  else
    (xs_cow_lazy_copy h x (some (xs_data x))).bind (fun c =>
      let dataptr := c.2.2.1.getD (xs_data x)
      let orig := if c.2.2.2 then dataptr else xs_data x
      xs_trim_body c.1 c.2.1 dataptr orig trimset)

/-- `xs_copy(dest, src)`: returns the heap and `*dest`; the cell `*src` is not written. -/
def xs_copy (h : Heap) (src : xs) : Option (Heap × xs) :=
  let dest := src
  if !xs_is_ptr src then some (h, dest)
  else if xs_is_large_string src then
    (xs_inc_ref_count h src).map (fun h1 => (h1, dest))
  else
    let r := kmalloc h (2 ^ src.capacity)
    let dest := { dest with ptr := r.1 }
    (r.2.read src.ptr 0 src.size).bind (fun bs =>
      (r.2.write dest.ptr 0 bs).map (fun h2 => (h2, dest)))

/-- The bytes `data[0 .. size)` of a value. -/
def xs_str (h : Heap) (x : xs) : Option (List Nat) := load h x (xs_data x) (xs_size x)

/-- The byte `data[size]` of a value. -/
def xs_term (h : Heap) (x : xs) : Option Nat := load_byte h x (xs_data x) (xs_size x)

/-! ## Well-formed values and the trimming specification -/

/-- A well-formed value in a heap. A heap value points to a live block of bytes
with room for `2^capacity` bytes of data (after the 4-byte count when large),
has a capacity class from 5 (heap values are built for more than 15 bytes) to
30 (the limit of `1 << capacity` in `int`), at least 9 when large (the large
flag is only set for lengths from `LARGE_STRING_LEN` on), a size within its
capacity, a count of at least 1 when large, and a zero byte at `data[size]`.
An inline value has no flag set and a zero byte at `data[size]`. -/
def Valid (h : Heap) (x : xs) : Prop :=
  if x.is_ptr = true then
    ∃ b, h.block x.ptr = some b ∧ b.length < 18446744073709551616 ∧ (∀ v ∈ b, v < 256) ∧
      5 ≤ x.capacity ∧ x.capacity < 31 ∧ x.size < 2 ^ x.capacity ∧
      (if x.is_large_string = true then
        9 ≤ x.capacity ∧ 2 ^ x.capacity + 4 ≤ b.length ∧
          1 ≤ toInt32 (leDecode (b.take 4)) ∧ b[4 + x.size]? = some 0
      else 2 ^ x.capacity ≤ b.length ∧ b[x.size]? = some 0)
  else
    x.is_large_string = false ∧ x.flag2 = false ∧ x.flag3 = false ∧ x.space_left < 16 ∧
      x.data[15 - x.space_left]? = some 0

/-- A value that can be the target of a mutation: as `Valid`, but nothing is
asked of the byte at `data[size]` nor of the bytes of the block (the medium
copy made by `xs_copy` has no terminator). -/
def Valid0 (h : Heap) (x : xs) : Prop :=
  if x.is_ptr = true then
    ∃ b, h.block x.ptr = some b ∧ b.length < 18446744073709551616 ∧
      5 ≤ x.capacity ∧ x.capacity < 31 ∧ x.size < 2 ^ x.capacity ∧
      (if x.is_large_string = true then
        9 ≤ x.capacity ∧ 2 ^ x.capacity + 4 ≤ b.length ∧ 1 ≤ toInt32 (leDecode (b.take 4))
      else 2 ^ x.capacity ≤ b.length)
  else
    x.is_large_string = false ∧ x.flag2 = false ∧ x.flag3 = false ∧ x.space_left < 16

/-- Whether the byte `v` occurs in the C string `set`. -/
def trim_member (set : List Nat) (v : Nat) : Bool :=
  (set.take (strlen set)).any (fun t => decide (t % 256 = v % 256))

/-- The string `cs` without its maximal leading run and its maximal trailing
run of members of `set`. -/
def trimmed (set cs : List Nat) : List Nat :=
  (cs.dropWhile (trim_member set)).rdropWhile (trim_member set)

/-! ## Concrete heaps and values used as test inputs -/

/-- An empty heap whose uninitialised memory reads `0x10`. -/
def demo_heap : Heap := { blocks := [], junk := fun _ => 16 }

/-- A 516-byte block: header `hdr`, then 128 times `a`, 128 blanks, the
terminator, and unused bytes. -/
def demo_large_block (hdr : List Nat) : List Nat :=
  hdr ++ List.replicate 128 97 ++ List.replicate 128 32 ++ [0] ++ List.replicate 255 16

/-- A heap holding only `demo_large_block hdr`, at address 1. -/
def demo_large_heap (hdr : List Nat) : Heap :=
  { blocks := [some (demo_large_block hdr)], junk := fun _ => 16 }

/-- The cell of a large string of size 256 and capacity class 9 at address 1. -/
def demo_large_cell : xs :=
  { ptr := 1, lo56 := 256 + 18014398509481984, space_left := 2, is_ptr := true,
    is_large_string := true, flag2 := false, flag3 := false }

/-- A heap holding one 32-byte block with 16 times `a` and the terminator. -/
def demo_medium_heap : Heap :=
  { blocks := [some (List.replicate 16 97 ++ [0] ++ List.replicate 15 16)], junk := fun _ => 16 }

/-- The cell of a medium string of size 16 and capacity class 5 at address 1. -/
def demo_medium_cell : xs :=
  { ptr := 1, lo56 := 16 + 18014398509481984, space_left := 1, is_ptr := true,
    is_large_string := false, flag2 := false, flag3 := false }

/-! ## Lemmas and theorems -/

theorem block_zero (h : Heap) : h.block 0 = none := rfl

theorem block_some_pos {h : Heap} {p : Nat} {b : List Nat} (hb : h.block p = some b) :
    p ≠ 0 ∧ p ≤ h.blocks.length := by
  cases p with
  | zero => simp [Heap.block] at hb
  | succ a =>
    refine ⟨by omega, ?_⟩
    by_contra hlt
    have : h.blocks.length ≤ a := by omega
    simp [Heap.block, List.getD_eq_getElem?_getD, List.getElem?_eq_none this] at hb

theorem block_set_block_same {h : Heap} {p : Nat} {b : List Nat} (hb : h.block p = some b)
    (v : Option (List Nat)) : (h.set_block p v).block p = v := by
  obtain ⟨hp, hl⟩ := block_some_pos hb
  cases p with
  | zero => exact absurd rfl hp
  | succ a =>
    have : a < h.blocks.length := by omega
    simp [Heap.block, Heap.set_block, List.getD_eq_getElem?_getD, List.getElem?_set, this]

theorem block_set_block_other (h : Heap) {p q : Nat} (hpq : q ≠ p)
    (v : Option (List Nat)) : (h.set_block p v).block q = h.block q := by
  cases p with
  | zero => rfl
  | succ a =>
    cases q with
    | zero => rfl
    | succ c =>
      have : a ≠ c := by omega
      simp [Heap.block, Heap.set_block, List.getD_eq_getElem?_getD, List.getElem?_set, this]

theorem junk_set_block (h : Heap) (p : Nat) (v : Option (List Nat)) :
    (h.set_block p v).junk = h.junk := by
  cases p <;> rfl

theorem length_set_block (h : Heap) (p : Nat) (v : Option (List Nat)) :
    (h.set_block p v).blocks.length = h.blocks.length := by
  cases p <;> simp [Heap.set_block]

theorem block_kmalloc_old {h : Heap} {q : Nat} {b : List Nat} (hb : h.block q = some b) (n : Nat) :
    (kmalloc h n).2.block q = some b := by
  obtain ⟨hp, hl⟩ := block_some_pos hb
  cases q with
  | zero => exact absurd rfl hp
  | succ a =>
    have : a < h.blocks.length := by omega
    simpa [Heap.block, kmalloc, List.getD_eq_getElem?_getD, List.getElem?_append_left this] using hb

theorem block_kmalloc_new (h : Heap) (n : Nat) :
    (kmalloc h n).2.block (kmalloc h n).1 = some (h.fresh 0 n) := by
  simp [Heap.block, kmalloc, List.getD_eq_getElem?_getD]

theorem kmalloc_ne_live {h : Heap} {q : Nat} {b : List Nat} (hb : h.block q = some b) (n : Nat) :
    (kmalloc h n).1 ≠ q := by
  have := (block_some_pos hb).2
  simp only [kmalloc]
  omega

theorem read_eq {h : Heap} {p : Nat} {b : List Nat} (hb : h.block p = some b) (off n : Nat)
    (hin : off + n ≤ b.length) (h64 : off + n < 18446744073709551616) :
    h.read p off n = some ((b.drop off).take n) := by
  simp [Heap.read, hb, hin, h64]

theorem read_some {h : Heap} {p off n : Nat} {r : List Nat} (hr : h.read p off n = some r) :
    ∃ b, h.block p = some b ∧ off + n ≤ b.length ∧ off + n < 18446744073709551616 ∧
      r = (b.drop off).take n := by
  unfold Heap.read at hr
  cases hb : h.block p with
  | none => simp [hb] at hr
  | some b =>
    simp only [hb] at hr
    split at hr
    · rename_i hc
      exact ⟨b, rfl, hc.1, hc.2, by simpa using hr.symm⟩
    · simp at hr

theorem write_eq {h : Heap} {p : Nat} {b : List Nat} (hb : h.block p = some b) (off : Nat)
    (bs : List Nat) (hin : off + bs.length ≤ b.length)
    (h64 : off + bs.length < 18446744073709551616) :
    h.write p off bs =
      some (h.set_block p (some (b.take off ++ bs ++ b.drop (off + bs.length)))) := by
  simp [Heap.write, hb, hin, h64]

theorem write_some {h h1 : Heap} {p off : Nat} {bs : List Nat} (hw : h.write p off bs = some h1) :
    ∃ b, h.block p = some b ∧ off + bs.length ≤ b.length ∧
      h1 = h.set_block p (some (b.take off ++ bs ++ b.drop (off + bs.length))) := by
  unfold Heap.write at hw
  cases hb : h.block p with
  | none => simp [hb] at hw
  | some b =>
    simp only [hb] at hw
    split at hw
    · rename_i hc
      exact ⟨b, rfl, hc.1, by simpa using hw.symm⟩
    · simp at hw

theorem write_block_same {h h1 : Heap} {p off : Nat} {bs : List Nat}
    (hw : h.write p off bs = some h1) :
    ∃ b, h.block p = some b ∧ off + bs.length ≤ b.length ∧
      h1.block p = some (b.take off ++ bs ++ b.drop (off + bs.length)) := by
  obtain ⟨b, hb, hin, rfl⟩ := write_some hw
  exact ⟨b, hb, hin, block_set_block_same hb _⟩

theorem write_block_other {h h1 : Heap} {p off : Nat} {bs : List Nat}
    (hw : h.write p off bs = some h1) {q : Nat} (hq : q ≠ p) : h1.block q = h.block q := by
  obtain ⟨b, _, _, rfl⟩ := write_some hw
  exact block_set_block_other h hq _

theorem length_leEncode (n v : Nat) : (leEncode n v).length = n := by
  induction n generalizing v with
  | zero => rfl
  | succ n ih => simp [leEncode, ih]

theorem leDecode_leEncode (n v : Nat) : leDecode (leEncode n v) = v % 256 ^ n := by
  induction n generalizing v with
  | zero => simp [leEncode, leDecode, Nat.mod_one]
  | succ n ih =>
    simp only [leEncode, leDecode, ih, Nat.mod_mod]
    rw [pow_succ, mul_comm (256 ^ n) 256, Nat.mod_mul]

theorem toInt32_ofInt32 (i : Int) (hlo : -2147483648 ≤ i) (hhi : i < 2147483648) :
    toInt32 (ofInt32 i) = i := by
  unfold toInt32 ofInt32
  have h0 : (0 : Int) ≤ i % 4294967296 := Int.emod_nonneg _ (by decide)
  have h1 : i % 4294967296 < 4294967296 := Int.emod_lt_of_pos _ (by decide)
  have hm : (((i % 4294967296).toNat % 4294967296 : Nat) : Int) = i % 4294967296 := by
    rw [Nat.mod_eq_of_lt (by omega)]
    exact Int.toNat_of_nonneg h0
  split
  · rename_i hc
    omega
  · rename_i hc
    omega

theorem ofInt32_lt (i : Int) : ofInt32 i < 4294967296 := by
  unfold ofInt32
  have h1 : i % 4294967296 < 4294967296 := Int.emod_lt_of_pos _ (by decide)
  omega

theorem leDecode_header (i : Int) (hlo : -2147483648 ≤ i) (hhi : i < 2147483648) :
    toInt32 (leDecode (leEncode 4 (ofInt32 i))) = i := by
  rw [leDecode_leEncode]
  have : ofInt32 i % 256 ^ 4 = ofInt32 i := Nat.mod_eq_of_lt (by have := ofInt32_lt i; norm_num; omega)
  rw [this]
  exact toInt32_ofInt32 i hlo hhi

theorem toInt32_range (v : Nat) : -2147483648 ≤ toInt32 v ∧ toInt32 v < 2147483648 := by
  unfold toInt32
  split <;> omega

theorem ref_count_at_eq {h : Heap} {p : Nat} {b : List Nat} (hb : h.block p = some b)
    (h4 : 4 ≤ b.length) : ref_count_at h p = some (toInt32 (leDecode (b.take 4))) := by
  unfold ref_count_at
  rw [read_eq hb 0 4 (by omega) (by omega)]
  simp

theorem set_ref_count_eq {h : Heap} {x : xs} {b : List Nat} (hb : h.block x.ptr = some b)
    (h4 : 4 ≤ b.length) (v : Int) :
    xs_set_ref_count h x v =
      some (h.set_block x.ptr (some (leEncode 4 (ofInt32 v) ++ b.drop 4))) := by
  unfold xs_set_ref_count
  rw [write_eq hb 0 _ (by simp [length_leEncode]; omega) (by simp [length_leEncode])]
  simp [length_leEncode]

theorem header_of_set {b : List Nat} (v : Int) (hlo : -2147483648 ≤ v) (hhi : v < 2147483648) :
    toInt32 (leDecode ((leEncode 4 (ofInt32 v) ++ b.drop 4).take 4)) = v := by
  rw [List.take_append_of_le_length (by simp [length_leEncode])]
  rw [List.take_of_length_le (by simp [length_leEncode])]
  exact leDecode_header v hlo hhi

/-- Effect of `xs_dec_ref_count` on a live large value. -/
theorem dec_ref_count_large {h : Heap} {x : xs} {b : List Nat} (hl : x.is_large_string = true)
    (hb : h.block x.ptr = some b) (h4 : 4 ≤ b.length) :
    xs_dec_ref_count h x =
      some (h.set_block x.ptr
              (some (leEncode 4 (ofInt32 (toInt32 (ofInt32 (toInt32 (leDecode (b.take 4)) - 1))))
                ++ b.drop 4)),
            toInt32 (ofInt32 (toInt32 (leDecode (b.take 4)) - 1))) := by
  unfold xs_dec_ref_count
  simp only [xs_is_large_string, hl, Bool.not_true, Bool.false_eq_true, if_false]
  rw [ref_count_at_eq hb h4]
  simp only [Option.some_bind]
  rw [set_ref_count_eq hb h4]
  simp

/-- Effect of `xs_inc_ref_count` on a live large value. -/
theorem inc_ref_count_large {h : Heap} {x : xs} {b : List Nat} (hl : x.is_large_string = true)
    (hb : h.block x.ptr = some b) (h4 : 4 ≤ b.length) :
    xs_inc_ref_count h x =
      some (h.set_block x.ptr
              (some (leEncode 4 (ofInt32 (toInt32 (ofInt32 (toInt32 (leDecode (b.take 4)) + 1))))
                ++ b.drop 4))) := by
  unfold xs_inc_ref_count
  simp only [xs_is_large_string, hl, if_true]
  rw [ref_count_at_eq hb h4]
  simp only [Option.some_bind]
  rw [set_ref_count_eq hb h4]

theorem length_header_block (v : Nat) (b : List Nat) (h4 : 4 ≤ b.length) :
    (leEncode 4 v ++ b.drop 4).length = b.length := by
  simp [length_leEncode]; omega

/-- Duplicating a live large value whose count is below `INT_MAX` rewrites the
header of the shared block with the count plus one and returns the same cell. -/
theorem xs_copy_large_eq {h : Heap} {src : xs} {b : List Nat} {c : Int}
    (hp : src.is_ptr = true) (hl : src.is_large_string = true)
    (hb : h.block src.ptr = some b) (h4 : 4 ≤ b.length)
    (hc : toInt32 (leDecode (b.take 4)) = c) (hmax : c < 2147483647) :
    xs_copy h src =
      some (h.set_block src.ptr (some (leEncode 4 (ofInt32 (c + 1)) ++ b.drop 4)), src) := by
  have hr := toInt32_range (leDecode (b.take 4))
  have hwrap : toInt32 (ofInt32 (c + 1)) = c + 1 := toInt32_ofInt32 _ (by omega) (by omega)
  unfold xs_copy
  simp only [xs_is_ptr, hp, xs_is_large_string, hl, Bool.not_true, Bool.false_eq_true, if_false,
    if_true]
  rw [inc_ref_count_large hl hb h4, hc, hwrap]
  rfl

/-- C5 (amended). Duplicating a live large value whose count `c` is below
`INT_MAX`: the destination cell equals the source cell (same pointer, size,
capacity, flags), the shared count becomes `c + 1`, the block keeps every byte
past its 4-byte header, and no other block changes. -/
theorem xs_copy_large_shares (h : Heap) (src : xs) (b : List Nat) (c : Int)
    (hp : src.is_ptr = true) (hl : src.is_large_string = true)
    (hb : h.block src.ptr = some b) (h4 : 4 ≤ b.length)
    (hc : toInt32 (leDecode (b.take 4)) = c) (hmax : c < 2147483647) :
    ∃ h1, xs_copy h src = some (h1, src) ∧
      xs_get_ref_count h1 src = some (c + 1) ∧
      h1.block src.ptr = some (leEncode 4 (ofInt32 (c + 1)) ++ b.drop 4) ∧
      (∀ q, q ≠ src.ptr → h1.block q = h.block q) := by
  have hr := toInt32_range (leDecode (b.take 4))
  have hwrap : toInt32 (ofInt32 (c + 1)) = c + 1 := toInt32_ofInt32 _ (by omega) (by omega)
  refine ⟨h.set_block src.ptr (some (leEncode 4 (ofInt32 (c + 1)) ++ b.drop 4)), ?_, ?_, ?_, ?_⟩
  · exact xs_copy_large_eq hp hl hb h4 hc hmax
  · unfold xs_get_ref_count
    simp only [xs_is_large_string, hl, Bool.not_true, Bool.false_eq_true, if_false]
    rw [ref_count_at_eq (block_set_block_same hb _) (by rw [length_header_block _ _ h4]; exact h4)]
    rw [header_of_set (c + 1) (by omega) (by omega)]
  · exact block_set_block_same hb _
  · intro q hq
    exact block_set_block_other h hq _

theorem kfree_live {h : Heap} {p : Nat} {b : List Nat} (hb : h.block p = some b) :
    kfree h p = some (h.set_block p none) := by
  unfold kfree
  have hp := (block_some_pos hb).1
  simp [hp, hb]

/-- Releasing a value whose buffer (if any) is live always returns the empty cell. -/
theorem xs_free_some (h : Heap) (x : xs) (b : List Nat)
    (hlive : x.is_ptr = true → h.block x.ptr = some b ∧ (x.is_large_string = true → 4 ≤ b.length)) :
    ∃ h1, xs_free h x = some (h1, xs_literal_empty) := by
  unfold xs_free
  cases hp : x.is_ptr with
  | false => exact ⟨h, by simp [xs_is_ptr, hp, xs_newempty]⟩
  | true =>
    obtain ⟨hb, h4⟩ := hlive hp
    simp only [xs_is_ptr, hp, if_true]
    cases hl : x.is_large_string with
    | false =>
      refine ⟨h.set_block x.ptr none, ?_⟩
      simp [xs_dec_ref_count, xs_is_large_string, hl, kfree_live hb, xs_newempty]
    | true =>
      rw [dec_ref_count_large hl hb (h4 hl)]
      simp only [Option.some_bind]
      split
      · rw [kfree_live (block_set_block_same hb _)]
        exact ⟨_, rfl⟩
      · exact ⟨_, rfl⟩

/-- C6. Release rule: with `c` the count in the header of a live large value,
`xs_free` reclaims a live block exactly when the value is a heap value that is
medium, or large with the decremented count (the `int` stored back) `≤ 0`; a
large value with `c > 1` keeps its block with count `c - 1`; an inline value
leaves the heap as it was. -/
theorem xs_free_release_rule (h : Heap) (x : xs) (b : List Nat)
    (hlive : x.is_ptr = true → h.block x.ptr = some b ∧
      (x.is_large_string = true → 4 ≤ b.length)) :
    ∃ h1, xs_free h x = some (h1, xs_literal_empty) ∧
      ((∃ p blk, h.block p = some blk ∧ h1.block p = none) ↔
        (x.is_ptr = true ∧
          (x.is_large_string = false ∨
            toInt32 (ofInt32 (toInt32 (leDecode (b.take 4)) - 1)) ≤ 0))) ∧
      (x.is_ptr = true → x.is_large_string = false → h1 = h.set_block x.ptr none) ∧
      (x.is_ptr = true → x.is_large_string = true → 1 < toInt32 (leDecode (b.take 4)) →
        h1.block x.ptr = some (leEncode 4 (ofInt32 (toInt32 (leDecode (b.take 4)) - 1)) ++ b.drop 4) ∧
        xs_get_ref_count h1 x = some (toInt32 (leDecode (b.take 4)) - 1)) ∧
      (x.is_ptr = false → h1 = h) := by
  unfold xs_free
  cases hp : x.is_ptr with
  | false =>
    simp only [xs_is_ptr, hp, Bool.false_eq_true, if_false, xs_newempty]
    refine ⟨h, rfl, ?_, by simp, by simp, by simp⟩
    constructor
    · rintro ⟨p, blk, h1, h2⟩
      rw [h1] at h2
      cases h2
    · rintro ⟨h1, _⟩
      cases h1
  | true =>
    obtain ⟨hb, h4⟩ := hlive hp
    simp only [xs_is_ptr, hp, if_true, xs_newempty]
    cases hl : x.is_large_string with
    | false =>
      have hd : xs_dec_ref_count h x = some (h, 0) := by
        simp [xs_dec_ref_count, xs_is_large_string, hl]
      rw [hd]
      simp only [Option.some_bind, le_refl, if_true, kfree_live hb, Option.map_some']
      refine ⟨h.set_block x.ptr none, rfl, ?_, by simp, by simp, by simp⟩
      constructor
      · intro _
        simp
      · intro _
        exact ⟨x.ptr, b, hb, block_set_block_same hb _⟩
    | true =>
      have h4 := h4 hl
      have hr := toInt32_range (leDecode (b.take 4))
      rw [dec_ref_count_large hl hb h4]
      simp only [Option.some_bind]
      by_cases hc : toInt32 (ofInt32 (toInt32 (leDecode (b.take 4)) - 1)) ≤ 0
      · simp only [hc, if_true]
        rw [kfree_live (block_set_block_same hb _)]
        simp only [Option.map_some']
        refine ⟨_, rfl, ?_, by simp, ?_, by simp⟩
        · constructor
          · intro _
            simp
          · intro _
            exact ⟨x.ptr, b, hb, block_set_block_same (block_set_block_same hb _) _⟩
        · intro _ _ h1
          have hwrap : toInt32 (ofInt32 (toInt32 (leDecode (b.take 4)) - 1))
              = toInt32 (leDecode (b.take 4)) - 1 := toInt32_ofInt32 _ (by omega) (by omega)
          omega
      · simp only [hc, if_false]
        refine ⟨_, rfl, ?_, by simp, ?_, by simp⟩
        · constructor
          · rintro ⟨p, blk, h1, h2⟩
            by_cases hpq : p = x.ptr
            · subst hpq
              rw [block_set_block_same hb _] at h2
              cases h2
            · rw [block_set_block_other h hpq _, h1] at h2
              cases h2
          · intro hx
            simp at hx
        · intro _ _ h1
          have hwrap : toInt32 (ofInt32 (toInt32 (leDecode (b.take 4)) - 1))
              = toInt32 (leDecode (b.take 4)) - 1 := toInt32_ofInt32 _ (by omega) (by omega)
          rw [hwrap]
          refine ⟨block_set_block_same hb _, ?_⟩
          unfold xs_get_ref_count
          simp only [xs_is_large_string, hl, Bool.not_true, Bool.false_eq_true, if_false]
          rw [ref_count_at_eq (block_set_block_same hb _)
            (by rw [length_header_block _ _ h4]; exact h4)]
          rw [header_of_set _ (by omega) (by omega)]

/-- C7. After `xs_free` the value is the canonical empty inline cell (not
heap, not large, `space_left = 15`, size 0, capacity 15), and releasing it again
returns the same heap and the same cell. -/
theorem xs_free_resets_idempotent (h : Heap) (x : xs) (b : List Nat)
    (hlive : x.is_ptr = true → h.block x.ptr = some b ∧ (x.is_large_string = true → 4 ≤ b.length)) :
    ∃ h1 x1, xs_free h x = some (h1, x1) ∧
      x1.is_ptr = false ∧ x1.is_large_string = false ∧ x1.space_left = 15 ∧
      xs_size x1 = 0 ∧ xs_capacity x1 = 15 ∧ x1 = xs_literal_empty ∧
      xs_free h1 x1 = some (h1, x1) := by
  obtain ⟨h1, hf⟩ := xs_free_some h x b hlive
  exact ⟨h1, xs_literal_empty, hf, rfl, rfl, rfl, rfl, rfl, rfl, rfl⟩

theorem store_heap {h : Heap} {x : xs} {p off : Nat} {bs : List Nat} {r : Heap × xs}
    (hs : store h x (.heap p off) bs = some r) :
    r.2 = x ∧ (∀ q, q ≠ p → r.1.block q = h.block q) ∧
      ∃ b, h.block p = some b ∧ off + bs.length ≤ b.length ∧
        r.1.block p = some (b.take off ++ bs ++ b.drop (off + bs.length)) := by
  simp only [store, Option.map_eq_some'] at hs
  obtain ⟨h1, hw, rfl⟩ := hs
  exact ⟨rfl, fun q hq => write_block_other hw hq, write_block_same hw⟩

theorem store_cell {h : Heap} {x : xs} {off : Nat} {bs : List Nat} {r : Heap × xs}
    (hs : store h x (.cell off) bs = some r) : r.1 = h := by
  simp only [store] at hs
  split at hs
  · cases hs; rfl
  · cases hs

theorem kfree_frame {h h1 : Heap} {p : Nat} (hf : kfree h p = some h1) {q : Nat} (hq : q ≠ p) :
    h1.block q = h.block q := by
  unfold kfree at hf
  split at hf
  · cases hf; rfl
  · cases hb : h.block p with
    | none => simp [hb] at hf
    | some b =>
      simp only [hb, Option.some.injEq] at hf
      subst hf
      exact block_set_block_other h hq _

theorem dec_ref_count_frame {h : Heap} {x : xs} {r : Heap × Int}
    (hd : xs_dec_ref_count h x = some r) {q : Nat} (hq : q ≠ x.ptr) :
    r.1.block q = h.block q := by
  unfold xs_dec_ref_count at hd
  split at hd
  · cases hd; rfl
  · simp only [Option.bind_eq_some, Option.map_eq_some'] at hd
    obtain ⟨c, _, h1, hw, rfl⟩ := hd
    exact write_block_other hw hq

/-- `xs_free` touches no block other than the one the value points to. -/
theorem xs_free_frame {h : Heap} {x : xs} {r : Heap × xs} (hf : xs_free h x = some r)
    {q : Nat} (hq : q ≠ x.ptr) : r.1.block q = h.block q := by
  unfold xs_free at hf
  split at hf
  · simp only [Option.bind_eq_some] at hf
    obtain ⟨d, hd, hrest⟩ := hf
    have hfr := dec_ref_count_frame hd hq
    split at hrest
    · simp only [Option.map_eq_some'] at hrest
      obtain ⟨h2, hk, rfl⟩ := hrest
      rw [← hfr]
      exact kfree_frame hk hq
    · cases hrest
      exact hfr
  · cases hf; rfl

/-- A fresh allocation by `xs_allocate_data` keeps every live block and
returns a cell that differs only in `ptr` and possibly `is_large_string`. -/
theorem allocate_fresh {h : Heap} {x : xs} {len : Nat} {r : Heap × xs}
    (ha : xs_allocate_data h x len false = some r) :
    r.2.ptr = h.blocks.length + 1 ∧ r.2.is_ptr = x.is_ptr ∧ r.2.lo56 = x.lo56 ∧
      r.2.space_left = x.space_left ∧
      (x.is_large_string = true → r.2.is_large_string = true) ∧
      (∀ q blk, h.block q = some blk → r.1.block q = some blk) := by
  unfold xs_allocate_data at ha
  simp only [Option.bind_eq_some] at ha
  obtain ⟨n, _, ha⟩ := ha
  split at ha
  · simp only [Bool.false_eq_true, if_false, Option.map_some', Option.some.injEq] at ha
    subst ha
    exact ⟨rfl, rfl, rfl, rfl, fun hx => hx, fun q blk hb => block_kmalloc_old hb n⟩
  · simp only [Bool.false_eq_true, if_false, Option.some_bind, Option.map_eq_some'] at ha
    obtain ⟨h2, hw, rfl⟩ := ha
    refine ⟨rfl, rfl, rfl, rfl, fun _ => rfl, fun q blk hb => ?_⟩
    have hne : q ≠ (kmalloc h (n + 4)).1 := fun e => kmalloc_ne_live hb (n + 4) e.symm
    rw [write_block_other hw hne]
    exact block_kmalloc_old hb _

theorem xs_data_heap {x : xs} (hp : x.is_ptr = true) : ∃ off, xs_data x = .heap x.ptr off := by
  unfold xs_data
  simp only [xs_is_ptr, hp, Bool.not_true, Bool.false_eq_true, if_false]
  split
  · exact ⟨4, rfl⟩
  · exact ⟨0, rfl⟩

/-- The private fork of `xs_cow_lazy_copy` on a shared large value: the cell
moves to a new block, the old block keeps every byte past its header. -/
theorem cow_fork {h : Heap} {x : xs} {d : Loc} {b : List Nat} {r : Heap × xs × Option Loc × Bool}
    (hp : x.is_ptr = true) (hl : x.is_large_string = true)
    (hb : h.block x.ptr = some b) (h4 : 4 ≤ b.length)
    (hc : 1 < toInt32 (leDecode (b.take 4)))
    (hcow : xs_cow_lazy_copy h x (some d) = some r) :
    r.2.2.2 = true ∧ r.2.2.1 = some (xs_data r.2.1) ∧ r.2.1.is_ptr = true ∧
      r.2.1.ptr ≠ x.ptr ∧ r.2.1.lo56 = x.lo56 ∧ r.2.1.space_left = x.space_left ∧
      (∃ hdr, hdr.length = 4 ∧ r.1.block x.ptr = some (hdr ++ b.drop 4)) ∧
      (∀ q blk, q ≠ x.ptr → h.block q = some blk → r.1.block q = some blk) := by
  unfold xs_cow_lazy_copy at hcow
  have hg : xs_get_ref_count h x = some (toInt32 (leDecode (b.take 4))) := by
    unfold xs_get_ref_count
    simp only [xs_is_large_string, hl, Bool.not_true, Bool.false_eq_true, if_false]
    exact ref_count_at_eq hb h4
  rw [hg] at hcow
  simp only [Option.some_bind, not_le.mpr hc, if_false] at hcow
  rw [dec_ref_count_large hl hb h4] at hcow
  simp only [Option.some_bind, Option.bind_eq_some, Option.map_eq_some'] at hcow
  obtain ⟨a, ha, bs, _, s, hs, rfl⟩ := hcow
  obtain ⟨haptr, haisp, halo, hasp, halarge, hakeep⟩ := allocate_fresh ha
  have hblk := block_set_block_same hb
    (some (leEncode 4 (ofInt32 (toInt32 (ofInt32 (toInt32 (leDecode (b.take 4)) - 1)))) ++ b.drop 4))
  have hne : a.2.ptr ≠ x.ptr := by
    have := (block_some_pos hblk).2
    omega
  have hap : a.2.is_ptr = true := by rw [haisp]; exact hp
  obtain ⟨off, hoff⟩ := xs_data_heap hap
  rw [hoff] at hs
  obtain ⟨hs2, hsframe, _⟩ := store_heap hs
  refine ⟨rfl, ?_, ?_, ?_, ?_, ?_, ?_, ?_⟩
  · simp only [hs2]
  · simp only [hs2]; exact hap
  · simp only [hs2]; exact hne
  · simp only [hs2]; exact halo
  · simp only [hs2]; exact hasp
  · refine ⟨leEncode 4 (ofInt32 (toInt32 (ofInt32 (toInt32 (leDecode (b.take 4)) - 1)))),
      length_leEncode 4 _, ?_⟩
    show s.1.block x.ptr = _
    rw [hsframe _ (Ne.symm hne)]
    exact hakeep _ _ hblk
  · intro q blk hq hlive
    have hq2 : q ≠ a.2.ptr := by
      have := (block_some_pos hlive).2
      have hlen := length_set_block h x.ptr
        (some (leEncode 4 (ofInt32 (toInt32 (ofInt32 (toInt32 (leDecode (b.take 4)) - 1)))) ++ b.drop 4))
      omega
    show s.1.block q = _
    rw [hsframe _ hq2]
    apply hakeep
    rw [block_set_block_other h hq]
    exact hlive

/-- The body of `xs_trim` on a heap value writes only to the block of that value. -/
theorem trim_body_frame {h : Heap} {x : xs} {off : Nat} {set : List Nat} {r : Heap × xs}
    (hbody : xs_trim_body h x (.heap x.ptr off) (.heap x.ptr off) set = some r) :
    r.2.ptr = x.ptr ∧ ∀ q, q ≠ x.ptr → r.1.block q = h.block q := by
  unfold xs_trim_body at hbody
  simp only [Option.bind_eq_some, Option.map_eq_some'] at hbody
  obtain ⟨i, _, slen1, _, bs, _, s1, hs1, b, _, s2, hs2, rfl⟩ := hbody
  obtain ⟨hx1, hf1, _⟩ := store_heap hs1
  have h2 : s2.2 = x ∧ ∀ q, q ≠ x.ptr → s2.1.block q = h.block q := by
    split at hs2
    · obtain ⟨hx2, hf2, _⟩ := store_heap hs2
      exact ⟨hx2.trans hx1, fun q hq => (hf2 q hq).trans (hf1 q hq)⟩
    · cases hs2
      exact ⟨hx1, hf1⟩
  constructor
  · split
    · show s2.2.ptr = x.ptr
      rw [h2.1]
    · show s2.2.ptr = x.ptr
      rw [h2.1]
  · intro q hq
    split
    · exact h2.2 q hq
    · exact h2.2 q hq

theorem allocate_realloc_null {h : Heap} {x : xs} (len : Nat) (hx : x.ptr = 0) :
    xs_allocate_data h x len true = xs_allocate_data h x len false := by
  unfold xs_allocate_data
  simp [krealloc, hx]

/-- Growing the empty literal beyond 15 bytes allocates a new block. -/
theorem grow_empty {h : Heap} {n : Nat} {r : Heap × xs} (hn : 15 < n)
    (hg : xs_grow h xs_literal_empty n = some r) :
    r.2.is_ptr = true ∧ r.2.ptr = h.blocks.length + 1 ∧
      ∀ q blk, h.block q = some blk → r.1.block q = some blk := by
  unfold xs_grow at hg
  have hcap : xs_capacity xs_literal_empty = 15 := rfl
  rw [hcap] at hg
  simp only [not_le.mpr hn, if_false] at hg
  have hisp : xs_is_ptr ({ xs_literal_empty with is_ptr := true }.set_capacity (ilog2 n + 1)) = true := rfl
  rw [hisp] at hg
  simp only [if_true] at hg
  rw [allocate_realloc_null _ rfl] at hg
  obtain ⟨hptr, hisp2, _, _, _, hkeep⟩ := allocate_fresh hg
  exact ⟨hisp2, hptr, hkeep⟩

/-- The body of `xs_concat` on a heap value: a live block other than the one of
the value keeps its content, and the result does not point to it. -/
theorem concat_body_frame {h : Heap} {s pfx sfx : xs} {off size cap : Nat} {r : Heap × xs}
    (hcap : 15 ≤ cap)
    (hbody : xs_concat_body h s pfx sfx (.heap s.ptr off) size cap = some r)
    {q : Nat} {blk : List Nat} (hq : q ≠ s.ptr) (hlive : h.block q = some blk) :
    r.1.block q = some blk ∧ r.2.ptr ≠ q := by
  unfold xs_concat_body at hbody
  simp only at hbody
  split at hbody
  · simp only [Option.bind_eq_some, Option.map_eq_some', Loc.add] at hbody
    obtain ⟨bs, _, s1, hs1, pb, _, s2, hs2, sb, _, s3, hs3, rfl⟩ := hbody
    obtain ⟨hx1, hf1, _⟩ := store_heap hs1
    rw [hx1] at hs2
    obtain ⟨hx2, hf2, _⟩ := store_heap hs2
    rw [hx2] at hs3
    obtain ⟨hx3, hf3, _⟩ := store_heap hs3
    have hblk : s3.1.block q = some blk := by
      rw [hf3 q hq, hf2 q hq, hf1 q hq]; exact hlive
    have hptr : s3.2.ptr ≠ q := by rw [hx3]; exact Ne.symm hq
    split
    · exact ⟨hblk, hptr⟩
    · exact ⟨hblk, hptr⟩
  · rename_i hnot
    simp only [Option.bind_eq_some, Option.map_eq_some'] at hbody
    obtain ⟨g, hg, bs, _, s1, hs1, pb, _, s2, hs2, sb, _, s3, hs3, f, hf, rfl⟩ := hbody
    obtain ⟨hgp, hgptr, hgkeep⟩ := grow_empty (by omega) hg
    obtain ⟨toff, htoff⟩ := xs_data_heap hgp
    rw [htoff] at hs1 hs2 hs3
    simp only [Loc.add] at hs1 hs3
    obtain ⟨hx1, hf1, _⟩ := store_heap hs1
    rw [hx1] at hs2
    obtain ⟨hx2, hf2, _⟩ := store_heap hs2
    rw [hx2] at hs3
    obtain ⟨hx3, hf3, _⟩ := store_heap hs3
    have hqg : q ≠ g.2.ptr := by
      have := (block_some_pos hlive).2
      omega
    constructor
    · show f.1.block q = some blk
      rw [xs_free_frame hf hq, hf3 q hqg, hf2 q hqg, hf1 q hqg]
      exact hgkeep q blk hlive
    · show (s3.2.set_size _).ptr ≠ q
      show s3.2.ptr ≠ q
      rw [hx3]
      exact Ne.symm hqg

theorem read_past_header {h h2 : Heap} {p : Nat} {b hdr : List Nat}
    (hb : h.block p = some b) (h4 : 4 ≤ b.length) (hhdr : hdr.length = 4)
    (hb2 : h2.block p = some (hdr ++ b.drop 4)) (off n : Nat) :
    h2.read p (4 + off) n = h.read p (4 + off) n := by
  unfold Heap.read
  rw [hb, hb2]
  have hlen : (hdr ++ b.drop 4).length = b.length := by simp [hhdr]; omega
  have hdrop : (hdr ++ b.drop 4).drop (4 + off) = b.drop (4 + off) := by
    rw [← List.drop_drop, List.drop_left' hhdr, List.drop_drop]
  simp only [hlen, hdrop]

theorem xs_str_past_header {h h2 : Heap} {a : xs} {b hdr : List Nat}
    (hp : a.is_ptr = true) (hl : a.is_large_string = true)
    (hb : h.block a.ptr = some b) (h4 : 4 ≤ b.length) (hhdr : hdr.length = 4)
    (hb2 : h2.block a.ptr = some (hdr ++ b.drop 4)) :
    xs_str h2 a = xs_str h a ∧ xs_term h2 a = xs_term h a := by
  have hd : xs_data a = .heap a.ptr 4 := by
    simp [xs_data, xs_is_ptr, xs_is_large_string, hp, hl]
  constructor
  · unfold xs_str
    rw [hd]
    exact read_past_header hb h4 hhdr hb2 0 _
  · unfold xs_term load_byte
    rw [hd]
    simp only [Loc.add, load]
    rw [read_past_header hb h4 hhdr hb2]

/-- After `xs_copy` raised the count of a shared block above one, the fork of
`xs_cow_lazy_copy` leaves the block's data area as it was before the copy. -/
theorem fork_after_copy {h : Heap} {a : xs} {ba : List Nat} {c : Int} {d : Loc}
    {r : Heap × xs × Option Loc × Bool}
    (hp : a.is_ptr = true) (hl : a.is_large_string = true)
    (hb : h.block a.ptr = some ba) (h4 : 4 ≤ ba.length) (h1 : 1 ≤ c) (hmax : c < 2147483647)
    (hcow : xs_cow_lazy_copy
      (h.set_block a.ptr (some (leEncode 4 (ofInt32 (c + 1)) ++ ba.drop 4))) a (some d) = some r) :
    r.2.2.2 = true ∧ r.2.2.1 = some (xs_data r.2.1) ∧ r.2.1.is_ptr = true ∧
      r.2.1.ptr ≠ a.ptr ∧
      ∃ hdr, hdr.length = 4 ∧ r.1.block a.ptr = some (hdr ++ ba.drop 4) := by
  have hblk := block_set_block_same hb (some (leEncode 4 (ofInt32 (c + 1)) ++ ba.drop 4))
  have hlen : 4 ≤ (leEncode 4 (ofInt32 (c + 1)) ++ ba.drop 4).length := by
    rw [length_header_block _ _ h4]; exact h4
  have hrc : 1 < toInt32 (leDecode ((leEncode 4 (ofInt32 (c + 1)) ++ ba.drop 4).take 4)) := by
    rw [header_of_set (c + 1) (by omega) (by omega)]
    omega
  obtain ⟨hf, hd, hrp, hne, _, _, ⟨hdr, hhdr, hblkr⟩, _⟩ := cow_fork hp hl hblk hlen hrc hcow
  refine ⟨hf, hd, hrp, hne, hdr, hhdr, ?_⟩
  rw [hblkr]
  have : (leEncode 4 (ofInt32 (c + 1)) ++ ba.drop 4).drop 4 = ba.drop 4 := by
    exact List.drop_left' (length_leEncode 4 _)
  rw [this]

/-- C4 (amended). Copy-on-write isolation: for a live large value `a` of at
least 256 bytes whose count `c` satisfies `1 ≤ c < INT_MAX`, `xs_copy` returns a
cell `b` equal to `a`; whenever a following `xs_trim` with a non-empty trim set
or `xs_concat` on that cell has a defined result, the data area of the block of
`a` (hence `xs_str` and the terminator of `a`) is as before the copy and the
result points to another block. As the two cells are equal, the statement also
covers mutating `a` while `b` keeps the shared block. -/
theorem cow_isolation (h : Heap) (a : xs) (ba : List Nat) (c : Int)
    (hp : a.is_ptr = true) (hl : a.is_large_string = true)
    (hsize : LARGE_STRING_LEN ≤ xs_size a) (hfit : xs_size a ≤ xs_capacity a)
    (hb : h.block a.ptr = some ba) (h4 : 4 ≤ ba.length)
    (hc : toInt32 (leDecode (ba.take 4)) = c) (h1 : 1 ≤ c) (hmax : c < 2147483647) :
    ∃ hcp, xs_copy h a = some (hcp, a) ∧
      (∀ set h2 b2, (cbytes set 1).headD 0 ≠ 0 → xs_trim hcp a set = some (h2, b2) →
        b2.ptr ≠ a.ptr ∧ xs_str h2 a = xs_str h a ∧ xs_term h2 a = xs_term h a ∧
          ∃ hdr, hdr.length = 4 ∧ h2.block a.ptr = some (hdr ++ ba.drop 4)) ∧
      (∀ p q h2 b2, xs_concat hcp a p q = some (h2, b2) →
        b2.ptr ≠ a.ptr ∧ xs_str h2 a = xs_str h a ∧ xs_term h2 a = xs_term h a ∧
          ∃ hdr, hdr.length = 4 ∧ h2.block a.ptr = some (hdr ++ ba.drop 4)) := by
  refine ⟨_, xs_copy_large_eq hp hl hb h4 hc hmax, ?_, ?_⟩
  · intro set h2 b2 hset htrim
    unfold xs_trim at htrim
    simp only [hset, if_false, Option.bind_eq_some] at htrim
    obtain ⟨r, hcow, hbody⟩ := htrim
    obtain ⟨hf, hd, hrp, hne, hdr, hhdr, hblkr⟩ := fork_after_copy hp hl hb h4 h1 hmax hcow
    rw [hf, hd] at hbody
    simp only [Option.getD_some, if_true] at hbody
    obtain ⟨off, hoff⟩ := xs_data_heap hrp
    rw [hoff] at hbody
    obtain ⟨hptr, hframe⟩ := trim_body_frame hbody
    have hblk2 : h2.block a.ptr = some (hdr ++ ba.drop 4) := by
      have := hframe a.ptr (Ne.symm hne)
      simp only at this
      rw [this, hblkr]
    have hs := xs_str_past_header hp hl hb h4 hhdr hblk2
    refine ⟨?_, hs.1, hs.2, hdr, hhdr, hblk2⟩
    have : b2.ptr = r.2.1.ptr := hptr
    rw [this]
    exact hne
  · intro p q h2 b2 hcat
    unfold xs_concat at hcat
    simp only [Option.bind_eq_some] at hcat
    obtain ⟨r, hcow, hbody⟩ := hcat
    obtain ⟨hf, hd, hrp, hne, hdr, hhdr, hblkr⟩ := fork_after_copy hp hl hb h4 h1 hmax hcow
    rw [hd] at hbody
    simp only [Option.getD_some] at hbody
    obtain ⟨off, hoff⟩ := xs_data_heap hrp
    rw [hoff] at hbody
    have hcap : 15 ≤ xs_capacity a := by
      have : LARGE_STRING_LEN = 256 := rfl
      omega
    obtain ⟨hblk2, hptr⟩ := concat_body_frame hcap hbody (Ne.symm hne) hblkr
    have hs := xs_str_past_header hp hl hb h4 hhdr hblk2
    exact ⟨hptr, hs.1, hs.2, hdr, hhdr, hblk2⟩

theorem leEncode_leDecode (l : List Nat) (hb : ∀ b ∈ l, b < 256) :
    leEncode l.length (leDecode l) = l := by
  induction l with
  | nil => rfl
  | cons a t ih =>
    have ha : a < 256 := hb a (by simp)
    have ht : ∀ b ∈ t, b < 256 := fun b hbt => hb b (by simp [hbt])
    simp only [List.length_cons, leEncode, leDecode]
    have h1 : (a % 256 + 256 * leDecode t) % 256 = a := by omega
    have h2 : (a % 256 + 256 * leDecode t) / 256 = leDecode t := by omega
    rw [h1, h2, ih ht]

theorem leEncode_lt (n v : Nat) : ∀ b ∈ leEncode n v, b < 256 := by
  induction n generalizing v with
  | zero => simp [leEncode]
  | succ n ih =>
    intro b hb
    simp only [leEncode, List.mem_cons] at hb
    rcases hb with rfl | hb
    · exact Nat.mod_lt _ (by decide)
    · exact ih _ b hb

theorem byte15_lt (x : xs) : x.byte15 < 256 := by
  unfold xs.byte15 bit
  have := Nat.mod_lt x.space_left (by decide : 0 < 16)
  split <;> split <;> split <;> split <;> omega

theorem length_data (x : xs) : x.data.length = 16 := by
  simp [xs.data, length_leEncode]

theorem data_lt (x : xs) : ∀ b ∈ x.data, b < 256 := by
  intro b hb
  simp only [xs.data, List.mem_append, List.mem_singleton] at hb
  rcases hb with (hb | hb) | hb
  · exact leEncode_lt _ _ b hb
  · exact leEncode_lt _ _ b hb
  · rw [hb]; exact byte15_lt x

theorem byte15_of_data (l : List Nat) (h15 : l.getD 15 0 < 256) :
    (xs.of_data l).byte15 = l.getD 15 0 := by
  unfold xs.byte15 xs.of_data bit
  simp only [Nat.mod_mod, decide_eq_true_eq]
  split <;> split <;> split <;> split <;> omega

/-- A cell rebuilt from 16 bytes has exactly those bytes. -/
theorem data_of_data (l : List Nat) (hlen : l.length = 16) (hb : ∀ b ∈ l, b < 256) :
    (xs.of_data l).data = l := by
  have h15 : l.getD 15 0 < 256 := by
    rw [List.getD_eq_getElem _ _ (by omega)]
    exact hb _ (List.getElem_mem _)
  unfold xs.data
  rw [byte15_of_data l h15]
  have e1 : leEncode 8 (xs.of_data l).ptr = l.take 8 := by
    have := leEncode_leDecode (l.take 8) (fun b hbt => hb b (List.mem_of_mem_take hbt))
    rw [List.length_take, hlen] at this
    exact this
  have e2 : leEncode 7 (xs.of_data l).lo56 = (l.drop 8).take 7 := by
    have := leEncode_leDecode ((l.drop 8).take 7)
      (fun b hbt => hb b (List.mem_of_mem_drop (List.mem_of_mem_take hbt)))
    rw [List.length_take, List.length_drop, hlen] at this
    exact this
  rw [e1, e2]
  have e3 : [l.getD 15 0] = l.drop 15 := by
    rw [List.getD_eq_getElem _ _ (by omega : 15 < l.length)]
    rw [List.drop_eq_getElem_cons (by omega : 15 < l.length)]
    rw [List.drop_of_length_le (by omega)]
  rw [e3, List.append_assoc]
  conv_rhs => rw [← List.take_append_drop 8 l]
  congr 1
  conv_rhs => rw [← List.take_append_drop 7 (l.drop 8)]
  congr 1
  rw [List.drop_drop]

theorem ilog2_go_spec : ∀ fuel m, 1 ≤ m → m < 2 ^ fuel →
    2 ^ ilog2_go fuel m ≤ m ∧ m < 2 ^ (ilog2_go fuel m + 1) := by
  intro fuel
  induction fuel with
  | zero => intro m h1 h2; simp at h2; omega
  | succ f ih =>
    intro m h1 h2
    unfold ilog2_go
    by_cases h : 2 ≤ m
    · simp only [h, if_true]
      have hm : m / 2 < 2 ^ f := by
        rw [pow_succ] at h2
        omega
      obtain ⟨ha, hb⟩ := ih (m / 2) (by omega) hm
      have e1 : 2 ^ (ilog2_go f (m / 2) + 1) = 2 ^ ilog2_go f (m / 2) * 2 := pow_succ _ _
      have e2 : 2 ^ (ilog2_go f (m / 2) + 1 + 1) = 2 ^ ilog2_go f (m / 2) * 2 * 2 := by
        rw [pow_succ, pow_succ]
      rw [e2, e1]
      rw [e1] at hb
      constructor <;> omega
    · simp only [h, if_false]
      simp
      omega

/-- `ilog2` is the floor of the binary logarithm on 64-bit values. -/
theorem ilog2_spec (m : Nat) (h1 : 1 ≤ m) (h2 : m < 2 ^ 64) :
    2 ^ ilog2 m ≤ m ∧ m < 2 ^ (ilog2 m + 1) :=
  ilog2_go_spec 64 m h1 h2

theorem ilog2_lt_of_lt_pow (m k : Nat) (h1 : 1 ≤ m) (hk : k ≤ 64) (h2 : m < 2 ^ k) :
    ilog2 m < k := by
  have h3 : m < 2 ^ 64 := lt_of_lt_of_le h2 (Nat.pow_le_pow_right (by decide) hk)
  have := (ilog2_spec m h1 h3).1
  by_contra hc
  have : 2 ^ k ≤ 2 ^ ilog2 m := Nat.pow_le_pow_right (by decide) (by omega)
  omega

theorem size_set_size (x : xs) (v : Nat) : (x.set_size v).size = v % 18014398509481984 := by
  unfold xs.set_size xs.size
  simp only
  omega

theorem capacity_set_size (x : xs) (v : Nat) : (x.set_size v).capacity = x.capacity := by
  unfold xs.set_size xs.capacity
  simp only
  omega

theorem capacity_set_capacity (x : xs) (c : Nat) : (x.set_capacity c).capacity = c % 64 := by
  unfold xs.set_capacity xs.capacity
  simp only
  omega

theorem size_set_capacity (x : xs) (c : Nat) : (x.set_capacity c).size = x.size := by
  unfold xs.set_capacity xs.size
  simp only
  omega

theorem strlen_nul_free (p : List Nat) (hnul : ∀ b ∈ p, b ≠ 0 ∧ b < 256) :
    strlen p = p.length := by
  unfold strlen
  rw [List.takeWhile_eq_self_iff.mpr]
  intro b hb
  have := hnul b hb
  have : b % 256 = b := Nat.mod_eq_of_lt this.2
  simp only [this, bne_iff_ne, ne_eq]
  exact (hnul b hb).1

theorem cbytes_nul_free (p : List Nat) (hnul : ∀ b ∈ p, b ≠ 0 ∧ b < 256) :
    cbytes p (p.length + 1) = p ++ [0] := by
  unfold cbytes
  have h1 : (p ++ [0]).take (p.length + 1) = p ++ [0] := List.take_of_length_le (by simp)
  rw [h1]
  have h2 : ∀ b ∈ p ++ [0], b % 256 = b := by
    intro b hb
    simp only [List.mem_append, List.mem_singleton] at hb
    rcases hb with hb | rfl
    · exact Nat.mod_eq_of_lt (hnul b hb).2
    · rfl
  calc (p ++ [0]).map (fun b => b % 256) = (p ++ [0]).map id := List.map_congr_left h2
    _ = p ++ [0] := List.map_id _

theorem write_bound {h h1 : Heap} {p off : Nat} {bs : List Nat}
    (hw : h.write p off bs = some h1) : off + bs.length < 18446744073709551616 := by
  unfold Heap.write at hw
  cases hb : h.block p with
  | none => simp [hb] at hw
  | some b =>
    simp only [hb] at hw
    split at hw
    · rename_i hc
      exact hc.2
    · simp at hw

/-- Reading inside a range that was just written returns the written bytes. -/
theorem read_write_inside {h h1 : Heap} {p off : Nat} {bs : List Nat}
    (hw : h.write p off bs = some h1) (i m : Nat) (him : i + m ≤ bs.length) :
    h1.read p (off + i) m = some ((bs.drop i).take m) := by
  obtain ⟨b, hb, hin, hb1⟩ := write_block_same hw
  have h64 := write_bound hw
  rw [read_eq hb1 (off + i) m (by simp; omega) (by omega)]
  congr 1
  have hto : (b.take off).length = off := by simp; omega
  rw [List.append_assoc, List.drop_append_eq_append_drop, hto,
    List.drop_of_length_le (by omega : (b.take off).length ≤ off + i)]
  simp only [List.nil_append, Nat.add_sub_cancel_left]
  rw [List.drop_append_of_le_length (by omega)]
  rw [List.take_append_of_le_length (by simp; omega)]

/-- A store into a live block succeeds when it is in bounds; the written bytes
can be read back and no other block changes. -/
theorem store_then_read (h : Heap) (x : xs) (pnew off : Nat) (bs : List Nat) {blk : List Nat}
    (hblk : h.block pnew = some blk) (hin : off + bs.length ≤ blk.length)
    (h64 : off + bs.length < 18446744073709551616) :
    ∃ h1, store h x (.heap pnew off) bs = some (h1, x) ∧
      (∀ i m, i + m ≤ bs.length → h1.read pnew (off + i) m = some ((bs.drop i).take m)) ∧
      (∀ q, q ≠ pnew → h1.block q = h.block q) ∧
      h1.block pnew = some (blk.take off ++ bs ++ blk.drop (off + bs.length)) := by
  have hw := write_eq hblk off bs hin h64
  refine ⟨_, ?_, fun i m him => read_write_inside hw i m him,
    fun q hq => write_block_other hw hq, block_set_block_same hblk _⟩
  simp only [store, hw, Option.map_some']

theorem allocate_medium (h : Heap) (x : xs) (len : Nat) (hc : x.capacity < 31)
    (hl : len < LARGE_STRING_LEN) :
    xs_allocate_data h x len false =
      some ((kmalloc h (2 ^ x.capacity)).2, { x with ptr := h.blocks.length + 1 }) := by
  unfold xs_allocate_data int_shl_one
  simp only [hc, if_true, Option.some_bind, hl, Bool.false_eq_true, if_false, Option.map_some']
  rfl

theorem allocate_large (h : Heap) (x : xs) (len : Nat) (hc : x.capacity < 31)
    (hl : ¬ len < LARGE_STRING_LEN) :
    ∃ h1, xs_allocate_data h x len false =
        some (h1, { x with is_large_string := true, ptr := h.blocks.length + 1 }) ∧
      h1.block (h.blocks.length + 1) =
        some (leEncode 4 (ofInt32 1) ++ (h.fresh 0 (2 ^ x.capacity + 4)).drop 4) ∧
      (∀ q blk, h.block q = some blk → h1.block q = some blk) := by
  have hnew := block_kmalloc_new h (2 ^ x.capacity + 4)
  have hlen : 4 ≤ (h.fresh 0 (2 ^ x.capacity + 4)).length := by simp [Heap.fresh]
  let x2 : xs := { x with is_large_string := true, ptr := h.blocks.length + 1 }
  have hset : xs_set_ref_count (kmalloc h (2 ^ x.capacity + 4)).2 x2 1 = _ :=
    set_ref_count_eq (x := x2) hnew hlen 1
  refine ⟨_, ?_, block_set_block_same hnew _, ?_⟩
  · unfold xs_allocate_data int_shl_one
    simp only [hc, if_true, Option.some_bind, hl, Bool.false_eq_true, if_false]
    show (xs_set_ref_count (kmalloc h (2 ^ x.capacity + 4)).2 x2 1).map _ = _
    rw [hset]
    rfl
  · intro q blk hq
    have hne : q ≠ (kmalloc h (2 ^ x.capacity + 4)).1 :=
      fun e => kmalloc_ne_live hq _ e.symm
    have hne2 : q ≠ x2.ptr := hne
    show (Heap.set_block _ x2.ptr _).block q = _
    rw [block_set_block_other _ hne2]
    exact block_kmalloc_old hq _

/-- Construction of a heap string: the value has the source's length, bytes
and terminator. -/
theorem xs_new_heap (h : Heap) (p : List Nat) (hnul : ∀ b ∈ p, b ≠ 0 ∧ b < 256)
    (h16 : 16 ≤ p.length) (hlen : p.length + 1 < 2 ^ 30) :
    ∃ h1 x, xs_new h p = some (h1, x) ∧ xs_is_ptr x = true ∧ xs_size x = p.length ∧
      xs_str h1 x = some p ∧ xs_term h1 x = some 0 := by
  have hk : ilog2 (p.length + 1) < 30 :=
    ilog2_lt_of_lt_pow _ 30 (by omega) (by decide) hlen
  have hfit : p.length + 1 < 2 ^ (ilog2 (p.length + 1) + 1) :=
    (ilog2_spec _ (by omega) (lt_trans hlen (by decide))).2
  have h54 : p.length < 18014398509481984 := by
    have : (2 : Nat) ^ 30 = 1073741824 := by decide
    omega
  unfold xs_new
  simp only [strlen_nul_free p hnul, cbytes_nul_free p hnul, gt_iff_lt,
    show 16 < p.length + 1 by omega, if_true, Nat.add_sub_cancel]
  generalize hx0 : ({ (xs_literal_empty.set_capacity (ilog2 (p.length + 1) + 1)).set_size p.length
    with is_ptr := true } : xs) = x0
  have hsz : x0.size = p.length := by
    rw [← hx0]
    show ((xs_literal_empty.set_capacity _).set_size p.length).size = _
    rw [size_set_size, Nat.mod_eq_of_lt h54]
  have hcp : x0.capacity = ilog2 (p.length + 1) + 1 := by
    rw [← hx0]
    show ((xs_literal_empty.set_capacity _).set_size p.length).capacity = _
    rw [capacity_set_size, capacity_set_capacity, Nat.mod_eq_of_lt (by omega)]
  have hip : x0.is_ptr = true := by rw [← hx0]
  have hsz2 : x0.lo56 % 18014398509481984 = p.length := hsz
  have hil : x0.is_large_string = false := by rw [← hx0]; rfl
  have h64 : ∀ off, off ≤ 4 → off + (p ++ [0]).length < 18446744073709551616 := by
    intro off hoff
    simp only [List.length_append, List.length_singleton]
    omega
  by_cases hmed : x0.size < LARGE_STRING_LEN
  · rw [allocate_medium h x0 x0.size (by omega) hmed]
    simp only [Option.some_bind]
    have hd : xs_data ({ x0 with ptr := h.blocks.length + 1 } : xs)
        = .heap (h.blocks.length + 1) 0 := by
      simp [xs_data, xs_is_ptr, xs_is_large_string, hip, hil]
    rw [hd]
    obtain ⟨h1, hs, hrd, _, _⟩ := store_then_read (kmalloc h (2 ^ x0.capacity)).2
      ({ x0 with ptr := h.blocks.length + 1 } : xs) (h.blocks.length + 1) 0
      (p ++ [0]) (block_kmalloc_new h (2 ^ x0.capacity))
      (by simp [Heap.fresh]; rw [hcp]; omega) (h64 0 (by omega))
    refine ⟨h1, _, hs, hip, ?_, ?_, ?_⟩
    · simp only [xs_size, xs_is_ptr, hip, if_true]
      exact hsz
    · unfold xs_str
      rw [hd]
      simp only [xs_size, xs_is_ptr, hip, if_true, load]
      simp only [xs.size]
      rw [hsz2]
      have := hrd 0 p.length (by simp)
      simpa using this
    · unfold xs_term load_byte
      rw [hd]
      simp only [xs_size, xs_is_ptr, hip, if_true, load, Loc.add]
      simp only [xs.size]
      rw [hsz2]
      have := hrd p.length 1 (by simp)
      simp only [Nat.zero_add] at this ⊢
      rw [this]
      simp
  · obtain ⟨ha1, ha, hblk, _⟩ := allocate_large h x0 x0.size (by omega) hmed
    rw [ha]
    simp only [Option.some_bind]
    have hd : xs_data ({ x0 with is_large_string := true, ptr := h.blocks.length + 1 } : xs)
        = .heap (h.blocks.length + 1) 4 := by
      simp [xs_data, xs_is_ptr, xs_is_large_string, hip]
    rw [hd]
    obtain ⟨h1, hs, hrd, _, _⟩ := store_then_read ha1
      ({ x0 with is_large_string := true, ptr := h.blocks.length + 1 } : xs)
      (h.blocks.length + 1) 4 (p ++ [0]) hblk
      (by simp [Heap.fresh, length_leEncode]; rw [hcp]; omega) (h64 4 (by omega))
    refine ⟨h1, _, hs, hip, ?_, ?_, ?_⟩
    · simp only [xs_size, xs_is_ptr, hip, if_true]
      exact hsz
    · unfold xs_str
      rw [hd]
      simp only [xs_size, xs_is_ptr, hip, if_true, load]
      simp only [xs.size]
      rw [hsz2]
      have := hrd 0 p.length (by simp)
      simpa using this
    · unfold xs_term load_byte
      rw [hd]
      simp only [xs_size, xs_is_ptr, hip, if_true, load, Loc.add]
      simp only [xs.size]
      rw [hsz2]
      have := hrd p.length 1 (by simp)
      simp only [Nat.zero_add] at this ⊢
      rw [this]
      simp

theorem data_set_space_left (y : xs) (v : Nat) :
    (y.set_space_left v).data = y.data.take 15 ++ [(y.set_space_left v).byte15] := by
  unfold xs.data
  have h15 : (leEncode 8 y.ptr ++ leEncode 7 y.lo56).length = 15 := by simp [length_leEncode]
  rw [List.take_append_of_le_length (by omega), List.take_of_length_le (by omega)]
  rfl

theorem data_literal_empty : xs_literal_empty.data = List.replicate 15 0 ++ [15] := by decide

theorem flags_of_small_byte15 (l : List Nat) (h15 : l.getD 15 0 < 16) :
    (xs.of_data l).is_ptr = false ∧ (xs.of_data l).is_large_string = false ∧
      (xs.of_data l).flag2 = false ∧ (xs.of_data l).flag3 = false := by
  unfold xs.of_data
  simp only [decide_eq_false_iff_not]
  refine ⟨?_, ?_, ?_, ?_⟩ <;> omega

/-- Construction of an inline string: the value has the source's length, bytes
and terminator, inside the cell. -/
theorem xs_new_inline (h : Heap) (p : List Nat) (hnul : ∀ b ∈ p, b ≠ 0 ∧ b < 256)
    (h15 : p.length ≤ 15) :
    ∃ x, xs_new h p = some (h, x) ∧ xs_is_ptr x = false ∧ xs_size x = p.length ∧
      xs_str h x = some p ∧ xs_term h x = some 0 := by
  unfold xs_new
  simp only [strlen_nul_free p hnul, cbytes_nul_free p hnul, gt_iff_lt,
    show ¬ 16 < p.length + 1 by omega, if_false, Nat.add_sub_cancel]
  have hst : store h xs_literal_empty (.cell 0) (p ++ [0]) =
      some (h, xs.of_data (p ++ [0] ++ xs_literal_empty.data.drop (p.length + 1))) := by
    simp only [store, List.length_append, List.length_singleton, Nat.zero_add,
      show p.length + 1 ≤ 16 by omega, if_true, List.take_zero, List.nil_append]
  rw [hst]
  simp only [Option.map_some']
  generalize hl : p ++ [0] ++ xs_literal_empty.data.drop (p.length + 1) = l
  have hlen : l.length = 16 := by
    rw [← hl]
    simp [length_data]
    omega
  have hlt : ∀ b ∈ l, b < 256 := by
    intro b hb
    rw [← hl] at hb
    simp only [List.mem_append, List.mem_singleton] at hb
    rcases hb with (hb | hb) | hb
    · exact (hnul b hb).2
    · omega
    · exact data_lt _ b (List.mem_of_mem_drop hb)
  have hlast : l.getD 15 0 < 16 ∧ (p.length = 15 → l.getD 15 0 = 0) := by
    rw [List.getD_eq_getElem _ _ (by omega : 15 < l.length)]
    by_cases hn : p.length = 15
    · have : l = p ++ [0] := by
        rw [← hl, List.drop_of_length_le (by rw [length_data]; omega), List.append_nil]
      subst this
      have hb15 : 15 < (p ++ [0]).length := by omega
      have e : (p ++ [0])[15] = 0 := by
        rw [List.getElem_append_right (by omega)]
        simp [hn]
      rw [e]
      exact ⟨by omega, fun _ => rfl⟩
    · have hb15 : 15 < l.length := by omega
      have e : l[15] = 15 := by
        have hd := data_literal_empty
        have : l = p ++ [0] ++ (List.replicate 15 0 ++ [15]).drop (p.length + 1) := by
          rw [← hl, hd]
        subst this
        rw [List.getElem_append_right (by simp; omega)]
        simp only [List.length_append, List.length_singleton, List.getElem_drop]
        rw [List.getElem_append_right (by simp; omega)]
        simp
      rw [e]
      exact ⟨by omega, fun hx => absurd hx hn⟩
  obtain ⟨hfp, hfl, hf2, hf3⟩ := flags_of_small_byte15 l hlast.1
  generalize hx : (xs.of_data l).set_space_left (15 - p.length) = x
  have hxp : x.is_ptr = false := by rw [← hx]; exact hfp
  have hxs : x.space_left = 15 - p.length := by
    rw [← hx]
    show (15 - p.length) % 16 = _
    omega
  have hb15 : x.byte15 = 15 - p.length := by
    unfold xs.byte15
    rw [hxs, hxp]
    have e1 : x.is_large_string = false := by rw [← hx]; exact hfl
    have e2 : x.flag2 = false := by rw [← hx]; exact hf2
    have e3 : x.flag3 = false := by rw [← hx]; exact hf3
    rw [e1, e2, e3]
    simp [bit]
    omega
  have hdata : ∃ tail, x.data = p ++ [0] ++ tail := by
    have hd : x.data = l.take 15 ++ [15 - p.length] := by
      rw [← hb15, ← hx, data_set_space_left, data_of_data l hlen hlt]
    by_cases hn : p.length = 15
    · refine ⟨[], ?_⟩
      rw [hd, ← hl, List.drop_of_length_le (by rw [length_data]; omega), List.append_nil,
        List.take_append_of_le_length (by omega), List.take_of_length_le (by omega), hn]
    · refine ⟨(xs_literal_empty.data.drop (p.length + 1)).take (15 - (p.length + 1))
        ++ [15 - p.length], ?_⟩
      rw [hd, ← hl, List.take_append_eq_append_take]
      rw [List.take_of_length_le (by simp; omega)]
      simp
  obtain ⟨tail, htail⟩ := hdata
  refine ⟨x, rfl, hxp, ?_, ?_, ?_⟩
  · simp only [xs_size, xs_is_ptr, hxp, Bool.false_eq_true, if_false, hxs]
    omega
  · unfold xs_str
    have hsz : xs_size x = p.length := by
      simp only [xs_size, xs_is_ptr, hxp, Bool.false_eq_true, if_false, hxs]
      omega
    have hd : xs_data x = .cell 0 := by simp [xs_data, xs_is_ptr, hxp]
    rw [hd, hsz]
    simp only [load, Nat.zero_add, show p.length ≤ 16 by omega, if_true, List.drop_zero, htail]
    rw [List.append_assoc, List.take_left]
  · unfold xs_term load_byte
    have hsz : xs_size x = p.length := by
      simp only [xs_size, xs_is_ptr, hxp, Bool.false_eq_true, if_false, hxs]
      omega
    have hd : xs_data x = .cell 0 := by simp [xs_data, xs_is_ptr, hxp]
    rw [hd, hsz]
    simp only [load, Loc.add, Nat.zero_add, show p.length + 1 ≤ 16 by omega, if_true, htail]
    rw [List.append_assoc, List.drop_left]
    simp

/-- Round trip of construction below the `int` shift limit: for a NUL-free
source of fewer than `2^30 - 1` bytes `xs_new` returns a value with the
source's length, its bytes, and a zero byte after them, in the inline, medium
and large representations alike. -/
theorem xs_new_round_trip (h : Heap) (p : List Nat) (hnul : ∀ b ∈ p, b ≠ 0 ∧ b < 256)
    (hlen : p.length + 1 < 2 ^ 30) :
    ∃ h1 x, xs_new h p = some (h1, x) ∧ xs_size x = p.length ∧
      xs_str h1 x = some p ∧ xs_term h1 x = some 0 := by
  by_cases h15 : p.length ≤ 15
  · obtain ⟨x, h1, _, h2, h3, h4⟩ := xs_new_inline h p hnul h15
    exact ⟨h, x, h1, h2, h3, h4⟩
  · obtain ⟨h1, x, e1, _, e2, e3, e4⟩ := xs_new_heap h p hnul (by omega) hlen
    exact ⟨h1, x, e1, e2, e3, e4⟩

theorem and_two_pow_ne_zero (m k : Nat) : (m &&& 2 ^ k != 0) = m.testBit k := by
  by_cases h : m.testBit k = true
  · have h1 : (m &&& 2 ^ k).testBit k = true := by
      simp [Nat.testBit_and, h, Nat.testBit_two_pow_self]
    have h2 : m &&& 2 ^ k ≠ 0 := by
      intro h0
      rw [h0] at h1
      simp at h1
    simp [h2, h]
  · have h1 : m &&& 2 ^ k = 0 := by
      apply Nat.eq_of_testBit_eq
      intro i
      simp only [Nat.testBit_and, Nat.testBit_two_pow, Nat.zero_testBit]
      by_cases hi : k = i
      · subst hi
        simp [h]
      · simp [hi]
    simp [h1, h]

theorem check_bit_eq (mask : List Nat) (b : Nat) :
    check_bit mask b = (mask.getD (b % 256 / 8) 0).testBit (b % 256 % 8) := by
  unfold check_bit
  rw [Nat.one_shiftLeft]
  exact and_two_pow_ne_zero _ _

theorem length_set_bit (mask : List Nat) (t : Nat) : (set_bit mask t).length = mask.length := by
  simp [set_bit]

theorem check_bit_set_bit (mask : List Nat) (t b : Nat) (hlen : mask.length = 32) :
    check_bit (set_bit mask t) b = (check_bit mask b || decide (t % 256 = b % 256)) := by
  rw [check_bit_eq, check_bit_eq]
  unfold set_bit
  have ht : t % 256 / 8 < mask.length := by omega
  have hb : b % 256 / 8 < mask.length := by omega
  rw [Nat.one_shiftLeft]
  by_cases hidx : t % 256 / 8 = b % 256 / 8
  · rw [hidx]
    rw [List.getD_eq_getElem _ _ (by simp; omega)]
    simp only [List.getElem_set_self]
    have h8 : (256 : Nat) = 2 ^ 8 := by decide
    rw [h8, Nat.testBit_mod_two_pow, ← h8]
    simp only [show b % 256 % 8 < 8 by omega, decide_True, Bool.true_and, Nat.testBit_or,
      Nat.testBit_two_pow]
    congr 1
    have : (t % 256 % 8 = b % 256 % 8) ↔ (t % 256 = b % 256) := by omega
    simp only [this]
  · have hne : ¬ t % 256 = b % 256 := by omega
    simp only [hne, decide_False, Bool.or_false]
    rw [List.getD_eq_getElem _ _ (by simp; omega), List.getD_eq_getElem _ _ hb]
    rw [List.getElem_set_ne hidx]

theorem check_bit_foldl (s : List Nat) (mask : List Nat) (b : Nat) (hlen : mask.length = 32) :
    check_bit (s.foldl set_bit mask) b = (check_bit mask b || s.any (fun t => decide (t % 256 = b % 256))) := by
  induction s generalizing mask with
  | nil => simp
  | cons t s ih =>
    simp only [List.foldl_cons, List.any_cons]
    rw [ih _ (by rw [length_set_bit]; exact hlen), check_bit_set_bit _ _ _ hlen, Bool.or_assoc]

/-- The mask built by `xs_trim` answers membership in the trim set. -/
theorem check_bit_mask (s : List Nat) (b : Nat) :
    check_bit (s.foldl set_bit (List.replicate 32 0)) b = s.any (fun t => decide (t % 256 = b % 256)) := by
  rw [check_bit_foldl s _ b (by simp)]
  have : check_bit (List.replicate 32 0) b = false := by
    rw [check_bit_eq, List.getD_eq_getElem _ _ (by simp; omega), List.getElem_replicate]
    exact Nat.zero_testBit _
  rw [this, Bool.false_or]

/-- The first loop of `xs_trim` returns the length of the leading run of
members when the reader delivers the bytes of `cs`. -/
theorem trim_front_eq (rd : Nat → Option Nat) (mask : List Nat) (cs : List Nat) (i0 : Nat)
    (hrd : ∀ j, j < cs.length → rd (i0 + j) = cs[j]?) :
    trim_front rd mask cs.length i0 = some (i0 + (cs.takeWhile (check_bit mask)).length) := by
  induction cs generalizing i0 with
  | nil => simp [trim_front]
  | cons a t ih =>
    have h0 : rd i0 = some a := by
      have := hrd 0 (by simp)
      simpa using this
    simp only [List.length_cons, trim_front, h0, Option.some_bind]
    by_cases hm : check_bit mask a = true
    · simp only [hm, if_true, List.takeWhile_cons_of_pos, List.length_cons]
      rw [ih (i0 + 1) (fun j hj => by
        have := hrd (j + 1) (by simp; omega)
        rw [show i0 + 1 + j = i0 + (j + 1) by omega, this]
        simp)]
      congr 1
      omega
    · simp only [hm, Bool.false_eq_true, if_false]
      simp [List.takeWhile_cons, hm]

/-- The second loop of `xs_trim` returns the length left after removing the
trailing run of members. -/
theorem trim_back_eq (rd : Nat → Option Nat) (mask : List Nat) (cs : List Nat)
    (hrd : ∀ j, j < cs.length → rd j = cs[j]?) (n : Nat) (hn : n ≤ cs.length) :
    trim_back rd mask n = some (((cs.take n).rdropWhile (check_bit mask)).length) := by
  induction n with
  | zero => simp [trim_back]
  | succ n ih =>
    have hlt : n < cs.length := by omega
    have h0 : rd n = some cs[n] := by
      rw [hrd n hlt]
      exact List.getElem?_eq_getElem hlt
    have htake : cs.take (n + 1) = cs.take n ++ [cs[n]] := by
      rw [List.take_succ, List.getElem?_eq_getElem hlt]
      rfl
    simp only [trim_back, h0, Option.some_bind, htake]
    by_cases hm : check_bit mask cs[n] = true
    · simp only [hm, if_true]
      rw [List.rdropWhile_concat_pos _ _ _ hm]
      exact ih (by omega)
    · simp only [hm, Bool.false_eq_true, if_false]
      rw [List.rdropWhile_concat_neg _ _ _ hm]
      simp
      omega

theorem rdropWhile_append_of_exists (m : Nat → Bool) (t d : List Nat)
    (hd : ∃ b ∈ d, m b = false) :
    (t ++ d).rdropWhile m = t ++ d.rdropWhile m := by
  unfold List.rdropWhile
  rw [List.reverse_append, List.dropWhile_append]
  have hne : ¬ (List.dropWhile m d.reverse).isEmpty = true := by
    rw [List.isEmpty_iff, List.dropWhile_eq_nil_iff]
    intro hall
    obtain ⟨b, hb, hmb⟩ := hd
    have := hall b (List.mem_reverse.mpr hb)
    rw [hmb] at this
    cases this
  simp only [hne, Bool.false_eq_true, if_false, List.reverse_append, List.reverse_reverse]

/-- Window kept by `xs_trim`: when some byte is not a member, the leading index
does not pass the trailing one and the bytes in between are the string without
its leading and trailing runs of members. -/
theorem trim_window (m : Nat → Bool) (cs : List Nat) (hne : ∃ b ∈ cs, m b = false) :
    (cs.takeWhile m).length ≤ (cs.rdropWhile m).length ∧
      (cs.drop (cs.takeWhile m).length).take ((cs.rdropWhile m).length - (cs.takeWhile m).length) =
        (cs.dropWhile m).rdropWhile m := by
  have hsplit : cs = cs.takeWhile m ++ cs.dropWhile m := (List.takeWhile_append_dropWhile m cs).symm
  have hd : ∃ b ∈ cs.dropWhile m, m b = false := by
    obtain ⟨b, hb, hmb⟩ := hne
    rw [hsplit, List.mem_append] at hb
    rcases hb with hb | hb
    · have := List.mem_takeWhile_imp hb
      rw [hmb] at this
      cases this
    · exact ⟨b, hb, hmb⟩
  have hr : cs.rdropWhile m = cs.takeWhile m ++ (cs.dropWhile m).rdropWhile m := by
    conv_lhs => rw [hsplit]
    exact rdropWhile_append_of_exists m _ _ hd
  rw [hr]
  constructor
  · simp
  · have hdrop : cs.drop (cs.takeWhile m).length = cs.dropWhile m := by
      have := List.drop_left (cs.takeWhile m) (cs.dropWhile m)
      rw [← hsplit] at this
      exact this
    rw [hdrop]
    simp only [List.length_append, Nat.add_sub_cancel_left]
    exact (List.prefix_iff_eq_take.mp (List.rdropWhile_prefix m _)).symm

theorem headD_take_drop (b : List Nat) (k : Nat) (hk : k < b.length) :
    some (((b.drop k).take 1).headD 0) = b[k]? := by
  rw [List.getElem?_eq_getElem hk, List.drop_eq_getElem_cons hk]
  rfl

theorem load_byte_heap {h : Heap} (x : xs) {p : Nat} {b : List Nat} (hb : h.block p = some b)
    (off j : Nat) (hk : off + j < b.length) (h64 : b.length < 18446744073709551616) :
    load_byte h x (.heap p off) j = b[off + j]? := by
  unfold load_byte
  simp only [Loc.add, load]
  rw [read_eq hb (off + j) 1 (by omega) (by omega)]
  simp only [Option.map_some']
  exact headD_take_drop b (off + j) hk

theorem getElem?_take_drop (b : List Nat) (off n j : Nat) (hj : j < n) :
    ((b.drop off).take n)[j]? = b[off + j]? := by
  rw [List.getElem?_take_of_lt hj, List.getElem?_drop]

/-- The body of `xs_trim` on a heap buffer with room for the terminator: when
some byte is not a member (or the string is empty) the kept window moves to the
front, a zero byte follows it, and the size is the length of the window. -/
theorem trim_body_heap (h : Heap) (x : xs) (p off : Nat) (set b : List Nat)
    (hp : x.is_ptr = true) (hb : h.block p = some b)
    (hroom : off + x.size + 1 ≤ b.length) (h64 : b.length < 18446744073709551616)
    (hmem : (b.drop off).take x.size = [] ∨
      ∃ v ∈ (b.drop off).take x.size,
        check_bit ((set.take (strlen set)).foldl set_bit (List.replicate 32 0)) v = false) :
    ∃ h1 w, w = (((b.drop off).take x.size).dropWhile
          (check_bit ((set.take (strlen set)).foldl set_bit (List.replicate 32 0)))).rdropWhile
          (check_bit ((set.take (strlen set)).foldl set_bit (List.replicate 32 0))) ∧
      w.length ≤ x.size ∧
      xs_trim_body h x (.heap p off) (.heap p off) set = some (h1, x.set_size w.length) ∧
      h1.block p = some (b.take off ++ w ++ [0] ++ b.drop (off + w.length + 1)) ∧
      (∀ q, q ≠ p → h1.block q = h.block q) := by
  generalize hmask : (set.take (strlen set)).foldl set_bit (List.replicate 32 0) = mask at hmem ⊢
  generalize hcs : (b.drop off).take x.size = cs at hmem ⊢
  have hcl : cs.length = x.size := by
    rw [← hcs, List.length_take, List.length_drop]
    omega
  have hrd : ∀ j, j < cs.length → load_byte h x (.heap p off) j = cs[j]? := by
    intro j hj
    rw [load_byte_heap x hb off j (by omega) h64, ← hcs,
      getElem?_take_drop b off x.size j (by omega)]
  have hwin : (cs.takeWhile (check_bit mask)).length ≤ (cs.rdropWhile (check_bit mask)).length ∧
      (cs.drop (cs.takeWhile (check_bit mask)).length).take
        ((cs.rdropWhile (check_bit mask)).length - (cs.takeWhile (check_bit mask)).length) =
        (cs.dropWhile (check_bit mask)).rdropWhile (check_bit mask) := by
    rcases hmem with hnil | hex
    · rw [hnil]
      simp
    · exact trim_window _ cs hex
  generalize hw : (cs.dropWhile (check_bit mask)).rdropWhile (check_bit mask) = w at hwin ⊢
  have hrl : (cs.rdropWhile (check_bit mask)).length ≤ cs.length :=
    (List.rdropWhile_prefix (check_bit mask) cs).length_le
  have hwl : w.length = (cs.rdropWhile (check_bit mask)).length
      - (cs.takeWhile (check_bit mask)).length := by
    rw [← hwin.2, List.length_take, List.length_drop]
    omega
  have hwle : w.length ≤ x.size := by omega
  have hfront := trim_front_eq (load_byte h x (.heap p off)) mask cs 0
    (fun j hj => by rw [Nat.zero_add]; exact hrd j hj)
  have hback := trim_back_eq (load_byte h x (.heap p off)) mask cs hrd cs.length (le_refl _)
  rw [List.take_length] at hback
  rw [Nat.zero_add] at hfront
  have hslen2 : ((cs.rdropWhile (check_bit mask)).length + 18446744073709551616
      - (cs.takeWhile (check_bit mask)).length) % 18446744073709551616 = w.length := by
    omega
  -- the window as read from the block
  have hload : h.read p (off + (cs.takeWhile (check_bit mask)).length) w.length = some w := by
    rw [read_eq hb _ _ (by omega) (by omega)]
    congr 1
    have hcsdrop : cs.drop (cs.takeWhile (check_bit mask)).length
        = (b.drop (off + (cs.takeWhile (check_bit mask)).length)).take
            (x.size - (cs.takeWhile (check_bit mask)).length) := by
      rw [← hcs, List.drop_take, List.drop_drop, hcs]
    rw [hwl]
    conv_rhs => rw [← hwin.2, hcsdrop, List.take_take]
    congr 1
    omega
  obtain ⟨h1, hs1, _, hfr1, hblk1⟩ := store_then_read h x p off w hb (by omega) (by omega)
  have hb1len : (b.take off ++ w ++ b.drop (off + w.length)).length = b.length := by
    simp only [List.length_append, List.length_take, List.length_drop]
    omega
  have htb : (b.take off ++ w ++ b.drop (off + w.length))[off + w.length]? = b[off + w.length]? := by
    rw [List.getElem?_append_right (by simp)]
    simp only [List.length_append, List.length_take, List.getElem?_drop]
    congr 1
    omega
  have hlb : load_byte h1 x (.heap p off) w.length = b[off + w.length]? := by
    rw [load_byte_heap x hblk1 off w.length (by rw [hb1len]; omega) (by rw [hb1len]; exact h64)]
    exact htb
  have hlt : off + w.length < b.length := by omega
  have hsplit : b.drop (off + w.length) = b[off + w.length] :: b.drop (off + w.length + 1) :=
    List.drop_eq_getElem_cons hlt
  have hbody : ∀ h2 : Heap, (if b[off + w.length] ≠ 0 then
        store h1 x (.heap p (off + w.length)) [0] else some (h1, x)) = some (h2, x) →
      xs_trim_body h x (.heap p off) (.heap p off) set = some (h2, x.set_size w.length) := by
    intro h2 hfin
    unfold xs_trim_body
    simp only [hmask, xs_size, xs_is_ptr, hp, if_true]
    rw [← hcl, hfront, hback]
    simp only [Option.some_bind, hslen2, Loc.add, load, Nat.zero_add, hload, hs1, hlb,
      List.getElem?_eq_getElem hlt, hfin, Option.map_some', hp, if_true]
  by_cases hz : b[off + w.length] = 0
  · refine ⟨h1, w, rfl, hwle, hbody h1 (by simp [hz]), ?_, hfr1⟩
    rw [hblk1, hsplit, hz]
    simp
  · obtain ⟨h2, hs2, _, hfr2, hblk2⟩ := store_then_read h1 x p (off + w.length) [0] hblk1
      (by rw [hb1len]; simp; omega) (by simp; omega)
    refine ⟨h2, w, rfl, hwle, hbody h2 (by simp [hz, hs2]), ?_,
      fun q hq => (hfr2 q hq).trans (hfr1 q hq)⟩
    rw [hblk2]
    congr 1
    have e1 : (b.take off ++ w ++ b.drop (off + w.length)).take (off + w.length)
        = b.take off ++ w := by
      rw [List.take_append_of_le_length (by simp; omega)]
      exact List.take_of_length_le (by simp)
    have e2 : (b.take off ++ w ++ b.drop (off + w.length)).drop (off + w.length + [0].length)
        = b.drop (off + w.length + 1) := by
      rw [List.drop_append_eq_append_drop, List.drop_of_length_le (by simp; omega)]
      simp only [List.nil_append, List.length_append, List.length_take, List.drop_drop,
        List.length_singleton]
      congr 1
      omega
    rw [e1, e2]

/-- An inline cell rebuilt from 16 bytes that start with `w` and a zero byte,
with `space_left` set to `15 - |w|`: it is inline and its bytes start with `w`
and a zero byte. -/
theorem inline_finish (l w tail : List Nat) (hl : l = w ++ [0] ++ tail) (hlen : l.length = 16)
    (hlt : ∀ b ∈ l, b < 256) (h15 : l.getD 15 0 < 16) :
    ((xs.of_data l).set_space_left (15 - w.length)).is_ptr = false ∧
      ((xs.of_data l).set_space_left (15 - w.length)).is_large_string = false ∧
      ((xs.of_data l).set_space_left (15 - w.length)).flag2 = false ∧
      ((xs.of_data l).set_space_left (15 - w.length)).flag3 = false ∧
      ((xs.of_data l).set_space_left (15 - w.length)).space_left = 15 - w.length ∧
      ∃ tail2, ((xs.of_data l).set_space_left (15 - w.length)).data = w ++ [0] ++ tail2 := by
  obtain ⟨hfp, hfl, hf2, hf3⟩ := flags_of_small_byte15 l h15
  have hwl : w.length + 1 + tail.length = 16 := by
    rw [← hlen, hl]
    simp
    omega
  generalize hx : (xs.of_data l).set_space_left (15 - w.length) = x
  have hxp : x.is_ptr = false := by rw [← hx]; exact hfp
  have e1 : x.is_large_string = false := by rw [← hx]; exact hfl
  have e2 : x.flag2 = false := by rw [← hx]; exact hf2
  have e3 : x.flag3 = false := by rw [← hx]; exact hf3
  have hxs : x.space_left = 15 - w.length := by
    rw [← hx]
    show (15 - w.length) % 16 = _
    omega
  have hb15 : x.byte15 = 15 - w.length := by
    unfold xs.byte15
    rw [hxs, hxp, e1, e2, e3]
    simp [bit]
    omega
  refine ⟨hxp, e1, e2, e3, hxs, ?_⟩
  have hd : x.data = l.take 15 ++ [15 - w.length] := by
    rw [← hb15, ← hx, data_set_space_left, data_of_data l hlen hlt]
  by_cases hn : w.length = 15
  · refine ⟨[], ?_⟩
    have ht : tail = [] := List.eq_nil_of_length_eq_zero (by omega)
    rw [hd, hl, ht, List.append_nil, List.take_append_of_le_length (by omega),
      List.take_of_length_le (by omega), hn]
  · refine ⟨tail.take (15 - (w.length + 1)) ++ [15 - w.length], ?_⟩
    rw [hd, hl, List.take_append_eq_append_take]
    rw [List.take_of_length_le (by simp; omega)]
    simp

/-- Reading an inline cell whose bytes start with `w` and a zero byte. -/
theorem inline_read (h : Heap) (x : xs) (w tail : List Nat) (hxp : x.is_ptr = false)
    (hxs : x.space_left = 15 - w.length) (hw : w.length ≤ 15) (hd : x.data = w ++ [0] ++ tail) :
    xs_size x = w.length ∧ xs_str h x = some w ∧ xs_term h x = some 0 := by
  have hsz : xs_size x = w.length := by
    simp only [xs_size, xs_is_ptr, hxp, Bool.false_eq_true, if_false, hxs]
    omega
  have hdl : xs_data x = .cell 0 := by simp [xs_data, xs_is_ptr, hxp]
  refine ⟨hsz, ?_, ?_⟩
  · unfold xs_str
    rw [hdl, hsz]
    simp only [load, Nat.zero_add, show w.length ≤ 16 by omega, if_true, List.drop_zero, hd]
    rw [List.append_assoc, List.take_left]
  · unfold xs_term load_byte
    rw [hdl, hsz]
    simp only [load, Loc.add, Nat.zero_add, show w.length + 1 ≤ 16 by omega, if_true, hd]
    rw [List.append_assoc, List.drop_left]
    simp

theorem load_byte_cell (h : Heap) (x : xs) (j : Nat) (hj : j < 16) :
    load_byte h x (.cell 0) j = x.data[j]? := by
  unfold load_byte
  simp only [Loc.add, load, Nat.zero_add, show j + 1 ≤ 16 by omega, if_true, Option.map_some']
  exact headD_take_drop x.data j (by rw [length_data]; exact hj)

theorem byte15_inline (x : xs) (hl : x.is_large_string = false) (hp : x.is_ptr = false)
    (h2 : x.flag2 = false) (h3 : x.flag3 = false) (hs : x.space_left < 16) :
    x.data[15]? = some x.space_left := by
  unfold xs.data
  rw [List.getElem?_append_right (by simp [length_leEncode])]
  simp only [List.length_append, length_leEncode]
  unfold xs.byte15
  rw [hl, hp, h2, h3]
  simp [bit]
  omega

/-- The body of `xs_trim` on an inline value: when some byte is not a member
(or the string is empty) the result is the inline cell holding the kept window
and a zero byte. -/
theorem trim_body_inline (h : Heap) (x : xs) (set : List Nat)
    (hp : x.is_ptr = false) (hl : x.is_large_string = false)
    (hf2 : x.flag2 = false) (hf3 : x.flag3 = false) (hs : x.space_left < 16)
    (hmem : x.data.take (15 - x.space_left) = [] ∨
      ∃ v ∈ x.data.take (15 - x.space_left),
        check_bit ((set.take (strlen set)).foldl set_bit (List.replicate 32 0)) v = false) :
    ∃ x1 w tail, w = ((x.data.take (15 - x.space_left)).dropWhile
          (check_bit ((set.take (strlen set)).foldl set_bit (List.replicate 32 0)))).rdropWhile
          (check_bit ((set.take (strlen set)).foldl set_bit (List.replicate 32 0))) ∧
      w.length ≤ 15 - x.space_left ∧
      xs_trim_body h x (.cell 0) (.cell 0) set = some (h, x1) ∧
      x1.is_ptr = false ∧ x1.is_large_string = false ∧ x1.flag2 = false ∧ x1.flag3 = false ∧
      x1.space_left = 15 - w.length ∧ x1.data = w ++ [0] ++ tail := by
  generalize hmask : (set.take (strlen set)).foldl set_bit (List.replicate 32 0) = mask at hmem ⊢
  generalize hcs : x.data.take (15 - x.space_left) = cs at hmem ⊢
  have hdl := length_data x
  have hcl : cs.length = 15 - x.space_left := by
    rw [← hcs, List.length_take]
    omega
  have hrd : ∀ j, j < cs.length → load_byte h x (.cell 0) j = cs[j]? := by
    intro j hj
    rw [load_byte_cell h x j (by omega), ← hcs, List.getElem?_take_of_lt (by omega)]
  have hwin : (cs.takeWhile (check_bit mask)).length ≤ (cs.rdropWhile (check_bit mask)).length ∧
      (cs.drop (cs.takeWhile (check_bit mask)).length).take
        ((cs.rdropWhile (check_bit mask)).length - (cs.takeWhile (check_bit mask)).length) =
        (cs.dropWhile (check_bit mask)).rdropWhile (check_bit mask) := by
    rcases hmem with hnil | hex
    · rw [hnil]
      simp
    · exact trim_window _ cs hex
  generalize hw : (cs.dropWhile (check_bit mask)).rdropWhile (check_bit mask) = w at hwin ⊢
  have hrl : (cs.rdropWhile (check_bit mask)).length ≤ cs.length :=
    (List.rdropWhile_prefix (check_bit mask) cs).length_le
  have hwl : w.length = (cs.rdropWhile (check_bit mask)).length
      - (cs.takeWhile (check_bit mask)).length := by
    rw [← hwin.2, List.length_take, List.length_drop]
    omega
  have hwle : w.length ≤ 15 - x.space_left := by omega
  have hfront := trim_front_eq (load_byte h x (.cell 0)) mask cs 0
    (fun j hj => by rw [Nat.zero_add]; exact hrd j hj)
  have hback := trim_back_eq (load_byte h x (.cell 0)) mask cs hrd cs.length (le_refl _)
  rw [List.take_length] at hback
  rw [Nat.zero_add] at hfront
  have hslen2 : ((cs.rdropWhile (check_bit mask)).length + 18446744073709551616
      - (cs.takeWhile (check_bit mask)).length) % 18446744073709551616 = w.length := by
    omega
  have hwin2 : (x.data.drop (cs.takeWhile (check_bit mask)).length).take w.length = w := by
    have hcsdrop : cs.drop (cs.takeWhile (check_bit mask)).length
        = (x.data.drop (cs.takeWhile (check_bit mask)).length).take
            (15 - x.space_left - (cs.takeWhile (check_bit mask)).length) := by
      rw [← hcs, List.drop_take, hcs]
    rw [hwl]
    conv_rhs => rw [← hwin.2, hcsdrop, List.take_take]
    congr 1
    omega
  have hwmem : ∀ v ∈ w, v < 256 := by
    intro v hv
    rw [← hwin2] at hv
    exact data_lt x v (List.mem_of_mem_drop (List.mem_of_mem_take hv))
  have hlt : w.length < x.data.length := by omega
  have hsplit : x.data.drop w.length = x.data[w.length] :: x.data.drop (w.length + 1) :=
    List.drop_eq_getElem_cons hlt
  -- the final bytes of the cell
  have hl2len : (w ++ [0] ++ x.data.drop (w.length + 1)).length = 16 := by
    simp only [List.length_append, List.length_singleton, List.length_drop]
    omega
  have hl2lt : ∀ v ∈ w ++ [0] ++ x.data.drop (w.length + 1), v < 256 := by
    intro v hv
    simp only [List.mem_append, List.mem_singleton] at hv
    rcases hv with (hv | hv) | hv
    · exact hwmem v hv
    · omega
    · exact data_lt x v (List.mem_of_mem_drop hv)
  have hl2last : (w ++ [0] ++ x.data.drop (w.length + 1)).getD 15 0 < 16 := by
    rw [List.getD_eq_getElem?_getD]
    by_cases hn : w.length = 15
    · rw [List.getElem?_append_left (by simp; omega), List.getElem?_append_right (by omega)]
      simp [hn]
    · rw [List.getElem?_append_right (by simp; omega)]
      simp only [List.length_append, List.length_singleton, List.getElem?_drop]
      rw [show w.length + 1 + (15 - (w.length + 1)) = 15 by omega,
        byte15_inline x hl hp hf2 hf3 hs]
      exact hs
  obtain ⟨gp, gl, g2, g3, gs, tail2, gd⟩ :=
    inline_finish _ w (x.data.drop (w.length + 1)) rfl hl2len hl2lt hl2last
  have hset : ∀ y : xs, y.set_space_left ((15 + 18446744073709551616 - w.length)
      % 18446744073709551616) = y.set_space_left (15 - w.length) := by
    intro y
    unfold xs.set_space_left
    congr 1
    omega
  refine ⟨_, w, tail2, rfl, hwle, ?_, gp, gl, g2, g3, gs, gd⟩
  have hl1len : (w ++ x.data.drop w.length).length = 16 := by
    simp only [List.length_append, List.length_drop]
    omega
  have hl1lt : ∀ v ∈ w ++ x.data.drop w.length, v < 256 := by
    intro v hv
    simp only [List.mem_append] at hv
    rcases hv with hv | hv
    · exact hwmem v hv
    · exact data_lt x v (List.mem_of_mem_drop hv)
  have hx1d := data_of_data _ hl1len hl1lt
  have hlb : load_byte h (xs.of_data (w ++ x.data.drop w.length)) (.cell 0) w.length
      = some x.data[w.length] := by
    rw [load_byte_cell _ _ _ (by omega), hx1d, List.getElem?_append_right (le_refl _),
      Nat.sub_self, hsplit]
    simp
  unfold xs_trim_body
  simp only [hmask, xs_size, xs_is_ptr, hp, Bool.false_eq_true, if_false]
  rw [show 15 - x.space_left % 16 = cs.length by omega, hfront, hback]
  simp only [Option.some_bind, hslen2, Loc.add, load, Nat.zero_add, store,
    show (cs.takeWhile (check_bit mask)).length + w.length ≤ 16 by omega,
    show w.length ≤ 16 by omega, if_true, hwin2, List.take_zero, List.nil_append, hlb]
  by_cases hz : x.data[w.length] = 0
  · simp only [hz, ne_eq, not_true_eq_false, if_false, Option.map_some']
    have hflags := flags_of_small_byte15 (w ++ x.data.drop w.length) (by
      have : w ++ x.data.drop w.length = w ++ [0] ++ x.data.drop (w.length + 1) := by
        rw [hsplit, hz]; simp
      rw [this]; exact hl2last)
    simp only [hflags.1, Bool.false_eq_true, if_false, hset]
    have : w ++ x.data.drop w.length = w ++ [0] ++ x.data.drop (w.length + 1) := by
      rw [hsplit, hz]; simp
    rw [this]
  · simp only [hz, ne_eq, not_false_eq_true, if_true, List.length_singleton,
      show w.length + 1 ≤ 16 by omega, Option.map_some', hx1d]
    have e1 : (w ++ x.data.drop w.length).take w.length = w := List.take_left _ _
    have e2 : (w ++ x.data.drop w.length).drop (w.length + 1) = x.data.drop (w.length + 1) := by
      rw [List.drop_append_eq_append_drop, List.drop_of_length_le (by omega)]
      simp
    rw [e1, e2]
    have hflags := flags_of_small_byte15 (w ++ [0] ++ x.data.drop (w.length + 1)) hl2last
    simp only [hflags.1, Bool.false_eq_true, if_false, hset]

theorem cow_unshared (h : Heap) (x : xs) (d : Option Loc) (c : Int)
    (hc : xs_get_ref_count h x = some c) (hle : c ≤ 1) :
    xs_cow_lazy_copy h x d = some (h, x, d, false) := by
  unfold xs_cow_lazy_copy
  rw [hc]
  simp [hle]

/-- Result of a fresh `xs_allocate_data` for a capacity class below 31: a new
block of `2^capacity` bytes, or four more with the count 1 in front when the
length is at least `LARGE_STRING_LEN`. -/
theorem allocate_new_block (h : Heap) (x : xs) (len : Nat) (hc : x.capacity < 31) :
    ∃ h1 x1 nb, xs_allocate_data h x len false = some (h1, x1) ∧
      x1.ptr = h.blocks.length + 1 ∧ x1.is_ptr = x.is_ptr ∧ x1.lo56 = x.lo56 ∧
      x1.space_left = x.space_left ∧
      (x.is_large_string = true → x1.is_large_string = true) ∧
      (x1.is_large_string = true → x.is_large_string = true ∨ ¬ len < LARGE_STRING_LEN) ∧
      (¬ len < LARGE_STRING_LEN → x1.is_large_string = true) ∧
      h1.block (h.blocks.length + 1) = some nb ∧
      nb.length = 2 ^ x.capacity + (if len < LARGE_STRING_LEN then 0 else 4) ∧
      (¬ len < LARGE_STRING_LEN → toInt32 (leDecode (nb.take 4)) = 1) ∧
      (∀ q blk, h.block q = some blk → h1.block q = some blk) := by
  by_cases hl : len < LARGE_STRING_LEN
  · refine ⟨_, _, _, allocate_medium h x len hc hl, rfl, rfl, rfl, rfl, fun hx => hx,
      fun hx => Or.inl hx, fun hx => absurd hl hx, block_kmalloc_new h _, ?_,
      fun hx => absurd hl hx,
      fun q blk hq => block_kmalloc_old hq _⟩
    simp [Heap.fresh, hl]
  · obtain ⟨h1, ha, hblk, hkeep⟩ := allocate_large h x len hc hl
    refine ⟨h1, _, _, ha, rfl, rfl, rfl, rfl, fun _ => rfl, fun _ => Or.inr hl, fun _ => rfl,
      hblk, ?_, ?_, hkeep⟩
    · simp [Heap.fresh, hl, length_leEncode]
      omega
    · intro _
      rw [List.take_append_of_le_length (by simp [length_leEncode]),
        List.take_of_length_le (by simp [length_leEncode])]
      exact leDecode_header 1 (by decide) (by decide)

/-- The fork of `xs_cow_lazy_copy` on a shared large value, in full: the new
block starts (past its 4 header bytes) with the bytes of the string and has
room for the terminator; the old block keeps its data. -/
theorem cow_fork_content (h : Heap) (x : xs) (b : List Nat)
    (hp : x.is_ptr = true) (hl : x.is_large_string = true)
    (hb : h.block x.ptr = some b) (hroom : 4 + x.size + 1 ≤ b.length)
    (h64 : b.length < 18446744073709551616)
    (hc : 1 < toInt32 (leDecode (b.take 4))) (hcap : x.capacity < 31)
    (hfit : x.size < 2 ^ x.capacity)
    (hsmall : x.size < LARGE_STRING_LEN → 4 + x.size + 1 ≤ 2 ^ x.capacity) :
    ∃ h1 x1 nb, xs_cow_lazy_copy h x (some (.heap x.ptr 4)) =
        some (h1, x1, some (.heap x1.ptr 4), true) ∧
      x1.ptr = h.blocks.length + 1 ∧ x1.is_ptr = true ∧ x1.is_large_string = true ∧
      x1.lo56 = x.lo56 ∧ x1.space_left = x.space_left ∧
      h1.block x1.ptr = some nb ∧ 4 + x.size + 1 ≤ nb.length ∧
      nb.length < 18446744073709551616 ∧
      (nb.drop 4).take x.size = (b.drop 4).take x.size ∧
      (LARGE_STRING_LEN ≤ x.size → toInt32 (leDecode (nb.take 4)) = 1 ∧
        nb.length = 2 ^ x.capacity + 4) ∧
      (∃ hdr, hdr.length = 4 ∧ h1.block x.ptr = some (hdr ++ b.drop 4)) ∧
      (∀ q blk, q ≠ x.ptr → h.block q = some blk → h1.block q = some blk) := by
  have hg : xs_get_ref_count h x = some (toInt32 (leDecode (b.take 4))) := by
    unfold xs_get_ref_count
    simp only [xs_is_large_string, hl, Bool.not_true, Bool.false_eq_true, if_false]
    exact ref_count_at_eq hb (by omega)
  generalize hhd : h.set_block x.ptr (some (leEncode 4 (ofInt32 (toInt32 (ofInt32
    (toInt32 (leDecode (b.take 4)) - 1)))) ++ b.drop 4)) = hd
  have hdec := dec_ref_count_large hl hb (by omega : 4 ≤ b.length)
  rw [hhd] at hdec
  have hdlen : hd.blocks.length = h.blocks.length := by rw [← hhd]; exact length_set_block _ _ _
  have hdblk : hd.block x.ptr = some (leEncode 4 (ofInt32 (toInt32 (ofInt32
      (toInt32 (leDecode (b.take 4)) - 1)))) ++ b.drop 4) := by
    rw [← hhd]; exact block_set_block_same hb _
  have hdother : ∀ q, q ≠ x.ptr → hd.block q = h.block q := by
    intro q hq; rw [← hhd]; exact block_set_block_other h hq _
  obtain ⟨ha, x1, nb, hal, hx1p, hx1ip, hx1lo, hx1sp, hx1l, _, _, hnb, hnblen, hnbrc, hkeep⟩ :=
    allocate_new_block hd x x.size hcap
  rw [hdlen] at hx1p hnb
  have hx1sz : x1.size = x.size := by unfold xs.size; rw [hx1lo]
  have hx1ptr : x1.is_ptr = true := by rw [hx1ip]; exact hp
  have hx1large : x1.is_large_string = true := hx1l hl
  have hd1 : xs_data x1 = .heap x1.ptr 4 := by
    simp [xs_data, xs_is_ptr, xs_is_large_string, hx1ptr, hx1large]
  have hne : x1.ptr ≠ x.ptr := by
    have := (block_some_pos hb).2
    omega
  have h230 : 2 ^ x.capacity ≤ 2 ^ 30 := Nat.pow_le_pow_right (by decide) (by omega)
  have hpow : (2 : Nat) ^ 30 = 1073741824 := by decide
  have hnbroom : 4 + x.size + 1 ≤ nb.length := by
    rw [hnblen]
    by_cases hs : x.size < LARGE_STRING_LEN
    · simp only [hs, if_true]
      have := hsmall hs
      omega
    · simp only [hs, if_false]
      omega
  have hnb64 : nb.length < 18446744073709551616 := by
    rw [hnblen]
    split <;> omega
  -- the old data as read after the allocation
  have hold : ha.block x.ptr = some (leEncode 4 (ofInt32 (toInt32 (ofInt32
      (toInt32 (leDecode (b.take 4)) - 1)))) ++ b.drop 4) := hkeep _ _ hdblk
  have hload : load ha x1 (.heap x.ptr 4) x1.size = some ((b.drop 4).take x.size) := by
    simp only [load]
    rw [read_eq hold 4 x1.size (by rw [length_header_block _ _ (by omega), hx1sz]; omega)
      (by rw [hx1sz]; omega), hx1sz]
    rw [List.drop_left' (length_leEncode 4 _)]
  rw [← hx1p] at hnb
  obtain ⟨h1, hs1, _, hfr1, hblk1⟩ := store_then_read ha x1 x1.ptr 4 ((b.drop 4).take x.size) hnb
    (by rw [List.length_take, List.length_drop]; omega)
    (by rw [List.length_take, List.length_drop]; omega)
  have hcslen : ((b.drop 4).take x.size).length = x.size := by
    rw [List.length_take, List.length_drop]; omega
  refine ⟨h1, x1, _, ?_, hx1p, hx1ptr, hx1large, hx1lo, hx1sp, hblk1, ?_, ?_, ?_, ?_, ?_, ?_⟩
  · unfold xs_cow_lazy_copy
    rw [hg]
    simp only [Option.some_bind, not_le.mpr hc, if_false, hdec, hal, hload, hd1, hs1,
      Option.map_some']
  · simp only [List.length_append, List.length_take, List.length_drop, hcslen]
    omega
  · simp only [List.length_append, List.length_take, List.length_drop, hcslen]
    omega
  · rw [hcslen, List.append_assoc, List.drop_append_eq_append_drop,
      List.drop_of_length_le (by simp)]
    simp only [List.nil_append, List.length_take]
    rw [show 4 - min 4 nb.length = 0 by omega, List.drop_zero,
      List.take_append_of_le_length (by rw [hcslen]), List.take_of_length_le (by rw [hcslen])]
  · intro hbig
    have hs : ¬ x.size < LARGE_STRING_LEN := by omega
    have hnl : nb.length = 2 ^ x.capacity + 4 := by rw [hnblen]; simp [hs]
    constructor
    · rw [List.append_assoc, List.take_append_of_le_length (by simp; omega), List.take_take]
      exact hnbrc hs
    · simp only [List.length_append, List.length_take, List.length_drop, hcslen]
      omega
  · refine ⟨leEncode 4 (ofInt32 (toInt32 (ofInt32 (toInt32 (leDecode (b.take 4)) - 1)))),
      length_leEncode 4 _, ?_⟩
    rw [hfr1 _ (Ne.symm hne)]
    exact hold
  · intro q blk hq hlive
    have hq2 : q ≠ x1.ptr := by
      have := (block_some_pos hlive).2
      omega
    rw [hfr1 _ hq2]
    apply hkeep
    rw [hdother q hq]
    exact hlive

theorem mask_is_member (set : List Nat) :
    check_bit ((set.take (strlen set)).foldl set_bit (List.replicate 32 0)) = trim_member set := by
  funext v
  exact check_bit_mask _ v

/-- Reading a heap value whose block holds `w` and a zero byte at the data
offset. -/
theorem heap_read (h : Heap) (x : xs) (p off : Nat) (pre w rest : List Nat)
    (hd : xs_data x = .heap p off) (hp : x.is_ptr = true) (hsz : x.size = w.length)
    (hb : h.block p = some (pre ++ w ++ [0] ++ rest)) (hpre : pre.length = off)
    (h64 : (pre ++ w ++ [0] ++ rest).length < 18446744073709551616) :
    xs_size x = w.length ∧ xs_str h x = some w ∧ xs_term h x = some 0 := by
  have hs : xs_size x = w.length := by
    simp only [xs_size, xs_is_ptr, hp, if_true]
    exact hsz
  have hlen : (pre ++ w ++ [0] ++ rest).length = off + w.length + 1 + rest.length := by
    simp only [List.length_append, List.length_singleton, hpre]
  refine ⟨hs, ?_, ?_⟩
  · unfold xs_str
    rw [hd, hs]
    simp only [load]
    rw [read_eq hb off w.length (by omega) (by omega)]
    congr 1
    rw [List.append_assoc, List.append_assoc, ← hpre, List.drop_left, List.take_left]
  · unfold xs_term load_byte
    rw [hd, hs]
    simp only [load, Loc.add]
    rw [read_eq hb (off + w.length) 1 (by omega) (by omega)]
    have : (pre ++ w ++ [0] ++ rest).drop (off + w.length) = [0] ++ rest := by
      rw [List.append_assoc, ← hpre, ← List.length_append, List.drop_left]
    rw [this]
    rfl

/-- Observable result of the body of `xs_trim` on a heap value. -/
theorem trim_body_heap_obs (h : Heap) (x : xs) (p off : Nat) (set b : List Nat)
    (hd : xs_data x = .heap p off) (hp : x.is_ptr = true) (hb : h.block p = some b)
    (hroom : off + x.size + 1 ≤ b.length) (h64 : b.length < 18446744073709551616)
    (hmem : (b.drop off).take x.size = [] ∨
      ∃ v ∈ (b.drop off).take x.size, trim_member set v = false) :
    ∃ h1 x1, xs_trim_body h x (.heap p off) (.heap p off) set = some (h1, x1) ∧
      xs_size x1 = (trimmed set ((b.drop off).take x.size)).length ∧
      xs_str h1 x1 = some (trimmed set ((b.drop off).take x.size)) ∧
      xs_term h1 x1 = some 0 ∧ xs_capacity x1 = xs_capacity x ∧ x1.is_ptr = true ∧
      x1.ptr = x.ptr ∧ (∀ q, q ≠ p → h1.block q = h.block q) := by
  rw [← mask_is_member] at hmem
  obtain ⟨h1, w, hw, hwle, hbody, hblk, hfr⟩ := trim_body_heap h x p off set b hp hb hroom h64 hmem
  rw [mask_is_member] at hw
  have hw2 : trimmed set ((b.drop off).take x.size) = w := hw.symm
  rw [hw2]
  have h54 : x.size < 18014398509481984 := by
    unfold xs.size
    omega
  have hsz : (x.set_size w.length).size = w.length := by
    rw [size_set_size, Nat.mod_eq_of_lt (by omega)]
  have hto : (b.take off).length = off := by simp; omega
  have hobs := heap_read h1 (x.set_size w.length) p off (b.take off) w
    (b.drop (off + w.length + 1)) hd hp hsz hblk hto
    (by simp only [List.length_append, List.length_take, List.length_drop,
          List.length_singleton]; omega)
  refine ⟨h1, _, hbody, hobs.1, hobs.2.1, hobs.2.2, ?_, hp, rfl, hfr⟩
  have hip : (x.set_size w.length).is_ptr = true := hp
  simp only [xs_capacity, xs_is_ptr, hip, hp, if_true, capacity_set_size]

theorem xs_trim_unfold (h : Heap) (x : xs) (set : List Nat) (hset : (cbytes set 1).headD 0 ≠ 0) :
    xs_trim h x set =
      (xs_cow_lazy_copy h x (some (xs_data x))).bind (fun c =>
        xs_trim_body c.1 c.2.1 (c.2.2.1.getD (xs_data x))
          (if c.2.2.2 then c.2.2.1.getD (xs_data x) else xs_data x) set) := by
  unfold xs_trim
  simp only [hset, if_false]

/-- Trim result (the part of C3 that holds): for a well-formed value whose
bytes are not all members of a non-empty trim set (or which is empty),
`xs_trim` returns a value whose data is the old data without its leading and
trailing runs of members, whose size is the length of that remainder, with a
zero byte at `data[size]`, and with the capacity and representation kind it
had. -/
theorem xs_trim_result (h : Heap) (x : xs) (set cs : List Nat) (hv : Valid h x)
    (hset : (cbytes set 1).headD 0 ≠ 0) (hcs : xs_str h x = some cs)
    (hmem : cs = [] ∨ ∃ v ∈ cs, trim_member set v = false) :
    ∃ h1 x1, xs_trim h x set = some (h1, x1) ∧ xs_size x1 = (trimmed set cs).length ∧
      xs_str h1 x1 = some (trimmed set cs) ∧ xs_term h1 x1 = some 0 ∧
      xs_capacity x1 = xs_capacity x ∧ xs_is_ptr x1 = xs_is_ptr x := by
  rw [xs_trim_unfold h x set hset]
  unfold Valid at hv
  cases hp : x.is_ptr with
  | false =>
    simp only [hp, Bool.false_eq_true, if_false] at hv
    obtain ⟨hl, hf2, hf3, hs, _⟩ := hv
    have hdl : xs_data x = .cell 0 := by simp [xs_data, xs_is_ptr, hp]
    have hsz : xs_size x = 15 - x.space_left := by
      simp only [xs_size, xs_is_ptr, hp, Bool.false_eq_true, if_false]
      omega
    have hcs2 : cs = x.data.take (15 - x.space_left) := by
      unfold xs_str at hcs
      rw [hdl, hsz] at hcs
      simp only [load, Nat.zero_add, show 15 - x.space_left ≤ 16 by omega, if_true,
        List.drop_zero, Option.some.injEq] at hcs
      exact hcs.symm
    have hget : xs_get_ref_count h x = some 0 := by
      simp [xs_get_ref_count, xs_is_large_string, hl]
    rw [cow_unshared h x _ 0 hget (by decide)]
    simp only [Option.some_bind, Option.getD_some, Bool.false_eq_true, if_false, hdl]
    rw [hcs2, ← mask_is_member] at hmem
    obtain ⟨x1, w, tail, hw, hwle, hbody, g1, _, _, _, gs, gd⟩ :=
      trim_body_inline h x set hp hl hf2 hf3 hs hmem
    rw [mask_is_member] at hw
    have hw2 : trimmed set cs = w := by rw [hcs2]; exact hw.symm
    rw [hw2]
    obtain ⟨o1, o2, o3⟩ := inline_read h x1 w tail g1 gs (by omega) gd
    refine ⟨h, x1, hbody, o1, o2, o3, ?_, ?_⟩
    · simp [xs_capacity, xs_is_ptr, g1, hp]
    · simp [xs_is_ptr, g1, hp]
  | true =>
    simp only [hp, if_true] at hv
    obtain ⟨b, hb, h64, _, _, hcap, hfit, hv2⟩ := hv
    have h230 : 2 ^ x.capacity ≤ 2 ^ 30 := Nat.pow_le_pow_right (by decide) (by omega)
    have hpow : (2 : Nat) ^ 30 = 1073741824 := by decide
    cases hl : x.is_large_string with
    | false =>
      simp only [hl, Bool.false_eq_true, if_false] at hv2
      have hdl : xs_data x = .heap x.ptr 0 := by
        simp [xs_data, xs_is_ptr, xs_is_large_string, hp, hl]
      have hsz : xs_size x = x.size := by simp [xs_size, xs_is_ptr, hp]
      have hcs2 : cs = (b.drop 0).take x.size := by
        unfold xs_str at hcs
        rw [hdl, hsz] at hcs
        simp only [load] at hcs
        rw [read_eq hb 0 x.size (by omega) (by omega)] at hcs
        simpa using hcs.symm
      have hget : xs_get_ref_count h x = some 0 := by
        simp [xs_get_ref_count, xs_is_large_string, hl]
      rw [cow_unshared h x _ 0 hget (by decide)]
      simp only [Option.some_bind, Option.getD_some, Bool.false_eq_true, if_false, hdl]
      rw [hcs2] at hmem ⊢
      obtain ⟨h1, x1, hbody, o1, o2, o3, o4, o5, _, _⟩ :=
        trim_body_heap_obs h x x.ptr 0 set b hdl hp hb (by omega) h64 hmem
      exact ⟨h1, x1, hbody, o1, o2, o3, o4, by simp [xs_is_ptr, o5, hp]⟩
    | true =>
      simp only [hl, if_true] at hv2
      obtain ⟨h9, hblen, hrc, _⟩ := hv2
      have hdl : xs_data x = .heap x.ptr 4 := by
        simp [xs_data, xs_is_ptr, xs_is_large_string, hp, hl]
      have hsz : xs_size x = x.size := by simp [xs_size, xs_is_ptr, hp]
      have hcs2 : cs = (b.drop 4).take x.size := by
        unfold xs_str at hcs
        rw [hdl, hsz] at hcs
        simp only [load] at hcs
        rw [read_eq hb 4 x.size (by omega) (by omega)] at hcs
        simpa using hcs.symm
      have hget : xs_get_ref_count h x = some (toInt32 (leDecode (b.take 4))) := by
        unfold xs_get_ref_count
        simp only [xs_is_large_string, hl, Bool.not_true, Bool.false_eq_true, if_false]
        exact ref_count_at_eq hb (by omega)
      rw [hcs2] at hmem ⊢
      by_cases hshared : toInt32 (leDecode (b.take 4)) ≤ 1
      · rw [cow_unshared h x _ _ hget hshared]
        simp only [Option.some_bind, Option.getD_some, Bool.false_eq_true, if_false, hdl]
        obtain ⟨h1, x1, hbody, o1, o2, o3, o4, o5, _, _⟩ :=
          trim_body_heap_obs h x x.ptr 4 set b hdl hp hb (by omega) h64 hmem
        exact ⟨h1, x1, hbody, o1, o2, o3, o4, by simp [xs_is_ptr, o5, hp]⟩
      · have h29 : 2 ^ 9 ≤ 2 ^ x.capacity := Nat.pow_le_pow_right (by decide) h9
        have hpow9 : (2 : Nat) ^ 9 = 512 := by decide
        obtain ⟨hc1, x1, nb, hcow, _, hx1p, hx1l, hx1lo, hx1sp, hnb, hnbroom, hnb64, hnbcs, _, _, _⟩ :=
          cow_fork_content h x b hp hl hb (by omega) h64 (by omega) hcap hfit
            (fun hsmall => by
              have : LARGE_STRING_LEN = 256 := rfl
              omega)
        have hx1sz : x1.size = x.size := by unfold xs.size; rw [hx1lo]
        have hx1cap : x1.capacity = x.capacity := by unfold xs.capacity; rw [hx1lo, hx1sp]
        have hd1 : xs_data x1 = .heap x1.ptr 4 := by
          simp [xs_data, xs_is_ptr, xs_is_large_string, hx1p, hx1l]
        rw [hdl, hcow]
        simp only [Option.some_bind, Option.getD_some, if_true]
        rw [← hnbcs, ← hx1sz] at hmem ⊢
        obtain ⟨h1, x2, hbody, o1, o2, o3, o4, o5, _, _⟩ :=
          trim_body_heap_obs hc1 x1 x1.ptr 4 set nb hd1 hx1p hnb (by omega) hnb64 hmem
        refine ⟨h1, x2, hbody, o1, o2, o3, ?_, by simp [xs_is_ptr, o5, hp]⟩
        rw [o4]
        simp only [xs_capacity, xs_is_ptr, hx1p, hp, if_true, hx1cap]

theorem getElem?_overwrite (b bs : List Nat) (off i : Nat) (hin : off + bs.length ≤ b.length) :
    (b.take off ++ bs ++ b.drop (off + bs.length))[i]? =
      if i < off then b[i]? else if i < off + bs.length then bs[i - off]? else b[i]? := by
  have hto : (b.take off).length = off := by simp; omega
  by_cases h1 : i < off
  · simp only [h1, if_true]
    rw [List.append_assoc, List.getElem?_append_left (by omega), List.getElem?_take_of_lt h1]
  · simp only [h1, if_false]
    rw [List.append_assoc, List.getElem?_append_right (by omega), hto]
    by_cases h2 : i < off + bs.length
    · simp only [h2, if_true]
      rw [List.getElem?_append_left (by omega)]
    · simp only [h2, if_false]
      rw [List.getElem?_append_right (by omega), List.getElem?_drop]
      congr 1
      omega

theorem length_overwrite (b bs : List Nat) (off : Nat) (hin : off + bs.length ≤ b.length) :
    (b.take off ++ bs ++ b.drop (off + bs.length)).length = b.length := by
  simp only [List.length_append, List.length_take, List.length_drop]
  omega

/-- Writing `td` behind a gap of `|pd|` bytes and then `pd` into the gap is one
write of `pd ++ td`. -/
theorem overwrite_front (b td pd : List Nat) (off : Nat)
    (hin : off + pd.length + td.length ≤ b.length) :
    ((b.take (off + pd.length) ++ td ++ b.drop (off + pd.length + td.length)).take off ++ pd
      ++ (b.take (off + pd.length) ++ td ++ b.drop (off + pd.length + td.length)).drop
          (off + pd.length))
      = b.take off ++ (pd ++ td) ++ b.drop (off + (pd ++ td).length) := by
  have hl1 := length_overwrite b td (off + pd.length) (by omega)
  apply List.ext_getElem?
  intro i
  rw [getElem?_overwrite _ pd off i (by rw [hl1]; omega),
    getElem?_overwrite b (pd ++ td) off i (by simp; omega),
    getElem?_overwrite b td (off + pd.length) i (by omega)]
  simp only [List.length_append]
  by_cases h1 : i < off
  · simp [h1, show i < off + pd.length by omega]
  · by_cases h2 : i < off + pd.length
    · simp only [h1, h2, if_false, if_true, show i < off + (pd.length + td.length) by omega]
      rw [List.getElem?_append_left (by omega)]
    · by_cases h3 : i < off + pd.length + td.length
      · simp only [h1, h2, h3, if_false, if_true,
          show i < off + (pd.length + td.length) by omega]
        rw [List.getElem?_append_right (by omega)]
        congr 1
        omega
      · simp [h1, h2, h3, show ¬ i < off + (pd.length + td.length) by omega]

/-- Writing `u` and then `qz` right behind it is one write of `u ++ qz`. -/
theorem overwrite_back (b u qz : List Nat) (off : Nat)
    (hin : off + u.length + qz.length ≤ b.length) :
    ((b.take off ++ u ++ b.drop (off + u.length)).take (off + u.length) ++ qz
      ++ (b.take off ++ u ++ b.drop (off + u.length)).drop (off + u.length + qz.length))
      = b.take off ++ (u ++ qz) ++ b.drop (off + (u ++ qz).length) := by
  have hl1 := length_overwrite b u off (by omega)
  apply List.ext_getElem?
  intro i
  rw [getElem?_overwrite _ qz (off + u.length) i (by rw [hl1]; omega),
    getElem?_overwrite b (u ++ qz) off i (by simp; omega),
    getElem?_overwrite b u off i (by omega)]
  simp only [List.length_append]
  by_cases h1 : i < off
  · simp [h1, show i < off + u.length by omega]
  · by_cases h2 : i < off + u.length
    · simp only [h1, h2, if_false, if_true, show i < off + (u.length + qz.length) by omega]
      rw [List.getElem?_append_left (by omega)]
    · by_cases h3 : i < off + u.length + qz.length
      · simp only [h1, h2, h3, if_false, if_true,
          show i < off + (u.length + qz.length) by omega]
        rw [List.getElem?_append_right (by omega)]
        congr 1
        omega
      · simp [h1, h2, h3, show ¬ i < off + (u.length + qz.length) by omega]

theorem take_succ_of_getElem? (l : List Nat) (n a : Nat) (h : l[n]? = some a) :
    l.take (n + 1) = l.take n ++ [a] := by
  rw [List.take_succ, h]
  rfl

/-- Reading a well-formed operand: its bytes, and its bytes with the
terminator, in any heap that still has the operand's block. -/
theorem operand_load (h : Heap) (p : xs) (pd : List Nat) (hv : Valid h p)
    (hs : xs_str h p = some pd) :
    pd.length = xs_size p ∧ xs_size p < 1073741824 ∧ (∀ v ∈ pd, v < 256) ∧
      ∀ h2 : Heap, (p.is_ptr = true → h2.block p.ptr = h.block p.ptr) →
        load h2 p (xs_data p) (xs_size p) = some pd ∧
        load h2 p (xs_data p) (xs_size p + 1) = some (pd ++ [0]) := by
  unfold Valid at hv
  rcases Bool.eq_false_or_eq_true p.is_ptr with hp | hp
  rotate_left
  · simp only [hp, Bool.false_eq_true, if_false] at hv
    obtain ⟨_, _, _, hsl, hterm⟩ := hv
    have hdl : xs_data p = .cell 0 := by simp [xs_data, xs_is_ptr, hp]
    have hsz : xs_size p = 15 - p.space_left := by
      simp only [xs_size, xs_is_ptr, hp, Bool.false_eq_true, if_false]
      omega
    have hpd : pd = p.data.take (15 - p.space_left) := by
      unfold xs_str at hs
      rw [hdl, hsz] at hs
      simp only [load, Nat.zero_add, show 15 - p.space_left ≤ 16 by omega, if_true,
        List.drop_zero, Option.some.injEq] at hs
      exact hs.symm
    have hlen := length_data p
    refine ⟨by rw [hpd, List.length_take, hsz]; omega, by rw [hsz]; omega,
      fun v hv => data_lt p v (List.mem_of_mem_take (by rw [hpd] at hv; exact hv)), ?_⟩
    intro h2 _
    rw [hdl, hsz]
    simp only [load, Nat.zero_add, show 15 - p.space_left ≤ 16 by omega,
      show 15 - p.space_left + 1 ≤ 16 by omega, if_true, List.drop_zero]
    refine ⟨by rw [hpd], ?_⟩
    rw [take_succ_of_getElem? _ _ _ hterm, hpd]
  · simp only [hp, if_true] at hv
    obtain ⟨b, hb, h64, hbytes, _, hcap, hfit, hv2⟩ := hv
    have h230 : 2 ^ p.capacity ≤ 2 ^ 30 := Nat.pow_le_pow_right (by decide) (by omega)
    have hpow : (2 : Nat) ^ 30 = 1073741824 := by decide
    have hsz : xs_size p = p.size := by simp [xs_size, xs_is_ptr, hp]
    have key : ∀ off, xs_data p = .heap p.ptr off → off + 2 ^ p.capacity ≤ b.length →
        b[off + p.size]? = some 0 →
        pd.length = xs_size p ∧ xs_size p < 1073741824 ∧ (∀ v ∈ pd, v < 256) ∧
        ∀ h2 : Heap, (p.is_ptr = true → h2.block p.ptr = h.block p.ptr) →
          load h2 p (xs_data p) (xs_size p) = some pd ∧
          load h2 p (xs_data p) (xs_size p + 1) = some (pd ++ [0]) := by
      intro off hdl hroom hterm
      have hpd : pd = (b.drop off).take p.size := by
        unfold xs_str at hs
        rw [hdl, hsz] at hs
        simp only [load] at hs
        rw [read_eq hb off p.size (by omega) (by omega)] at hs
        simpa using hs.symm
      refine ⟨by rw [hpd, List.length_take, List.length_drop, hsz]; omega, by rw [hsz]; omega,
        fun v hv => hbytes v (List.mem_of_mem_drop (List.mem_of_mem_take
          (by rw [hpd] at hv; exact hv))), ?_⟩
      intro h2 hsame
      have hb2 : h2.block p.ptr = some b := by rw [hsame hp]; exact hb
      rw [hdl, hsz]
      simp only [load]
      rw [read_eq hb2 off p.size (by omega) (by omega),
        read_eq hb2 off (p.size + 1) (by omega) (by omega)]
      refine ⟨by rw [hpd], ?_⟩
      have : (b.drop off)[p.size]? = some 0 := by
        rw [List.getElem?_drop]; exact hterm
      rw [take_succ_of_getElem? _ _ _ this, hpd]
    rcases Bool.eq_false_or_eq_true p.is_large_string with hl | hl
    · simp only [hl, if_true] at hv2
      exact key 4 (by simp [xs_data, xs_is_ptr, xs_is_large_string, hp, hl]) (by omega)
        hv2.2.2.2
    · simp only [hl, Bool.false_eq_true, if_false] at hv2
      exact key 0 (by simp [xs_data, xs_is_ptr, xs_is_large_string, hp, hl]) (by omega)
        (by rw [Nat.zero_add]; exact hv2.2)

/-- The in-place branch of `xs_concat` on a heap buffer with room for the
result and its terminator. -/
theorem concat_body_inplace_heap (h : Heap) (x pfx sfx : xs) (dst off size cap : Nat)
    (b td pd qd : List Nat) (hp : x.is_ptr = true)
    (hb : h.block dst = some b) (h64 : b.length < 18446744073709551616)
    (htd : (b.drop off).take size = td) (htdl : td.length = size)
    (hpl : pd.length = xs_size pfx) (hql : qd.length = xs_size sfx)
    (hfit : size + xs_size pfx + xs_size sfx ≤ cap)
    (hroom : off + (size + xs_size pfx + xs_size sfx) + 1 ≤ b.length)
    (hP : ∀ h2 : Heap, (∀ a, a ≠ dst → h2.block a = h.block a) →
      load h2 pfx (xs_data pfx) (xs_size pfx) = some pd)
    (hQ : ∀ h2 : Heap, (∀ a, a ≠ dst → h2.block a = h.block a) →
      load h2 sfx (xs_data sfx) (xs_size sfx + 1) = some (qd ++ [0])) :
    ∃ h3, xs_concat_body h x pfx sfx (.heap dst off) size cap =
        some (h3, x.set_size (size + xs_size pfx + xs_size sfx)) ∧
      h3.block dst = some (b.take off ++ (pd ++ td ++ qd) ++ [0]
        ++ b.drop (off + (pd ++ td ++ qd).length + 1)) ∧
      (∀ a, a ≠ dst → h3.block a = h.block a) := by
  have hmod : (size + xs_size pfx + xs_size sfx) % 18446744073709551616
      = size + xs_size pfx + xs_size sfx := Nat.mod_eq_of_lt (by omega)
  have hld : load h x (.heap dst off) size = some td := by
    simp only [load]
    rw [read_eq hb off size (by omega) (by omega), htd]
  obtain ⟨h1, hs1, _, hfr1, hblk1⟩ := store_then_read h x dst (off + xs_size pfx) td hb
    (by omega) (by omega)
  have hl1 := length_overwrite b td (off + xs_size pfx) (by omega)
  obtain ⟨h2, hs2, _, hfr2, hblk2⟩ := store_then_read h1 x dst off pd hblk1
    (by rw [hl1]; omega) (by omega)
  have hfr12 : ∀ a, a ≠ dst → h2.block a = h.block a :=
    fun a ha => (hfr2 a ha).trans (hfr1 a ha)
  have hblk2b : h2.block dst = some (b.take off ++ (pd ++ td) ++ b.drop (off + (pd ++ td).length)) := by
    rw [hblk2]
    congr 1
    have := overwrite_front b td pd off (by omega)
    simp only [hpl, htdl, List.length_append] at this ⊢
    exact this
  have hl2 := length_overwrite b (pd ++ td) off (by simp; omega)
  obtain ⟨h3, hs3, _, hfr3, hblk3⟩ := store_then_read h2 x dst
    (off + (xs_size pfx + size)) (qd ++ [0]) hblk2b
    (by rw [hl2]; simp; omega) (by simp; omega)
  refine ⟨h3, ?_, ?_, fun a ha => (hfr3 a ha).trans (hfr12 a ha)⟩
  · unfold xs_concat_body
    simp only [hmod, hfit, if_true, hld, Option.some_bind, Loc.add, hs1, hP h1 hfr1, hs2,
      hQ h2 hfr12, hs3, Option.map_some', xs_is_ptr, hp]
  · rw [hblk3]
    congr 1
    have := overwrite_back b (pd ++ td) (qd ++ [0]) off (by simp; omega)
    simp only [hpl, htdl, hql, List.length_append, List.length_singleton] at this ⊢
    rw [this]
    simp only [List.append_assoc]
    congr 5

theorem ilog2_ge_of_pow_le (m k : Nat) (h2 : 2 ^ k ≤ m) (hm : m < 2 ^ 64) :
    k ≤ ilog2 m := by
  have h1 : 1 ≤ m := le_trans (Nat.one_le_two_pow) h2
  have := (ilog2_spec m h1 hm).2
  by_contra hc
  have : 2 ^ (ilog2 m + 1) ≤ 2 ^ k := Nat.pow_le_pow_right (by decide) (by omega)
  omega

/-- Growing the empty literal to `n` bytes, `15 < n < 2^30`: a new block with
room for `n` bytes and the terminator, large exactly from `LARGE_STRING_LEN` on. -/
theorem grow_empty_block (h : Heap) (n : Nat) (hn : 15 < n) (hn30 : n < 2 ^ 30) :
    ∃ h1 g nb off, xs_grow h xs_literal_empty n = some (h1, g) ∧
      g.is_ptr = true ∧ g.ptr = h.blocks.length + 1 ∧ xs_data g = .heap g.ptr off ∧
      g.capacity = ilog2 n + 1 ∧ g.capacity < 31 ∧ n < 2 ^ g.capacity ∧
      h1.block g.ptr = some nb ∧ nb.length = 2 ^ g.capacity + off ∧
      (g.is_large_string = true ↔ ¬ n < LARGE_STRING_LEN) ∧
      (g.is_large_string = true → off = 4 ∧ toInt32 (leDecode (nb.take 4)) = 1 ∧ 9 ≤ g.capacity) ∧
      (g.is_large_string = false → off = 0) ∧
      (∀ q blk, h.block q = some blk → h1.block q = some blk) := by
  have hpow : (2 : Nat) ^ 30 = 1073741824 := by decide
  have hk : ilog2 n < 30 := ilog2_lt_of_lt_pow _ 30 (by omega) (by decide) hn30
  have hfit : n < 2 ^ (ilog2 n + 1) := (ilog2_spec _ (by omega) (by omega)).2
  generalize hx0 : ({ xs_literal_empty with is_ptr := true } : xs).set_capacity (ilog2 n + 1) = x0
  have hx0cap : x0.capacity = ilog2 n + 1 := by
    rw [← hx0, capacity_set_capacity, Nat.mod_eq_of_lt (by omega)]
  have hx0p : x0.is_ptr = true := by rw [← hx0]; rfl
  have hx0l : x0.is_large_string = false := by rw [← hx0]; rfl
  have hx0ptr : x0.ptr = 0 := by rw [← hx0]; rfl
  have hgrow : xs_grow h xs_literal_empty n = xs_allocate_data h x0 n false := by
    unfold xs_grow
    have hcap : xs_capacity xs_literal_empty = 15 := rfl
    rw [hcap]
    simp only [not_le.mpr hn, if_false, hx0, xs_is_ptr, hx0p, if_true]
    exact allocate_realloc_null n hx0ptr
  obtain ⟨h1, g, nb, hal, hgptr, hgp, hglo, hgsp, _, hgl, hgl2, hnb, hnblen, hnbrc, hkeep⟩ :=
    allocate_new_block h x0 n (by omega)
  have hgcap : g.capacity = ilog2 n + 1 := by
    unfold xs.capacity
    rw [hglo, hgsp]
    exact hx0cap
  have hgip : g.is_ptr = true := by rw [hgp]; exact hx0p
  rw [hx0cap, ← hgcap] at hnblen
  rw [← hgptr] at hnb
  rw [hgrow, hal]
  by_cases hlarge : g.is_large_string = true
  · have hn256 : ¬ n < LARGE_STRING_LEN := by
      rcases hgl hlarge with hx | hx
      · rw [hx0l] at hx; cases hx
      · exact hx
    refine ⟨h1, g, nb, 4, rfl, hgip, hgptr, ?_, hgcap, by omega, by rw [hgcap]; exact hfit,
      hnb, ?_, ⟨fun _ => hn256, fun _ => hlarge⟩, fun _ => ⟨rfl, hnbrc hn256, ?_⟩, ?_, hkeep⟩
    · simp [xs_data, xs_is_ptr, xs_is_large_string, hgip, hlarge]
    · rw [hnblen]; simp [hn256]
    · rw [hgcap]
      have : LARGE_STRING_LEN = 256 := rfl
      have := ilog2_ge_of_pow_le n 8 (by
        have : (2 : Nat) ^ 8 = 256 := by decide
        omega) (by omega)
      omega
    · intro hx; rw [hlarge] at hx; cases hx
  · have hlf : g.is_large_string = false := by simpa using hlarge
    have hn256 : n < LARGE_STRING_LEN := by
      by_contra hx
      have := hgl2 hx
      rw [hlf] at this
      cases this
    refine ⟨h1, g, nb, 0, rfl, hgip, hgptr, ?_, hgcap, by omega, by rw [hgcap]; exact hfit,
      hnb, ?_, ⟨fun hx => absurd hx hlarge, fun hx => absurd hn256 hx⟩,
      fun hx => absurd hx hlarge, fun _ => rfl, hkeep⟩
    · simp [xs_data, xs_is_ptr, xs_is_large_string, hgip, hlf]
    · rw [hnblen]; simp [hn256]

theorem valid0_of_valid {h : Heap} {x : xs} (hv : Valid h x) : Valid0 h x := by
  unfold Valid at hv
  unfold Valid0
  rcases Bool.eq_false_or_eq_true x.is_ptr with hp | hp
  · rw [if_pos hp] at hv ⊢
    obtain ⟨b, hb, h64, _, h5, hcap, hfit, hv2⟩ := hv
    refine ⟨b, hb, h64, h5, hcap, hfit, ?_⟩
    rcases Bool.eq_false_or_eq_true x.is_large_string with hl | hl
    · rw [if_pos hl] at hv2 ⊢
      exact ⟨hv2.1, hv2.2.1, hv2.2.2.1⟩
    · rw [if_neg (by rw [hl]; decide)] at hv2 ⊢
      exact hv2.1
  · rw [if_neg (by rw [hp]; decide)] at hv ⊢
    exact ⟨hv.1, hv.2.1, hv.2.2.1, hv.2.2.2.1⟩

/-- The facts about a heap value that can be the target of a mutation, with the
data offset `off` (4 when large, else 0). -/
theorem valid0_heap {h : Heap} {x : xs} (hv : Valid0 h x) (hp : x.is_ptr = true) :
    ∃ b off, h.block x.ptr = some b ∧ xs_data x = .heap x.ptr off ∧
      b.length < 18446744073709551616 ∧
      5 ≤ x.capacity ∧ x.capacity < 31 ∧ x.size < 2 ^ x.capacity ∧
      2 ^ x.capacity + off ≤ b.length ∧
      (x.is_large_string = true → off = 4 ∧ 9 ≤ x.capacity ∧
        1 ≤ toInt32 (leDecode (b.take 4))) ∧
      (x.is_large_string = false → off = 0) := by
  unfold Valid0 at hv
  simp only [hp, if_true] at hv
  obtain ⟨b, hb, h64, h5, hcap, hfit, hv2⟩ := hv
  rcases Bool.eq_false_or_eq_true x.is_large_string with hl | hl
  · simp only [hl, if_true] at hv2
    exact ⟨b, 4, hb, by simp [xs_data, xs_is_ptr, xs_is_large_string, hp, hl], h64, h5,
      hcap, hfit, hv2.2.1, fun _ => ⟨rfl, hv2.1, hv2.2.2⟩,
      fun hx => absurd hx (by simp [hl])⟩
  · simp only [hl, Bool.false_eq_true, if_false] at hv2
    exact ⟨b, 0, hb, by simp [xs_data, xs_is_ptr, xs_is_large_string, hp, hl], h64, h5,
      hcap, hfit, by omega, fun hx => absurd hx (by simp [hl]), fun _ => rfl⟩

theorem valid0_inline {h : Heap} {x : xs} (hv : Valid0 h x) (hp : x.is_ptr = false) :
    x.is_large_string = false ∧ x.flag2 = false ∧ x.flag3 = false ∧ x.space_left < 16 := by
  unfold Valid0 at hv
  simpa only [hp, Bool.false_eq_true, if_false] using hv

/-- Building `Valid0` for a heap value from the facts about its block. -/
theorem valid0_heap_intro {h : Heap} {x : xs} {b : List Nat} (off : Nat)
    (hp : x.is_ptr = true) (hb : h.block x.ptr = some b)
    (h64 : b.length < 18446744073709551616) (h5 : 5 ≤ x.capacity) (hcap : x.capacity < 31)
    (hfit : x.size < 2 ^ x.capacity) (hroom : 2 ^ x.capacity + off ≤ b.length)
    (hlarge : x.is_large_string = true → off = 4 ∧ 9 ≤ x.capacity ∧
      1 ≤ toInt32 (leDecode (b.take 4))) : Valid0 h x := by
  unfold Valid0
  rw [if_pos hp]
  refine ⟨b, hb, h64, h5, hcap, hfit, ?_⟩
  rcases Bool.eq_false_or_eq_true x.is_large_string with hl | hl
  · rw [if_pos hl]
    obtain ⟨ho, h9, hc⟩ := hlarge hl
    subst ho
    exact ⟨h9, hroom, hc⟩
  · rw [if_neg (by rw [hl]; decide)]
    omega

/-- The rebuild branch of `xs_concat`: the result is assembled in a new block
obtained by `xs_grow` on the empty literal and the old storage is released; the
result can be the target of a further mutation. -/
theorem concat_body_rebuild_full (h : Heap) (x pfx sfx : xs) (data : Loc) (size cap : Nat)
    (td pd qd : List Nat) (hcap : 15 ≤ cap)
    (hnofit : cap < size + xs_size pfx + xs_size sfx)
    (htot : size + xs_size pfx + xs_size sfx < 2 ^ 30)
    (htdl : td.length = size) (hpl : pd.length = xs_size pfx) (hql : qd.length = xs_size sfx)
    (hT : ∀ h2 : Heap, (∀ a blk, h.block a = some blk → h2.block a = some blk) →
      load h2 x data size = some td)
    (hP : ∀ h2 : Heap, (∀ a blk, h.block a = some blk → h2.block a = some blk) →
      load h2 pfx (xs_data pfx) (xs_size pfx) = some pd)
    (hQ : ∀ h2 : Heap, (∀ a blk, h.block a = some blk → h2.block a = some blk) →
      load h2 sfx (xs_data sfx) (xs_size sfx + 1) = some (qd ++ [0]))
    (hlive : x.is_ptr = true → ∃ b, h.block x.ptr = some b ∧
      (x.is_large_string = true → 4 ≤ b.length)) :
    ∃ h4 g, xs_concat_body h x pfx sfx data size cap = some (h4, g) ∧
      g.is_ptr = true ∧ xs_size g = size + xs_size pfx + xs_size sfx ∧
      xs_str h4 g = some (pd ++ td ++ qd) ∧ xs_term h4 g = some 0 ∧
      g.capacity = ilog2 (size + xs_size pfx + xs_size sfx) + 1 ∧
      g.ptr = h.blocks.length + 1 ∧
      (∀ a blk, h.block a = some blk → (x.is_ptr = true → a ≠ x.ptr) →
        h4.block a = some blk) ∧
      Valid0 h4 g ∧
      (g.is_large_string = true → LARGE_STRING_LEN ≤ size + xs_size pfx + xs_size sfx) := by
  have hpow : (2 : Nat) ^ 30 = 1073741824 := by decide
  have hmod : (size + xs_size pfx + xs_size sfx) % 18446744073709551616
      = size + xs_size pfx + xs_size sfx := Nat.mod_eq_of_lt (by omega)
  obtain ⟨h1, g, nb, off, hgrow, hgp, hgptr, hgd, hgcap, hgcap31, hgfit, hnb, hnblen, hgiff, hgl,
    hgs, hkeep⟩ := grow_empty_block h (size + xs_size pfx + xs_size sfx) (by omega) htot
  have h230 : 2 ^ g.capacity ≤ 2 ^ 30 := Nat.pow_le_pow_right (by decide) (by omega)
  have hoff : off ≤ 4 := by
    rcases Bool.eq_false_or_eq_true g.is_large_string with hx | hx
    · have := (hgl hx).1; omega
    · have := hgs hx
      omega
  obtain ⟨ha, hsa, _, hfra, hblka⟩ := store_then_read h1 g g.ptr (off + xs_size pfx) td hnb
    (by omega) (by omega)
  have hl1 := length_overwrite nb td (off + xs_size pfx) (by omega)
  obtain ⟨hb, hsb, _, hfrb, hblkb⟩ := store_then_read ha g g.ptr off pd hblka
    (by rw [hl1]; omega) (by omega)
  have hblkb2 : hb.block g.ptr
      = some (nb.take off ++ (pd ++ td) ++ nb.drop (off + (pd ++ td).length)) := by
    rw [hblkb]
    congr 1
    have := overwrite_front nb td pd off (by omega)
    simp only [hpl, htdl, List.length_append] at this ⊢
    exact this
  have hl2 := length_overwrite nb (pd ++ td) off (by simp; omega)
  obtain ⟨hc, hsc, _, hfrc, hblkc⟩ := store_then_read hb g g.ptr
    (off + (xs_size pfx + size)) (qd ++ [0]) hblkb2
    (by rw [hl2]; simp; omega) (by simp; omega)
  have hblkc2 : hc.block g.ptr = some (nb.take off ++ (pd ++ td ++ qd) ++ [0]
      ++ nb.drop (off + (pd ++ td ++ qd).length + 1)) := by
    rw [hblkc]
    congr 1
    have := overwrite_back nb (pd ++ td) (qd ++ [0]) off (by simp; omega)
    simp only [hpl, htdl, hql, List.length_append, List.length_singleton] at this ⊢
    rw [this]
    simp only [List.append_assoc]
    congr 5
  -- blocks of the initial heap survive the allocation and the three stores
  have hold : ∀ (hh : Heap), (∀ a, a ≠ g.ptr → hh.block a = h1.block a) →
      ∀ a blk, h.block a = some blk → hh.block a = some blk := by
    intro hh hfr a blk hab
    have hne : a ≠ g.ptr := by
      have := (block_some_pos hab).2
      omega
    rw [hfr a hne]
    exact hkeep a blk hab
  have hka := hold ha hfra
  have hkb := hold hb (fun a hne => (hfrb a hne).trans (hfra a hne))
  have hkc := hold hc (fun a hne => (hfrc a hne).trans ((hfrb a hne).trans (hfra a hne)))
  -- releasing the old storage
  have hfree : ∃ h4, xs_free hc x = some (h4, xs_literal_empty) ∧
      h4.block g.ptr = hc.block g.ptr ∧
      (∀ a, (x.is_ptr = true → a ≠ x.ptr) → h4.block a = hc.block a) := by
    rcases Bool.eq_false_or_eq_true x.is_ptr with hx | hx
    · obtain ⟨bx, hbx, hbx4⟩ := hlive hx
      obtain ⟨h4, hf⟩ := xs_free_some hc x bx (fun _ => ⟨hkc _ _ hbx, hbx4⟩)
      have hne : g.ptr ≠ x.ptr := by
        have := (block_some_pos hbx).2
        omega
      exact ⟨h4, hf, xs_free_frame hf hne, fun a ha => xs_free_frame hf (ha hx)⟩
    · refine ⟨hc, ?_, rfl, fun _ _ => rfl⟩
      simp [xs_free, xs_is_ptr, hx, xs_newempty]
  obtain ⟨h4, hf, hf1, hf2⟩ := hfree
  have hsz : (g.set_size (size + xs_size pfx + xs_size sfx)).size = (pd ++ td ++ qd).length := by
    rw [size_set_size, Nat.mod_eq_of_lt (by omega)]
    simp only [List.length_append]
    omega
  have hto : (nb.take off).length = off := by simp; omega
  have hobs := heap_read h4 (g.set_size (size + xs_size pfx + xs_size sfx)) g.ptr off
    (nb.take off) (pd ++ td ++ qd) (nb.drop (off + (pd ++ td ++ qd).length + 1)) hgd hgp hsz
    (by rw [hf1]; exact hblkc2) hto
    (by simp only [List.length_append, List.length_take, List.length_drop,
          List.length_singleton]; omega)
  refine ⟨h4, g.set_size (size + xs_size pfx + xs_size sfx), ?_, hgp, ?_, hobs.2.1, hobs.2.2,
    ?_, hgptr, ?_, ?_, fun hl => Nat.le_of_not_lt (hgiff.mp hl)⟩
  · unfold xs_concat_body
    simp only [hmod, not_le.mpr hnofit, if_false, hgrow, Option.some_bind, hgd, Loc.add,
      hT h1 hkeep, hsa, hP ha hka, hsb, hQ hb hkb, hsc, hf, Option.map_some']
  · rw [hobs.1]
    simp only [List.length_append]
    omega
  · rw [capacity_set_size]; exact hgcap
  · intro a blk hab hne
    rw [hf2 a hne]
    exact hkc a blk hab
  · have hblk4 : h4.block (g.set_size (size + xs_size pfx + xs_size sfx)).ptr
        = some (nb.take off ++ (pd ++ td ++ qd) ++ [0]
          ++ nb.drop (off + (pd ++ td ++ qd).length + 1)) := by
      show h4.block g.ptr = _
      rw [hf1]; exact hblkc2
    have hlen4 : (nb.take off ++ (pd ++ td ++ qd) ++ [0]
        ++ nb.drop (off + (pd ++ td ++ qd).length + 1)).length = nb.length := by
      simp only [List.length_append, List.length_take, List.length_drop, List.length_singleton]
      omega
    have hc4 : (g.set_size (size + xs_size pfx + xs_size sfx)).capacity = g.capacity :=
      capacity_set_size _ _
    have h5 : 5 ≤ g.capacity := by
      have := ilog2_ge_of_pow_le (size + xs_size pfx + xs_size sfx) 4
        (by have : (2 : Nat) ^ 4 = 16 := by decide
            omega) (by omega)
      omega
    refine valid0_heap_intro off hgp hblk4 (by rw [hlen4]; omega) (by rw [hc4]; exact h5)
      (by rw [hc4]; exact hgcap31) ?_ (by rw [hc4, hlen4]; omega) ?_
    · rw [hc4, size_set_size, Nat.mod_eq_of_lt (by omega)]
      exact hgfit
    · intro hl
      obtain ⟨ho, hcnt, h9⟩ := hgl hl
      refine ⟨ho, by rw [hc4]; exact h9, ?_⟩
      subst ho
      rw [List.append_assoc, List.append_assoc,
        List.take_left' (by rw [List.length_take]; omega), hcnt]

/-- The rebuild branch of `xs_concat`, the observable part. -/
theorem concat_body_rebuild (h : Heap) (x pfx sfx : xs) (data : Loc) (size cap : Nat)
    (td pd qd : List Nat) (hcap : 15 ≤ cap)
    (hnofit : cap < size + xs_size pfx + xs_size sfx)
    (htot : size + xs_size pfx + xs_size sfx < 2 ^ 30)
    (htdl : td.length = size) (hpl : pd.length = xs_size pfx) (hql : qd.length = xs_size sfx)
    (hT : ∀ h2 : Heap, (∀ a blk, h.block a = some blk → h2.block a = some blk) →
      load h2 x data size = some td)
    (hP : ∀ h2 : Heap, (∀ a blk, h.block a = some blk → h2.block a = some blk) →
      load h2 pfx (xs_data pfx) (xs_size pfx) = some pd)
    (hQ : ∀ h2 : Heap, (∀ a blk, h.block a = some blk → h2.block a = some blk) →
      load h2 sfx (xs_data sfx) (xs_size sfx + 1) = some (qd ++ [0]))
    (hlive : x.is_ptr = true → ∃ b, h.block x.ptr = some b ∧
      (x.is_large_string = true → 4 ≤ b.length)) :
    ∃ h4 g, xs_concat_body h x pfx sfx data size cap = some (h4, g) ∧
      g.is_ptr = true ∧ xs_size g = size + xs_size pfx + xs_size sfx ∧
      xs_str h4 g = some (pd ++ td ++ qd) ∧ xs_term h4 g = some 0 ∧
      g.capacity = ilog2 (size + xs_size pfx + xs_size sfx) + 1 ∧
      g.ptr = h.blocks.length + 1 ∧
      (∀ a blk, h.block a = some blk → a ≠ x.ptr → h4.block a = some blk) := by
  obtain ⟨h4, g, e1, e2, e3, e4, e5, e6, e7, e8, _, _⟩ := concat_body_rebuild_full h x pfx sfx data
    size cap td pd qd hcap hnofit htot htdl hpl hql hT hP hQ hlive
  exact ⟨h4, g, e1, e2, e3, e4, e5, e6, e7, fun a blk hab hne => e8 a blk hab (fun _ => hne)⟩

theorem store_cell_eq (h : Heap) (x : xs) (off : Nat) (bs : List Nat)
    (hin : off + bs.length ≤ 16) :
    store h x (.cell off) bs =
      some (h, xs.of_data (x.data.take off ++ bs ++ x.data.drop (off + bs.length))) := by
  simp only [store, hin, if_true]

/-- The in-place branch of `xs_concat` on an inline value: the three copies
stay inside the cell and the result is the inline cell holding
`pd ++ td ++ qd` and a zero byte. -/
theorem concat_body_inplace_inline (h : Heap) (x pfx sfx : xs) (td pd qd : List Nat)
    (hp : x.is_ptr = false) (hl : x.is_large_string = false)
    (hf2 : x.flag2 = false) (hf3 : x.flag3 = false) (hs : x.space_left < 16)
    (htd : x.data.take (15 - x.space_left) = td)
    (hpl : pd.length = xs_size pfx) (hql : qd.length = xs_size sfx)
    (hpb : ∀ v ∈ pd, v < 256) (hqb : ∀ v ∈ qd, v < 256)
    (hfit : 15 - x.space_left + xs_size pfx + xs_size sfx ≤ 15)
    (hP : load h pfx (xs_data pfx) (xs_size pfx) = some pd)
    (hQ : load h sfx (xs_data sfx) (xs_size sfx + 1) = some (qd ++ [0])) :
    ∃ x1 tail, xs_concat_body h x pfx sfx (.cell 0) (15 - x.space_left) 15 = some (h, x1) ∧
      x1.is_ptr = false ∧ x1.is_large_string = false ∧ x1.flag2 = false ∧ x1.flag3 = false ∧
      x1.space_left = 15 - (pd ++ td ++ qd).length ∧
      x1.data = (pd ++ td ++ qd) ++ [0] ++ tail := by
  have hdl := length_data x
  have htdl : td.length = 15 - x.space_left := by
    rw [← htd, List.length_take]; omega
  have htdb : ∀ v ∈ td, v < 256 := by
    intro v hv
    rw [← htd] at hv
    exact data_lt x v (List.mem_of_mem_take hv)
  have hmod : (15 - x.space_left + xs_size pfx + xs_size sfx) % 18446744073709551616
      = 15 - x.space_left + xs_size pfx + xs_size sfx := Nat.mod_eq_of_lt (by omega)
  have hwl : (pd ++ td ++ qd).length = 15 - x.space_left + xs_size pfx + xs_size sfx := by
    simp only [List.length_append]; omega
  -- first store: the old bytes move right by the length of the first operand
  generalize hl1 : x.data.take (xs_size pfx) ++ td
    ++ x.data.drop (xs_size pfx + td.length) = l1
  have hl1len : l1.length = 16 := by
    rw [← hl1]; exact (length_overwrite x.data td (xs_size pfx) (by omega)).trans hdl
  have hl1b : ∀ v ∈ l1, v < 256 := by
    intro v hv
    rw [← hl1] at hv
    simp only [List.mem_append] at hv
    rcases hv with (hv | hv) | hv
    · exact data_lt x v (List.mem_of_mem_take hv)
    · exact htdb v hv
    · exact data_lt x v (List.mem_of_mem_drop hv)
  have hs1 : store h x (.cell (xs_size pfx)) td = some (h, xs.of_data l1) := by
    rw [store_cell_eq h x _ td (by omega), hl1]
  have hd1 : (xs.of_data l1).data = l1 := data_of_data l1 hl1len hl1b
  -- second store: the first operand goes in front
  generalize hl2 : x.data.take 0 ++ (pd ++ td) ++ x.data.drop (0 + (pd ++ td).length) = l2
  have hl2len : l2.length = 16 := by
    rw [← hl2]; exact (length_overwrite x.data (pd ++ td) 0 (by simp; omega)).trans hdl
  have hl2b : ∀ v ∈ l2, v < 256 := by
    intro v hv
    rw [← hl2] at hv
    simp only [List.mem_append] at hv
    rcases hv with (hv | hv | hv) | hv
    · exact data_lt x v (List.mem_of_mem_take hv)
    · exact hpb v hv
    · exact htdb v hv
    · exact data_lt x v (List.mem_of_mem_drop hv)
  have hs2 : store h (xs.of_data l1) (.cell 0) pd = some (h, xs.of_data l2) := by
    rw [store_cell_eq h _ 0 pd (by omega), hd1, ← hl1, ← hl2]
    congr 3
    have := overwrite_front x.data td pd 0 (by omega)
    simp only [hpl, Nat.zero_add] at this ⊢
    exact this
  have hd2 : (xs.of_data l2).data = l2 := data_of_data l2 hl2len hl2b
  -- third store: the second operand and its terminator go behind
  generalize hl3 : pd ++ td ++ qd ++ [0] ++ x.data.drop ((pd ++ td ++ qd).length + 1) = l3
  have hl3len : l3.length = 16 := by
    rw [← hl3]
    simp only [List.length_append, List.length_singleton, List.length_drop]
    omega
  have hl3b : ∀ v ∈ l3, v < 256 := by
    intro v hv
    rw [← hl3] at hv
    simp only [List.mem_append, List.mem_singleton] at hv
    rcases hv with ((((hv | hv) | hv) | hv) | hv)
    · exact hpb v hv
    · exact htdb v hv
    · exact hqb v hv
    · omega
    · exact data_lt x v (List.mem_of_mem_drop hv)
  have hs3 : store h (xs.of_data l2) (.cell (xs_size pfx + (15 - x.space_left))) (qd ++ [0])
      = some (h, xs.of_data l3) := by
    rw [store_cell_eq h _ _ (qd ++ [0]) (by simp; omega), hd2, ← hl2, ← hl3]
    congr 3
    have := overwrite_back x.data (pd ++ td) (qd ++ [0]) 0 (by simp; omega)
    simp only [hpl, htdl, hql, List.length_append, List.length_singleton, Nat.zero_add,
      List.take_zero, List.nil_append] at this ⊢
    rw [this]
    simp only [List.append_assoc]
    congr 4
  have hl3last : l3.getD 15 0 < 16 := by
    rw [List.getD_eq_getElem?_getD, ← hl3]
    by_cases hn : (pd ++ td ++ qd).length = 15
    · rw [List.getElem?_append_left (by simp only [List.length_append, List.length_singleton]; omega),
        List.getElem?_append_right (by omega)]
      simp [hn]
    · rw [List.getElem?_append_right (by simp only [List.length_append, List.length_singleton]; omega)]
      simp only [List.length_append, List.length_singleton, List.getElem?_drop]
      rw [show pd.length + td.length + qd.length + 1
        + (15 - (pd.length + td.length + qd.length + 1)) = 15 by
          simp only [List.length_append] at hwl hn; omega,
        byte15_inline x hl hp hf2 hf3 hs]
      exact hs
  obtain ⟨gp, gl, g2, g3, gs, tail2, gd⟩ := inline_finish l3 (pd ++ td ++ qd)
    (x.data.drop ((pd ++ td ++ qd).length + 1)) hl3.symm hl3len hl3b hl3last
  have hflags := flags_of_small_byte15 l3 hl3last
  have hset : ∀ y : xs, y.set_space_left ((15 + 18446744073709551616
      - (15 - x.space_left + xs_size pfx + xs_size sfx)) % 18446744073709551616)
      = y.set_space_left (15 - (pd ++ td ++ qd).length) := by
    intro y
    unfold xs.set_space_left
    congr 1
    rw [hwl]
    omega
  refine ⟨_, tail2, ?_, gp, gl, g2, g3, gs, gd⟩
  have hld : load h x (.cell 0) (15 - x.space_left) = some td := by
    simp only [load, Nat.zero_add, show 15 - x.space_left ≤ 16 by omega, if_true,
      List.drop_zero, htd]
  unfold xs_concat_body
  simp only [hmod, hfit, if_true, hld, Option.some_bind, Loc.add, Nat.zero_add, hs1, hP, hs2, hQ,
    hs3, Option.map_some', xs_is_ptr, hflags.1, Bool.false_eq_true, if_false, hset]

/-- The facts about a well-formed heap value, with the data offset `off`
(4 when large, else 0). -/
theorem valid_heap {h : Heap} {x : xs} (hv : Valid h x) (hp : x.is_ptr = true) :
    ∃ b off, h.block x.ptr = some b ∧ xs_data x = .heap x.ptr off ∧
      b.length < 18446744073709551616 ∧ (∀ v ∈ b, v < 256) ∧
      5 ≤ x.capacity ∧ x.capacity < 31 ∧ x.size < 2 ^ x.capacity ∧
      2 ^ x.capacity + off ≤ b.length ∧ b[off + x.size]? = some 0 ∧
      (x.is_large_string = true → off = 4 ∧ 9 ≤ x.capacity ∧
        1 ≤ toInt32 (leDecode (b.take 4))) ∧
      (x.is_large_string = false → off = 0) := by
  unfold Valid at hv
  simp only [hp, if_true] at hv
  obtain ⟨b, hb, h64, hbytes, h5, hcap, hfit, hv2⟩ := hv
  rcases Bool.eq_false_or_eq_true x.is_large_string with hl | hl
  · simp only [hl, if_true] at hv2
    exact ⟨b, 4, hb, by simp [xs_data, xs_is_ptr, xs_is_large_string, hp, hl], h64, hbytes, h5,
      hcap, hfit, hv2.2.1, hv2.2.2.2, fun _ => ⟨rfl, hv2.1, hv2.2.2.1⟩,
      fun hx => absurd hx (by simp [hl])⟩
  · simp only [hl, Bool.false_eq_true, if_false] at hv2
    exact ⟨b, 0, hb, by simp [xs_data, xs_is_ptr, xs_is_large_string, hp, hl], h64, hbytes, h5,
      hcap, hfit, by omega, by rw [Nat.zero_add]; exact hv2.2,
      fun hx => absurd hx (by simp [hl]), fun _ => rfl⟩

theorem valid_inline {h : Heap} {x : xs} (hv : Valid h x) (hp : x.is_ptr = false) :
    x.is_large_string = false ∧ x.flag2 = false ∧ x.flag3 = false ∧ x.space_left < 16 ∧
      x.data[15 - x.space_left]? = some 0 := by
  unfold Valid at hv
  simpa only [hp, Bool.false_eq_true, if_false] using hv

theorem xs_str_heap {h : Heap} {x : xs} {b : List Nat} {off : Nat} {td : List Nat}
    (hp : x.is_ptr = true) (hd : xs_data x = .heap x.ptr off) (hb : h.block x.ptr = some b)
    (hroom : off + x.size ≤ b.length) (h64 : b.length < 18446744073709551616)
    (hs : xs_str h x = some td) : (b.drop off).take x.size = td ∧ td.length = x.size := by
  unfold xs_str at hs
  have hsz : xs_size x = x.size := by simp [xs_size, xs_is_ptr, hp]
  rw [hd, hsz] at hs
  simp only [load] at hs
  rw [read_eq hb off x.size (by omega) (by omega)] at hs
  have : (b.drop off).take x.size = td := by simpa using hs
  refine ⟨this, ?_⟩
  rw [← this, List.length_take, List.length_drop]
  omega

/-- Observable result of the in-place branch of `xs_concat` on a heap value. -/
theorem concat_inplace_heap_obs (h : Heap) (x pfx sfx : xs) (off cap : Nat)
    (b td pd qd : List Nat) (hd : xs_data x = .heap x.ptr off) (hp : x.is_ptr = true)
    (hb : h.block x.ptr = some b) (h64 : b.length < 18446744073709551616)
    (htd : (b.drop off).take x.size = td) (htdl : td.length = x.size)
    (hpl : pd.length = xs_size pfx) (hql : qd.length = xs_size sfx)
    (hfit : x.size + xs_size pfx + xs_size sfx ≤ cap)
    (hroom : off + (x.size + xs_size pfx + xs_size sfx) + 1 ≤ b.length)
    (h54 : x.size + xs_size pfx + xs_size sfx < 18014398509481984)
    (hP : ∀ h2 : Heap, (∀ a, a ≠ x.ptr → h2.block a = h.block a) →
      load h2 pfx (xs_data pfx) (xs_size pfx) = some pd)
    (hQ : ∀ h2 : Heap, (∀ a, a ≠ x.ptr → h2.block a = h.block a) →
      load h2 sfx (xs_data sfx) (xs_size sfx + 1) = some (qd ++ [0])) :
    ∃ h3 x1, xs_concat_body h x pfx sfx (.heap x.ptr off) x.size cap = some (h3, x1) ∧
      xs_size x1 = x.size + xs_size pfx + xs_size sfx ∧
      xs_str h3 x1 = some (pd ++ td ++ qd) ∧ xs_term h3 x1 = some 0 ∧ x1.is_ptr = true := by
  obtain ⟨h3, hbody, hblk, _⟩ := concat_body_inplace_heap h x pfx sfx x.ptr off x.size cap
    b td pd qd hp hb h64 htd htdl hpl hql hfit hroom hP hQ
  have hsz : (x.set_size (x.size + xs_size pfx + xs_size sfx)).size = (pd ++ td ++ qd).length := by
    rw [size_set_size, Nat.mod_eq_of_lt h54]
    simp only [List.length_append]
    omega
  have hto : (b.take off).length = off := by simp; omega
  have hobs := heap_read h3 (x.set_size (x.size + xs_size pfx + xs_size sfx)) x.ptr off
    (b.take off) (pd ++ td ++ qd) (b.drop (off + (pd ++ td ++ qd).length + 1)) hd hp hsz hblk hto
    (by simp only [List.length_append, List.length_take, List.length_drop,
          List.length_singleton]; omega)
  refine ⟨h3, _, hbody, ?_, hobs.2.1, hobs.2.2, hp⟩
  rw [hobs.1]
  simp only [List.length_append]
  omega

/-- Concatenation layout (the part of C2 that holds): for well-formed `t`, `p`
and `q` whose buffers are not the buffer of `t`, with a combined length below
`2^30`, and `t` not a shared large value shorter than `LARGE_STRING_LEN`,
`xs_concat` returns a value whose data is `data(p) ++ data(t) ++ data(q)`
followed by a zero byte and whose size is the sum of the three sizes, on the
in-place path and on the rebuild path, with or without a copy-on-write fork. -/
theorem xs_concat_layout (h : Heap) (t p q : xs) (td pd qd : List Nat)
    (hvt : Valid h t) (hvp : Valid h p) (hvq : Valid h q)
    (hnp : t.is_ptr = true → p.is_ptr = true → p.ptr ≠ t.ptr)
    (hnq : t.is_ptr = true → q.is_ptr = true → q.ptr ≠ t.ptr)
    (htd : xs_str h t = some td) (hpd : xs_str h p = some pd) (hqd : xs_str h q = some qd)
    (htot : td.length + pd.length + qd.length < 2 ^ 30)
    (hnoslip : ∀ c, xs_get_ref_count h t = some c → 1 < c → LARGE_STRING_LEN ≤ xs_size t) :
    ∃ h1 t1, xs_concat h t p q = some (h1, t1) ∧
      xs_size t1 = td.length + pd.length + qd.length ∧
      xs_str h1 t1 = some (pd ++ td ++ qd) ∧ xs_term h1 t1 = some 0 := by
  have hpow : (2 : Nat) ^ 30 = 1073741824 := by decide
  obtain ⟨hpl, _, hpb, hPl⟩ := operand_load h p pd hvp hpd
  obtain ⟨hql, _, hqb, hQl⟩ := operand_load h q qd hvq hqd
  -- operands can be read in every heap that keeps the live blocks of `h`
  have hPk : ∀ h2 : Heap, (∀ a blk, h.block a = some blk → h2.block a = some blk) →
      load h2 p (xs_data p) (xs_size p) = some pd := by
    intro h2 hk
    refine (hPl h2 (fun hpp => ?_)).1
    obtain ⟨bp, _, hbp, _⟩ := valid_heap hvp hpp
    rw [hbp]; exact hk _ _ hbp
  have hQk : ∀ h2 : Heap, (∀ a blk, h.block a = some blk → h2.block a = some blk) →
      load h2 q (xs_data q) (xs_size q + 1) = some (qd ++ [0]) := by
    intro h2 hk
    refine (hQl h2 (fun hpp => ?_)).2
    obtain ⟨bp, _, hbp, _⟩ := valid_heap hvq hpp
    rw [hbp]; exact hk _ _ hbp
  unfold xs_concat
  rcases Bool.eq_false_or_eq_true t.is_ptr with hp | hp
  rotate_left
  · -- inline target
    obtain ⟨hl, hf2, hf3, hs, _⟩ := valid_inline hvt hp
    have hdl : xs_data t = .cell 0 := by simp [xs_data, xs_is_ptr, hp]
    have hsz : xs_size t = 15 - t.space_left := by
      simp only [xs_size, xs_is_ptr, hp, Bool.false_eq_true, if_false]
      omega
    have hcp : xs_capacity t = 15 := by simp [xs_capacity, xs_is_ptr, hp]
    have htd2 : t.data.take (15 - t.space_left) = td := by
      unfold xs_str at htd
      rw [hdl, hsz] at htd
      simpa only [load, Nat.zero_add, show 15 - t.space_left ≤ 16 by omega, if_true,
        List.drop_zero, Option.some.injEq] using htd
    have htdl : td.length = 15 - t.space_left := by
      rw [← htd2, List.length_take, length_data]; omega
    have hget : xs_get_ref_count h t = some 0 := by
      simp [xs_get_ref_count, xs_is_large_string, hl]
    rw [cow_unshared h t _ 0 hget (by decide)]
    simp only [Option.some_bind, Option.getD_some, hdl, hsz, hcp]
    by_cases hfit : 15 - t.space_left + xs_size p + xs_size q ≤ 15
    · obtain ⟨x1, tail, hbody, g1, _, _, _, gs, gd⟩ :=
        concat_body_inplace_inline h t p q td pd qd hp hl hf2 hf3 hs htd2 hpl hql hpb hqb hfit
          (hPl h (fun _ => rfl)).1 (hQl h (fun _ => rfl)).2
      obtain ⟨o1, o2, o3⟩ := inline_read h x1 (pd ++ td ++ qd) tail g1 gs
        (by simp only [List.length_append]; omega) gd
      refine ⟨h, x1, hbody, ?_, o2, o3⟩
      rw [o1]
      simp only [List.length_append]
      omega
    · obtain ⟨h4, g, hbody, _, o1, o2, o3, _⟩ :=
        concat_body_rebuild h t p q (.cell 0) (15 - t.space_left) 15 td pd qd (le_refl _)
          (by omega) (by omega) htdl hpl hql
          (fun _ _ => by
            simp only [load, Nat.zero_add, show 15 - t.space_left ≤ 16 by omega, if_true,
              List.drop_zero, htd2])
          hPk hQk (fun hx => by rw [hp] at hx; cases hx)
      exact ⟨h4, g, hbody, by rw [o1]; omega, o2, o3⟩
  · -- heap target
    obtain ⟨b, off, hb, hdl, h64, _, h5, hcap, hfitc, hblen, _, hlarge, hsmall⟩ := valid_heap hvt hp
    have h230 : 2 ^ t.capacity ≤ 2 ^ 30 := Nat.pow_le_pow_right (by decide) (by omega)
    have h25 : 2 ^ 5 ≤ 2 ^ t.capacity := Nat.pow_le_pow_right (by decide) h5
    have hpow5 : (2 : Nat) ^ 5 = 32 := by decide
    have hoff : off ≤ 4 := by
      rcases Bool.eq_false_or_eq_true t.is_large_string with hx | hx
      · have := (hlarge hx).1; omega
      · have := hsmall hx; omega
    have hsz : xs_size t = t.size := by simp [xs_size, xs_is_ptr, hp]
    have hcp : xs_capacity t = 2 ^ t.capacity - 1 := by simp [xs_capacity, xs_is_ptr, hp]
    obtain ⟨htd2, htdl⟩ := xs_str_heap hp hdl hb (by omega) h64 htd
    have hPf : ∀ dst, (p.is_ptr = true → p.ptr ≠ dst) → ∀ hbase : Heap,
        (p.is_ptr = true → hbase.block p.ptr = h.block p.ptr) → ∀ h2 : Heap,
        (∀ a, a ≠ dst → h2.block a = hbase.block a) →
        load h2 p (xs_data p) (xs_size p) = some pd :=
      fun dst hne hbase hsame h2 hfr =>
        (hPl h2 (fun hpp => (hfr _ (hne hpp)).trans (hsame hpp))).1
    have hQf : ∀ dst, (q.is_ptr = true → q.ptr ≠ dst) → ∀ hbase : Heap,
        (q.is_ptr = true → hbase.block q.ptr = h.block q.ptr) → ∀ h2 : Heap,
        (∀ a, a ≠ dst → h2.block a = hbase.block a) →
        load h2 q (xs_data q) (xs_size q + 1) = some (qd ++ [0]) :=
      fun dst hne hbase hsame h2 hfr =>
        (hQl h2 (fun hpp => (hfr _ (hne hpp)).trans (hsame hpp))).2
    by_cases hshared : ∃ c, xs_get_ref_count h t = some c ∧ 1 < c
    · -- shared large value: fork first
      obtain ⟨c, hgc, hc1⟩ := hshared
      have h256 := hnoslip c hgc hc1
      rw [hsz] at h256
      have hl : t.is_large_string = true := by
        by_contra hx
        have hx2 : t.is_large_string = false := by simpa using hx
        simp [xs_get_ref_count, xs_is_large_string, hx2] at hgc
        omega
      obtain ⟨ho4, h9, _⟩ := hlarge hl
      subst ho4
      have hrc : c = toInt32 (leDecode (b.take 4)) := by
        have : xs_get_ref_count h t = some (toInt32 (leDecode (b.take 4))) := by
          unfold xs_get_ref_count
          simp only [xs_is_large_string, hl, Bool.not_true, Bool.false_eq_true, if_false]
          exact ref_count_at_eq hb (by omega)
        rw [this] at hgc
        exact (Option.some.inj hgc).symm
      obtain ⟨hc, t1, nb, hcow, ht1ptr, ht1p, ht1l, ht1lo, ht1sp, hnb, hnbroom, hnb64, hnbcs, hnbbig,
        _, hckeep⟩ := cow_fork_content h t b hp hl hb (by omega) h64 (by rw [← hrc]; exact hc1)
          hcap hfitc (fun hx => by have : LARGE_STRING_LEN = 256 := rfl; omega)
      have ht1sz : t1.size = t.size := by unfold xs.size; rw [ht1lo]
      have hd1 : xs_data t1 = .heap t1.ptr 4 := by
        simp [xs_data, xs_is_ptr, xs_is_large_string, ht1p, ht1l]
      have hnblen := (hnbbig h256).2
      have hne1 : t1.ptr ≠ t.ptr := by
        have := (block_some_pos hb).2
        omega
      -- the operands' blocks are still there after the fork
      have hsameP : p.is_ptr = true → hc.block p.ptr = h.block p.ptr := by
        intro hpp
        obtain ⟨bp, _, hbp, _⟩ := valid_heap hvp hpp
        rw [hbp]; exact hckeep _ _ (hnp hp hpp) hbp
      have hsameQ : q.is_ptr = true → hc.block q.ptr = h.block q.ptr := by
        intro hpp
        obtain ⟨bp, _, hbp, _⟩ := valid_heap hvq hpp
        rw [hbp]; exact hckeep _ _ (hnq hp hpp) hbp
      have hneP : p.is_ptr = true → p.ptr ≠ t1.ptr := by
        intro hpp
        obtain ⟨bp, _, hbp, _⟩ := valid_heap hvp hpp
        have := (block_some_pos hbp).2
        omega
      have hneQ : q.is_ptr = true → q.ptr ≠ t1.ptr := by
        intro hpp
        obtain ⟨bp, _, hbp, _⟩ := valid_heap hvq hpp
        have := (block_some_pos hbp).2
        omega
      rw [hdl, hcow]
      simp only [Option.some_bind, Option.getD_some, hsz, hcp]
      rw [← hnbcs] at htd2
      rw [← ht1sz] at htd2 htdl ⊢
      by_cases hfit : t1.size + xs_size p + xs_size q ≤ 2 ^ t.capacity - 1
      · obtain ⟨h3, x1, hbody, o1, o2, o3, _⟩ :=
          concat_inplace_heap_obs hc t1 p q 4 (2 ^ t.capacity - 1) nb td pd qd hd1 ht1p hnb hnb64
            htd2 htdl hpl hql hfit (by omega) (by omega)
            (hPf t1.ptr hneP hc hsameP) (hQf t1.ptr hneQ hc hsameQ)
        exact ⟨h3, x1, hbody, by rw [o1]; omega, o2, o3⟩
      · obtain ⟨h4, g, hbody, _, o1, o2, o3, _⟩ :=
          concat_body_rebuild hc t1 p q (.heap t1.ptr 4) t1.size (2 ^ t.capacity - 1) td pd qd
            (by omega) (by omega) (by omega) htdl hpl hql
            (fun h2 hk => by
              simp only [load]
              rw [read_eq (hk _ _ hnb) 4 t1.size (by omega) (by omega)]
              exact congrArg some htd2)
            (fun h2 hk => (hPl h2 (fun hpp => by
              obtain ⟨bp, _, hbp, _⟩ := valid_heap hvp hpp
              rw [hbp]; exact hk _ _ (by rw [hsameP hpp]; exact hbp))).1)
            (fun h2 hk => (hQl h2 (fun hpp => by
              obtain ⟨bp, _, hbp, _⟩ := valid_heap hvq hpp
              rw [hbp]; exact hk _ _ (by rw [hsameQ hpp]; exact hbp))).2)
            (fun _ => ⟨nb, hnb, fun _ => by omega⟩)
        exact ⟨h4, g, hbody, by rw [o1]; omega, o2, o3⟩
    · -- medium, or large with a single holder
      have hun : ∃ c, xs_get_ref_count h t = some c ∧ c ≤ 1 := by
        rcases Bool.eq_false_or_eq_true t.is_large_string with hl | hl
        · have hg : xs_get_ref_count h t = some (toInt32 (leDecode (b.take 4))) := by
            unfold xs_get_ref_count
            simp only [xs_is_large_string, hl, Bool.not_true, Bool.false_eq_true, if_false]
            have := (hlarge hl).1
            exact ref_count_at_eq hb (by omega)
          refine ⟨_, hg, ?_⟩
          by_contra hx
          exact hshared ⟨_, hg, by omega⟩
        · exact ⟨0, by simp [xs_get_ref_count, xs_is_large_string, hl], by decide⟩
      obtain ⟨c, hgc, hc1⟩ := hun
      rw [cow_unshared h t _ c hgc hc1]
      simp only [Option.some_bind, Option.getD_some, hdl, hsz, hcp]
      by_cases hfit : t.size + xs_size p + xs_size q ≤ 2 ^ t.capacity - 1
      · obtain ⟨h3, x1, hbody, o1, o2, o3, _⟩ :=
          concat_inplace_heap_obs h t p q off (2 ^ t.capacity - 1) b td pd qd hdl hp hb h64
            htd2 htdl hpl hql hfit (by omega) (by omega)
            (hPf t.ptr (hnp hp) h (fun _ => rfl)) (hQf t.ptr (hnq hp) h (fun _ => rfl))
        exact ⟨h3, x1, hbody, by rw [o1]; omega, o2, o3⟩
      · obtain ⟨h4, g, hbody, _, o1, o2, o3, _⟩ :=
          concat_body_rebuild h t p q (.heap t.ptr off) t.size (2 ^ t.capacity - 1) td pd qd
            (by omega) (by omega) (by omega) htdl hpl hql
            (fun h2 hk => by
              simp only [load]
              rw [read_eq (hk _ _ hb) off t.size (by omega) (by omega)]
              exact congrArg some htd2)
            hPk hQk
            (fun _ => ⟨b, hb, fun hx => by have := (hlarge hx).1; omega⟩)
        exact ⟨h4, g, hbody, by rw [o1]; omega, o2, o3⟩

/-- Instance of `xs_concat_layout`: the medium value of sixteen `a` between the
inline prefix `x` and the empty suffix; the sum 17 still fits the capacity 31. -/
theorem xs_concat_layout_witness :
    ∃ h1 t1, xs_concat demo_medium_heap demo_medium_cell
        { ptr := 120, lo56 := 0, space_left := 14, is_ptr := false,
          is_large_string := false, flag2 := false, flag3 := false } xs_literal_empty
        = some (h1, t1) ∧
      xs_size t1 = (List.replicate 16 97).length + [120].length + ([] : List Nat).length ∧
      xs_str h1 t1 = some ([120] ++ List.replicate 16 97 ++ []) ∧ xs_term h1 t1 = some 0 :=
  xs_concat_layout demo_medium_heap demo_medium_cell
    { ptr := 120, lo56 := 0, space_left := 14, is_ptr := false,
      is_large_string := false, flag2 := false, flag3 := false } xs_literal_empty
    (List.replicate 16 97) [120] []
    (by
      unfold Valid
      rw [if_pos (show demo_medium_cell.is_ptr = true from rfl)]
      exact ⟨_, rfl, by decide, by decide, by decide, by decide, by decide, by decide⟩)
    (by unfold Valid; rw [if_neg (show ¬ (false = true) by decide)]; decide)
    (by unfold Valid; rw [if_neg (show ¬ (xs_literal_empty.is_ptr = true) by decide)]; decide)
    (fun _ hx => by cases hx) (fun _ hx => by cases hx)
    (by decide) (by decide) (by decide) (by decide)
    (fun c hc h1 => by
      have : xs_get_ref_count demo_medium_heap demo_medium_cell = some 0 := by decide
      rw [this] at hc
      cases hc
      exact absurd h1 (by decide))

/-- Instance of `xs_new_round_trip`: the two-byte source `hi` on the empty heap. -/
theorem xs_new_round_trip_witness :
    ∃ h1 x, xs_new demo_heap [104, 105] = some (h1, x) ∧ xs_size x = [104, 105].length ∧
      xs_str h1 x = some [104, 105] ∧ xs_term h1 x = some 0 :=
  xs_new_round_trip demo_heap [104, 105] (by decide) (by decide)

/-- Instance of `xs_trim_result`: the inline string ` x ` trimmed of blanks. -/
theorem xs_trim_result_witness :
    ∃ h1 x1, xs_trim demo_heap
        { ptr := 2127904, lo56 := 0, space_left := 12, is_ptr := false,
          is_large_string := false, flag2 := false, flag3 := false } [32, 0] = some (h1, x1) ∧
      xs_size x1 = (trimmed [32, 0] [32, 120, 32]).length ∧
      xs_str h1 x1 = some (trimmed [32, 0] [32, 120, 32]) ∧ xs_term h1 x1 = some 0 ∧
      xs_capacity x1 = xs_capacity
        { ptr := 2127904, lo56 := 0, space_left := 12, is_ptr := false,
          is_large_string := false, flag2 := false, flag3 := false } ∧
      xs_is_ptr x1 = xs_is_ptr
        { ptr := 2127904, lo56 := 0, space_left := 12, is_ptr := false,
          is_large_string := false, flag2 := false, flag3 := false } :=
  xs_trim_result demo_heap
    { ptr := 2127904, lo56 := 0, space_left := 12, is_ptr := false,
      is_large_string := false, flag2 := false, flag3 := false } [32, 0] [32, 120, 32]
    (by unfold Valid; rw [if_neg (show ¬ (false = true) by decide)]; decide)
    (by decide) (by decide) (Or.inr ⟨120, by decide, by decide⟩)

theorem strlen_replicate (n b : Nat) (hb : b % 256 ≠ 0) : strlen (List.replicate n b) = n := by
  unfold strlen
  induction n with
  | zero => rfl
  | succ n ih => simp [List.replicate_succ, List.takeWhile_cons, hb, ih]

/-- C1 (failing input). For a NUL-free source of `2^31 - 1` bytes, well below
`2^54`, `xs_new` has no defined result: the capacity class is 32 and
`1 << 32` is evaluated in `int`. -/
theorem xs_new_undefined_at_two_pow_31 :
    xs_new demo_heap (List.replicate 2147483647 65) = none := by
  have hs : strlen (List.replicate 2147483647 65) = 2147483647 :=
    strlen_replicate _ _ (by decide)
  have hl : ilog2 2147483648 = 31 := by decide
  unfold xs_new
  simp only [hs, hl]
  rfl

set_option maxRecDepth 1000000 in
/-- C2 (failing input). A large value trimmed to 255 bytes and then shared:
concatenating a 253-byte operand in place (508 ≤ capacity 511) forks into a
512-byte block addressed from offset 4, and the terminator write at offset 512
is out of bounds. -/
theorem xs_concat_shared_small_large_overflows :
    ((xs_new demo_heap (List.replicate 255 97 ++ List.replicate 45 32)).bind (fun r =>
      (xs_trim r.1 r.2 [32]).bind (fun t =>
      (xs_copy t.1 t.2).bind (fun c =>
      (xs_new c.1 (List.replicate 253 98)).map (fun p =>
        (xs_size c.2, xs_capacity c.2, xs_size p.2,
          (xs_concat p.1 c.2 p.2 xs_literal_empty).isNone)))))) =
      some (255, 511, 253, true) := by
  decide

/-- C3 (failing input). Trimming blanks from the string of two blanks has no
defined result: `slen -= i` wraps below zero and `memmove` gets that length. -/
theorem xs_trim_all_members_undefined :
    (xs_new demo_heap [32, 32]).map (fun r => (xs_size r.2, (xs_trim r.1 r.2 [32]).isNone)) =
      some (2, true) := by
  decide

/-- C8 (failing input). A medium value is trimmed to `abc` and copied (the copy
has no terminator, the byte after it reads `0x10`); appending the copy to a
12-byte inline value writes `0x10` into byte 15, which sets `is_ptr`: the
result has size 15 and capacity `2^1 - 1`. -/
theorem reachable_size_exceeds_capacity :
    ((xs_new demo_heap ([97, 98, 99] ++ List.replicate 13 32)).bind (fun r =>
      (xs_trim r.1 r.2 [32]).bind (fun t =>
      (xs_copy t.1 t.2).bind (fun q =>
      (xs_new q.1 (List.replicate 12 120)).bind (fun s =>
      (xs_concat s.1 s.2 xs_literal_empty q.2).map (fun c =>
        (xs_is_ptr c.2, xs_size c.2, xs_capacity c.2))))))) = some (true, 15, 1) := by
  decide

/-- C9 (failing input). The copy of a 16-byte medium string has its 16 bytes
but the byte at index `size` of the new buffer is the uninitialised `0x10`,
while the source has its terminator. -/
theorem xs_copy_medium_unterminated :
    ((xs_new demo_heap (List.replicate 16 97)).bind (fun r =>
      (xs_copy r.1 r.2).map (fun c =>
        (xs_is_ptr r.2, xs_is_large_string r.2, xs_term r.1 r.2, xs_size c.2, xs_term c.1 c.2)))) =
      some (true, false, some 0, 16, some 16) := by
  decide

/-- C10 (failing input). On a string made of set members only, already the
first `xs_trim` has no defined result, so there is no value to trim again. -/
theorem xs_trim_twice_undefined_on_all_members :
    (xs_new demo_heap [10, 32, 10]).map (fun r => (xs_trim r.1 r.2 [32, 10]).isNone) =
      some true := by
  decide

/-- With the empty trim set `xs_trim` returns the heap and the cell as they are. -/
theorem xs_trim_empty_set (h : Heap) (x : xs) : xs_trim h x [] = some (h, x) := rfl

set_option maxRecDepth 1000000 in
/-- C4 (counterexample). With the empty trim set no fork takes place and both
cells keep the same block; and with a count of `INT_MAX` the copy wraps the
count, so a following `xs_concat` writes into the shared block: the first data
byte of `a` changes from `a` to `(`. -/
theorem cow_isolation_counterexample :
    ((xs_copy (demo_large_heap [1, 0, 0, 0]) demo_large_cell).bind (fun r =>
      (xs_trim r.1 r.2 []).map (fun t => decide (t.2.ptr = demo_large_cell.ptr)))) = some true ∧
    (xs_str (demo_large_heap [255, 255, 255, 127]) demo_large_cell).map List.head? =
      some (some 97) ∧
    ((xs_copy (demo_large_heap [255, 255, 255, 127]) demo_large_cell).bind (fun r =>
      (xs_new r.1 [40]).bind (fun p =>
      (xs_concat p.1 r.2 p.2 xs_literal_empty).bind (fun t =>
        (xs_str t.1 demo_large_cell).map List.head?)))) = some (some 40) := by
  decide

set_option maxRecDepth 1000000 in
/-- C5 (counterexample). At a count of `INT_MAX` the copy leaves `INT_MIN` in
the header, not the count plus one. -/
theorem xs_copy_count_wraps :
    xs_get_ref_count (demo_large_heap [255, 255, 255, 127]) demo_large_cell = some 2147483647 ∧
    ((xs_copy (demo_large_heap [255, 255, 255, 127]) demo_large_cell).bind (fun r =>
      xs_get_ref_count r.1 r.2)) = some (-2147483648) := by
  decide

set_option maxRecDepth 1000000 in
/-- Witness of C5: a large value with count 1 is copied, the count becomes 2. -/
theorem xs_copy_large_shares_witness :
    ∃ h1, xs_copy (demo_large_heap [1, 0, 0, 0]) demo_large_cell = some (h1, demo_large_cell) ∧
      xs_get_ref_count h1 demo_large_cell = some (1 + 1) ∧
      h1.block demo_large_cell.ptr =
        some (leEncode 4 (ofInt32 (1 + 1)) ++ (demo_large_block [1, 0, 0, 0]).drop 4) ∧
      (∀ q, q ≠ demo_large_cell.ptr → h1.block q = (demo_large_heap [1, 0, 0, 0]).block q) :=
  xs_copy_large_shares (demo_large_heap [1, 0, 0, 0]) demo_large_cell
    (demo_large_block [1, 0, 0, 0]) 1 rfl rfl rfl (by decide) (by decide) (by decide)

set_option maxRecDepth 1000000 in
/-- Witness of C6: releasing one of two holders of a large block keeps the
block, with count 1. -/
theorem xs_free_release_rule_witness :
    ∃ h1, xs_free (demo_large_heap [2, 0, 0, 0]) demo_large_cell = some (h1, xs_literal_empty) ∧
      xs_get_ref_count h1 demo_large_cell = some 1 := by
  obtain ⟨h1, hf, _, _, hkeep, _⟩ :=
    xs_free_release_rule (demo_large_heap [2, 0, 0, 0]) demo_large_cell
      (demo_large_block [2, 0, 0, 0]) (fun _ => ⟨rfl, fun _ => by decide⟩)
  have e : toInt32 (leDecode ((demo_large_block [2, 0, 0, 0]).take 4)) - 1 = 1 := by decide
  have hk := (hkeep rfl rfl (by decide)).2
  rw [e] at hk
  exact ⟨h1, hf, hk⟩

/-- Witness of C7: a medium value is released and released again. -/
theorem xs_free_resets_idempotent_witness :
    ∃ h1 x1, xs_free demo_medium_heap demo_medium_cell = some (h1, x1) ∧
      x1.is_ptr = false ∧ x1.is_large_string = false ∧ x1.space_left = 15 ∧
      xs_size x1 = 0 ∧ xs_capacity x1 = 15 ∧ x1 = xs_literal_empty ∧
      xs_free h1 x1 = some (h1, x1) :=
  xs_free_resets_idempotent demo_medium_heap demo_medium_cell
    (List.replicate 16 97 ++ [0] ++ List.replicate 15 16)
    (fun _ => ⟨rfl, fun hx => absurd hx (by decide)⟩)

set_option maxRecDepth 1000000 in
/-- Witness of C4: the isolation theorem at a large value with count 1, together
with a trim and a concatenation on the copy that do have a result. -/
theorem cow_isolation_witness :
    (∃ hcp, xs_copy (demo_large_heap [1, 0, 0, 0]) demo_large_cell = some (hcp, demo_large_cell) ∧
      (∀ set h2 b2, (cbytes set 1).headD 0 ≠ 0 → xs_trim hcp demo_large_cell set = some (h2, b2) →
        b2.ptr ≠ demo_large_cell.ptr ∧
        xs_str h2 demo_large_cell = xs_str (demo_large_heap [1, 0, 0, 0]) demo_large_cell ∧
        xs_term h2 demo_large_cell = xs_term (demo_large_heap [1, 0, 0, 0]) demo_large_cell ∧
          ∃ hdr, hdr.length = 4 ∧
            h2.block demo_large_cell.ptr = some (hdr ++ (demo_large_block [1, 0, 0, 0]).drop 4)) ∧
      (∀ p q h2 b2, xs_concat hcp demo_large_cell p q = some (h2, b2) →
        b2.ptr ≠ demo_large_cell.ptr ∧
        xs_str h2 demo_large_cell = xs_str (demo_large_heap [1, 0, 0, 0]) demo_large_cell ∧
        xs_term h2 demo_large_cell = xs_term (demo_large_heap [1, 0, 0, 0]) demo_large_cell ∧
          ∃ hdr, hdr.length = 4 ∧
            h2.block demo_large_cell.ptr = some (hdr ++ (demo_large_block [1, 0, 0, 0]).drop 4))) ∧
    ((xs_copy (demo_large_heap [1, 0, 0, 0]) demo_large_cell).bind (fun r =>
      (xs_trim r.1 r.2 [32]).map (fun t => (xs_size t.2, t.2.ptr)))) = some (128, 2) ∧
    ((xs_copy (demo_large_heap [1, 0, 0, 0]) demo_large_cell).bind (fun r =>
      (xs_concat r.1 r.2 xs_literal_empty xs_literal_empty).map (fun t =>
        (xs_size t.2, t.2.ptr)))) = some (256, 2) :=
  ⟨cow_isolation (demo_large_heap [1, 0, 0, 0]) demo_large_cell (demo_large_block [1, 0, 0, 0]) 1
      rfl rfl (by decide) (by decide) rfl (by decide) (by decide) (by decide) (by decide),
    by decide, by decide⟩

theorem length_fresh (h : Heap) (s n : Nat) : (h.fresh s n).length = n := by
  simp [Heap.fresh]

theorem length_splice (blk bs : List Nat) (off : Nat) (hin : off + bs.length ≤ blk.length) :
    (blk.take off ++ bs ++ blk.drop (off + bs.length)).length = blk.length := by
  simp only [List.length_append, List.length_take, List.length_drop]
  omega

theorem fresh_lt (h : Heap) (s n : Nat) : ∀ v ∈ h.fresh s n, v < 256 := by
  intro v hv
  simp only [Heap.fresh, List.mem_map] at hv
  obtain ⟨i, _, rfl⟩ := hv
  exact Nat.mod_lt _ (by decide)

theorem splice_lt (blk bs : List Nat) (off k : Nat) (hblk : ∀ v ∈ blk, v < 256)
    (hbs : ∀ v ∈ bs, v < 256) : ∀ v ∈ blk.take off ++ bs ++ blk.drop k, v < 256 := by
  intro v hv
  simp only [List.mem_append] at hv
  rcases hv with (hv | hv) | hv
  · exact hblk v (List.mem_of_mem_take hv)
  · exact hbs v hv
  · exact hblk v (List.mem_of_mem_drop hv)

/-- The cell and the block that `xs_new` builds for a source of 16 bytes or
more (below the `int` shift limit): capacity class `ilog2(len) + 1`, the large
flag exactly from `LARGE_STRING_LEN` on, and a new block of `2^capacity` bytes
holding the source and its terminator, after a 4-byte count of 1 when large. -/
theorem xs_new_heap_layout (h : Heap) (p : List Nat) (hnul : ∀ b ∈ p, b ≠ 0 ∧ b < 256)
    (h16 : 16 ≤ p.length) (hlen : p.length + 1 < 2 ^ 30) :
    ∃ h1 x nb, xs_new h p = some (h1, x) ∧ x.is_ptr = true ∧ x.ptr = h.blocks.length + 1 ∧
      x.capacity = ilog2 (p.length + 1) + 1 ∧ x.size = p.length ∧
      x.flag2 = false ∧ x.flag3 = false ∧
      (x.is_large_string = true ↔ LARGE_STRING_LEN ≤ p.length) ∧
      h1.block x.ptr = some nb ∧ (∀ v ∈ nb, v < 256) ∧
      (x.is_large_string = false → nb.length = 2 ^ x.capacity ∧ ∃ rest, nb = p ++ [0] ++ rest) ∧
      (x.is_large_string = true → nb.length = 2 ^ x.capacity + 4 ∧
        ∃ rest, nb = leEncode 4 (ofInt32 1) ++ (p ++ [0]) ++ rest) ∧
      (∀ q blk, h.block q = some blk → h1.block q = some blk) := by
  have hk : ilog2 (p.length + 1) < 30 :=
    ilog2_lt_of_lt_pow _ 30 (by omega) (by decide) hlen
  have hfit : p.length + 1 < 2 ^ (ilog2 (p.length + 1) + 1) :=
    (ilog2_spec _ (by omega) (lt_trans hlen (by decide))).2
  have hpow : (2 : Nat) ^ 30 = 1073741824 := by decide
  have h54 : p.length < 18014398509481984 := by omega
  have h230 : 2 ^ (ilog2 (p.length + 1) + 1) ≤ 2 ^ 30 :=
    Nat.pow_le_pow_right (by decide) (by omega)
  unfold xs_new
  simp only [strlen_nul_free p hnul, cbytes_nul_free p hnul, gt_iff_lt,
    show 16 < p.length + 1 by omega, if_true, Nat.add_sub_cancel]
  generalize hx0 : ({ (xs_literal_empty.set_capacity (ilog2 (p.length + 1) + 1)).set_size p.length
    with is_ptr := true } : xs) = x0
  have hsz : x0.size = p.length := by
    rw [← hx0]
    show ((xs_literal_empty.set_capacity _).set_size p.length).size = _
    rw [size_set_size, Nat.mod_eq_of_lt h54]
  have hcp : x0.capacity = ilog2 (p.length + 1) + 1 := by
    rw [← hx0]
    show ((xs_literal_empty.set_capacity _).set_size p.length).capacity = _
    rw [capacity_set_size, capacity_set_capacity, Nat.mod_eq_of_lt (by omega)]
  have hip : x0.is_ptr = true := by rw [← hx0]
  have hil : x0.is_large_string = false := by rw [← hx0]; rfl
  have hf2 : x0.flag2 = false := by rw [← hx0]; rfl
  have hf3 : x0.flag3 = false := by rw [← hx0]; rfl
  have hlarge : LARGE_STRING_LEN = 256 := rfl
  have hpl : (p ++ [0]).length = p.length + 1 := by simp
  have hpb : ∀ v ∈ p ++ [0], v < 256 := by
    intro v hv
    simp only [List.mem_append, List.mem_singleton] at hv
    rcases hv with hv | hv
    · exact (hnul v hv).2
    · omega
  by_cases hmed : x0.size < LARGE_STRING_LEN
  · rw [allocate_medium h x0 x0.size (by omega) hmed]
    simp only [Option.some_bind]
    have hd : xs_data ({ x0 with ptr := h.blocks.length + 1 } : xs)
        = .heap (h.blocks.length + 1) 0 := by
      simp [xs_data, xs_is_ptr, xs_is_large_string, hip, hil]
    rw [hd]
    have hfl : (h.fresh 0 (2 ^ x0.capacity)).length = 2 ^ x0.capacity := length_fresh _ _ _
    obtain ⟨h1, hs, _, hfr, hblk⟩ := store_then_read (kmalloc h (2 ^ x0.capacity)).2
      ({ x0 with ptr := h.blocks.length + 1 } : xs) (h.blocks.length + 1) 0
      (p ++ [0]) (block_kmalloc_new h (2 ^ x0.capacity))
      (by rw [hfl, hcp, hpl]; omega) (by rw [hpl]; omega)
    refine ⟨h1, _, _, hs, hip, rfl, hcp, hsz, hf2, hf3, ?_, hblk,
      splice_lt _ _ _ _ (fresh_lt _ _ _) hpb, ?_, ?_, ?_⟩
    · show x0.is_large_string = true ↔ _
      rw [hil]
      constructor
      · intro hx; cases hx
      · intro hx; omega
    · intro _
      refine ⟨?_, (h.fresh 0 (2 ^ x0.capacity)).drop (0 + (p ++ [0]).length), by simp⟩
      rw [length_splice _ _ _ (by rw [hfl, hcp, hpl]; omega), hfl]
      rfl
    · intro hx
      have : x0.is_large_string = true := hx
      rw [hil] at this; cases this
    · intro q blk hq
      rw [hfr q (fun hx => kmalloc_ne_live hq (2 ^ x0.capacity) hx.symm)]
      exact block_kmalloc_old hq _
  · obtain ⟨ha1, ha, hblk0, hkeep⟩ := allocate_large h x0 x0.size (by omega) hmed
    rw [ha]
    simp only [Option.some_bind]
    have hd : xs_data ({ x0 with is_large_string := true, ptr := h.blocks.length + 1 } : xs)
        = .heap (h.blocks.length + 1) 4 := by
      simp [xs_data, xs_is_ptr, xs_is_large_string, hip]
    rw [hd]
    have hbl : (leEncode 4 (ofInt32 1) ++ (h.fresh 0 (2 ^ x0.capacity + 4)).drop 4).length
        = 2 ^ x0.capacity + 4 := by
      simp only [List.length_append, length_leEncode, List.length_drop, length_fresh]
      rw [Nat.add_sub_cancel, Nat.add_comm]
    obtain ⟨h1, hs, _, hfr, hblk⟩ := store_then_read ha1
      ({ x0 with is_large_string := true, ptr := h.blocks.length + 1 } : xs)
      (h.blocks.length + 1) 4 (p ++ [0]) hblk0
      (by rw [hbl, hcp, hpl]; omega) (by rw [hpl]; omega)
    refine ⟨h1, _, _, hs, hip, rfl, hcp, hsz, hf2, hf3, ?_, hblk,
      splice_lt _ _ _ _ ?_ hpb, ?_, ?_, ?_⟩
    · show true = true ↔ LARGE_STRING_LEN ≤ p.length
      rw [hsz] at hmed
      exact ⟨fun _ => Nat.le_of_not_lt hmed, fun _ => rfl⟩
    · intro v hv
      simp only [List.mem_append] at hv
      rcases hv with hv | hv
      · exact leEncode_lt _ _ v hv
      · exact fresh_lt _ _ _ v (List.mem_of_mem_drop hv)
    · intro hx; cases hx
    · intro _
      refine ⟨?_, (leEncode 4 (ofInt32 1) ++ (h.fresh 0 (2 ^ x0.capacity + 4)).drop 4).drop
        (4 + (p ++ [0]).length), ?_⟩
      · rw [length_splice _ _ _ (by rw [hbl, hcp, hpl]; omega), hbl]
        rfl
      · rw [List.take_left' (length_leEncode 4 _)]
    · intro q blk hq
      have hne : q ≠ h.blocks.length + 1 := by
        have := (block_some_pos hq).2
        omega
      rw [hfr q hne]
      exact hkeep q blk hq

/-- One `xs_copy` of a large value whose block is `hdr ++ tl` with count `c`:
the cell is returned as it is and the header becomes `c + 1`. -/
theorem copy_large_step {h : Heap} {x : xs} {hdr tl : List Nat} (c d : Int)
    (hp : x.is_ptr = true) (hl : x.is_large_string = true)
    (hb : h.block x.ptr = some (hdr ++ tl)) (hh : hdr.length = 4)
    (hc : toInt32 (leDecode hdr) = c) (h1 : 1 ≤ c) (hmax : c < 2147483647) (hd : c + 1 = d) :
    ∃ h1, xs_copy h x = some (h1, x) ∧ h1.block x.ptr = some (leEncode 4 (ofInt32 d) ++ tl) ∧
      toInt32 (leDecode (leEncode 4 (ofInt32 d))) = d ∧
      (∀ q, q ≠ x.ptr → h1.block q = h.block q) := by
  have ht : (hdr ++ tl).take 4 = hdr := List.take_left' hh
  have hdp : (hdr ++ tl).drop 4 = tl := List.drop_left' hh
  have h4 : 4 ≤ (hdr ++ tl).length := by simp only [List.length_append]; omega
  have hcp := xs_copy_large_eq hp hl hb h4 (by rw [ht]; exact hc) hmax
  rw [hdp, hd] at hcp
  refine ⟨_, hcp, block_set_block_same hb _, leDecode_header d (by omega) (by omega), ?_⟩
  intro q hq
  exact block_set_block_other h hq _

/-- The old block after a fork: its count is the decremented one and its data
bytes are untouched. -/
theorem cow_fork_old_block {h : Heap} {x : xs} {d : Loc} {b : List Nat}
    {r : Heap × xs × Option Loc × Bool}
    (hp : x.is_ptr = true) (hl : x.is_large_string = true)
    (hb : h.block x.ptr = some b) (h4 : 4 ≤ b.length)
    (hc : 1 < toInt32 (leDecode (b.take 4)))
    (hcow : xs_cow_lazy_copy h x (some d) = some r) :
    r.1.block x.ptr =
      some (leEncode 4 (ofInt32 (toInt32 (ofInt32 (toInt32 (leDecode (b.take 4)) - 1))))
        ++ b.drop 4) := by
  obtain ⟨_, _, hrp, hne, _, _, _, _⟩ := cow_fork hp hl hb h4 hc hcow
  unfold xs_cow_lazy_copy at hcow
  have hg : xs_get_ref_count h x = some (toInt32 (leDecode (b.take 4))) := by
    unfold xs_get_ref_count
    simp only [xs_is_large_string, hl, Bool.not_true, Bool.false_eq_true, if_false]
    exact ref_count_at_eq hb h4
  rw [hg] at hcow
  simp only [Option.some_bind, not_le.mpr hc, if_false] at hcow
  rw [dec_ref_count_large hl hb h4] at hcow
  simp only [Option.some_bind, Option.bind_eq_some, Option.map_eq_some'] at hcow
  obtain ⟨a, ha, bs, _, s, hs, rfl⟩ := hcow
  obtain ⟨haptr, haisp, _, _, _, hakeep⟩ := allocate_fresh ha
  have hblk := block_set_block_same hb
    (some (leEncode 4 (ofInt32 (toInt32 (ofInt32 (toInt32 (leDecode (b.take 4)) - 1)))) ++ b.drop 4))
  have hap : a.2.is_ptr = true := by rw [haisp]; exact hp
  obtain ⟨off, hoff⟩ := xs_data_heap hap
  rw [hoff] at hs
  obtain ⟨hs2, hsframe, _⟩ := store_heap hs
  have hne2 : x.ptr ≠ a.2.ptr := by
    have : s.2.ptr ≠ x.ptr := hne
    rw [hs2] at this
    exact Ne.symm this
  show s.1.block x.ptr = _
  rw [hsframe _ hne2]
  exact hakeep _ _ hblk

theorem getElem?_terminator (pre w rest : List Nat) :
    (pre ++ w ++ [0] ++ rest)[pre.length + w.length]? = some 0 := by
  have hl : pre.length + w.length = (pre ++ w).length := by simp
  rw [hl, List.append_assoc (pre ++ w), List.getElem?_append_right (le_refl _)]
  simp

/-- Well-formedness only depends on the block the value points to. -/
theorem valid_of_same_block {h h2 : Heap} {x : xs} (hv : Valid h x)
    (hsame : x.is_ptr = true → h2.block x.ptr = h.block x.ptr) : Valid h2 x := by
  unfold Valid at hv ⊢
  rcases Bool.eq_false_or_eq_true x.is_ptr with hp | hp
  · rw [if_pos hp] at hv ⊢
    rw [hsame hp]
    exact hv
  · rw [if_neg (by rw [hp]; decide)] at hv ⊢
    exact hv

set_option maxRecDepth 1000000 in
/-- C13. Trim-then-wrap scenario on the 16-byte input ` \n foobarbar \n\n\n` of
the specification (a medium value) and on the 15-byte input `\n foobarbar \n\n\n`
of `xs_trivia_test` (an inline value): after `xs_trim` with the set `\n ` the
data is `foobarbar` with size 9; after `xs_concat` with `(((` and `)))` the data
is `(((foobarbar)))` with size 15 and a zero byte at index 15; in the inline
case the result is still inline, with `space_left = 0` and byte 15 zero. -/
theorem trim_then_wrap_scenario :
    ((xs_new demo_heap [32, 10, 32, 102, 111, 111, 98, 97, 114, 98, 97, 114, 32, 10, 10, 10]).bind
      (fun r => (xs_trim r.1 r.2 [10, 32]).bind (fun t =>
      (xs_new t.1 [40, 40, 40]).bind (fun p =>
      (xs_new p.1 [41, 41, 41]).bind (fun q =>
      (xs_concat q.1 t.2 p.2 q.2).map (fun c =>
        (xs_str t.1 t.2, xs_size t.2, xs_str c.1 c.2, xs_size c.2, xs_term c.1 c.2))))))) =
      some (some [102, 111, 111, 98, 97, 114, 98, 97, 114], 9,
        some [40, 40, 40, 102, 111, 111, 98, 97, 114, 98, 97, 114, 41, 41, 41], 15, some 0) ∧
    ((xs_new demo_heap [10, 32, 102, 111, 111, 98, 97, 114, 98, 97, 114, 32, 10, 10, 10]).bind
      (fun r => (xs_trim r.1 r.2 [10, 32]).bind (fun t =>
      (xs_new t.1 [40, 40, 40]).bind (fun p =>
      (xs_new p.1 [41, 41, 41]).bind (fun q =>
      (xs_concat q.1 t.2 p.2 q.2).map (fun c =>
        (xs_str t.1 t.2, xs_size t.2, xs_str c.1 c.2, xs_size c.2, xs_term c.1 c.2))))))) =
      some (some [102, 111, 111, 98, 97, 114, 98, 97, 114], 9,
        some [40, 40, 40, 102, 111, 111, 98, 97, 114, 98, 97, 114, 41, 41, 41], 15, some 0) ∧
    ((xs_new demo_heap [10, 32, 102, 111, 111, 98, 97, 114, 98, 97, 114, 32, 10, 10, 10]).bind
      (fun r => (xs_trim r.1 r.2 [10, 32]).bind (fun t =>
      (xs_new t.1 [40, 40, 40]).bind (fun p =>
      (xs_new p.1 [41, 41, 41]).bind (fun q =>
      (xs_concat q.1 t.2 p.2 q.2).map (fun c =>
        (xs_is_ptr r.2, xs_is_ptr t.2, xs_is_ptr c.2, c.2.space_left, c.2.data.getD 15 1))))))) =
      some (false, false, false, 0, 0) := by
  refine ⟨by decide, by decide, by decide⟩

/-- C11 (failing input). For a NUL-free source of `2^30 - 1` bytes `xs_new`
has no defined result, so no large value with count 1 is produced: the
capacity class is 31 and `1 << 31` is evaluated in `int`. -/
theorem xs_new_undefined_at_two_pow_30 :
    ilog2 1073741824 + 1 = 31 ∧ xs_new demo_heap (List.replicate 1073741823 65) = none := by
  have hs : strlen (List.replicate 1073741823 65) = 1073741823 :=
    strlen_replicate _ _ (by decide)
  have hl : ilog2 1073741824 = 30 := by decide
  refine ⟨by rw [hl], ?_⟩
  unfold xs_new
  simp only [hs, hl]
  rfl

/-- C12 (failing input). Two inline values within the 15-byte limit: trimming
`aaa` by the set `a` has no defined result (`slen -= i` wraps), and appending
the unterminated 2-byte medium copy `ab` to a 13-byte inline value writes the
byte after the copy, `0x10`, into byte 15, so the result has `is_ptr` set. -/
theorem inline_ops_leave_inline_fails :
    (xs_new demo_heap [97, 97, 97]).map
      (fun r => (xs_is_ptr r.2, xs_size r.2, (xs_trim r.1 r.2 [97]).isNone)) =
      some (false, 3, true) ∧
    ((xs_new demo_heap ([97, 98] ++ List.replicate 14 32)).bind (fun r =>
      (xs_trim r.1 r.2 [32]).bind (fun t =>
      (xs_copy t.1 t.2).bind (fun q =>
      (xs_new q.1 (List.replicate 13 120)).bind (fun s =>
      (xs_concat s.1 s.2 xs_literal_empty q.2).map (fun c =>
        (xs_is_ptr s.2, xs_size s.2, xs_size q.2, xs_is_ptr c.2))))))) =
      some (false, 13, 2, true) := by
  refine ⟨by decide, by decide⟩

set_option maxRecDepth 1000000 in
/-- C15 (failing input). `x` is a large value trimmed to 255 bytes with count 1
and `a` has 253 bytes: `xs_concat(x, a, empty)` gives the 508 bytes `a ++ x`
in place, but on the copy `y` of `x` (count 2) the fork inside
`xs_concat(y, a, empty)` allocates 512 bytes for a data area at offset 4 and
the call has no defined result. -/
theorem concat_via_copy_undefined :
    ((xs_new demo_heap (List.replicate 255 97 ++ List.replicate 45 32)).bind (fun r =>
      (xs_trim r.1 r.2 [32]).bind (fun t =>
      (xs_new t.1 (List.replicate 253 98)).bind (fun a =>
      (xs_concat a.1 t.2 a.2 xs_literal_empty).bind (fun d =>
      (xs_copy a.1 t.2).map (fun y =>
        (xs_size d.2,
          (xs_str d.1 d.2).map
            (fun l => decide (l = List.replicate 253 98 ++ List.replicate 255 97)),
          xs_get_ref_count a.1 t.2,
          (xs_concat y.1 y.2 a.2 xs_literal_empty).isNone))))))) =
      some (508, some true, some 1, true) := by
  decide

/-- C17 (failing input). Growing the inline value `abc` to 16 bytes has no
defined result: `is_ptr` is set before it is tested, so `krealloc` is called on
the first eight content bytes (`0x636261`) as a pointer; growing it to 15 bytes
returns it unchanged. -/
theorem xs_grow_inline_undefined :
    (xs_new demo_heap [97, 98, 99]).map (fun r =>
      (xs_is_ptr r.2, xs_capacity r.2, r.2.ptr, (xs_grow r.1 r.2 15).isSome,
        (xs_grow r.1 r.2 16).isNone)) =
      some (false, 15, 6513249, true, true) := by
  decide

set_option maxRecDepth 1000000 in
/-- C18 (failing input). Growing the medium value of sixteen `a` to 256 bytes
makes it large: the count is written over the first four content bytes and the
data pointer moves four bytes on, so the value keeps size 16 but its data is
twelve `a`, the old terminator and three bytes from behind it, and `data[16]`
is no longer zero. -/
theorem xs_grow_medium_to_large_shifts :
    ((xs_new demo_heap (List.replicate 16 97)).bind (fun r =>
      (xs_grow r.1 r.2 256).map (fun g =>
        (xs_size r.2, xs_str r.1 r.2, xs_term r.1 r.2, xs_is_large_string g.2)))) =
      some (16, some (List.replicate 16 97), some 0, true) ∧
    ((xs_new demo_heap (List.replicate 16 97)).bind (fun r =>
      (xs_grow r.1 r.2 256).map (fun g => (xs_size g.2, xs_str g.1 g.2, xs_term g.1 g.2)))) =
      some (16, some (List.replicate 12 97 ++ [0, 16, 16, 16]), some 16) := by
  refine ⟨by decide, by decide⟩

/-- C19 (failing input). For the capacity class 31, which `xs_grow` stores for
the length `2^30`, `1 << x->capacity` overflows `int`: `xs_allocate_data` has
no defined result instead of a request of `2^31 + 4` bytes. -/
theorem xs_allocate_data_int_shift :
    (({ xs_literal_empty with is_ptr := true } : xs).set_capacity
        (ilog2 1073741824 + 1)).capacity = 31 ∧
      xs_allocate_data demo_heap
        (({ xs_literal_empty with is_ptr := true } : xs).set_capacity (ilog2 1073741824 + 1))
        1073741824 true = none ∧
      xs_grow demo_heap xs_literal_empty 1073741824 = none := by
  refine ⟨by decide, rfl, rfl⟩

set_option maxRecDepth 1000000 in
/-- C20 (failing input). A large value of capacity class 9 trimmed to 255 bytes
and shared by two cells: the fork decrements the old count to 1, but the new
block has `2^9 = 512` bytes, not `2^9 + 4`, and its count header was never
written (it reads the uninitialised `0x10101010`), while the cell is still
flagged large. -/
theorem fork_of_trimmed_large_malformed :
    ((xs_new demo_heap (List.replicate 255 97 ++ List.replicate 45 32)).bind (fun r =>
      (xs_trim r.1 r.2 [32]).bind (fun t =>
      (xs_copy t.1 t.2).bind (fun c =>
      (xs_cow_lazy_copy c.1 c.2 (some (xs_data c.2))).map (fun f =>
        (xs_get_ref_count c.1 c.2, c.2.capacity, xs_size c.2, xs_get_ref_count f.1 t.2)))))) =
      some (some 2, 9, 255, some 1) ∧
    ((xs_new demo_heap (List.replicate 255 97 ++ List.replicate 45 32)).bind (fun r =>
      (xs_trim r.1 r.2 [32]).bind (fun t =>
      (xs_copy t.1 t.2).bind (fun c =>
      (xs_cow_lazy_copy c.1 c.2 (some (xs_data c.2))).map (fun f =>
        ((f.1.block f.2.1.ptr).map List.length, xs_get_ref_count f.1 f.2.1,
          f.2.1.is_large_string)))))) =
      some (some 512, some 269488144, true) := by
  refine ⟨by decide, by decide⟩

set_option maxRecDepth 1000000 in
/-- C14 (counterexample). After `xs_new` of 300 bytes and five calls of
`xs_copy`, the count read before the fork is 6, not 5: the original holds one
reference and each copy adds one. -/
theorem shared_count_is_six :
    ((xs_new demo_heap (List.replicate 300 97)).bind (fun r =>
      (xs_copy r.1 r.2).bind (fun c1 =>
      (xs_copy c1.1 r.2).bind (fun c2 =>
      (xs_copy c2.1 r.2).bind (fun c3 =>
      (xs_copy c3.1 r.2).bind (fun c4 =>
      (xs_copy c4.1 r.2).bind (fun c5 => xs_get_ref_count c5.1 c5.2))))))) = some 6 := by
  decide

/-- C16 (counterexample). For a source of 31 bytes `xs_new` stores the capacity
class 6, although `2^5 - 1 ≥ 31` already holds for the smaller exponent 5. -/
theorem capacity_class_not_smallest :
    (xs_new demo_heap (List.replicate 31 97)).map
      (fun r => (r.2.capacity, decide (31 ≤ 2 ^ 5 - 1))) = some (6, true) := by
  decide

/-- C16 (amended). For a NUL-free source of more than 15 bytes, below the `int`
shift limit, `xs_new` stores the capacity class `k = ilog2(length + 1) + 1`,
the floor of the binary logarithm of `length + 1` plus one: `k` is the
smallest exponent with `2^k - 1 ≥ length + 1`, and `xs_capacity` is `2^k - 1`. -/
theorem xs_new_capacity_class (h : Heap) (p : List Nat) (hnul : ∀ b ∈ p, b ≠ 0 ∧ b < 256)
    (h15 : 15 < p.length) (hlen : p.length + 1 < 2 ^ 30) :
    ∃ h1 x, xs_new h p = some (h1, x) ∧ x.capacity = ilog2 (p.length + 1) + 1 ∧
      2 ^ (x.capacity - 1) ≤ p.length + 1 ∧ p.length + 1 < 2 ^ x.capacity ∧
      (∀ k, p.length + 1 ≤ 2 ^ k - 1 ↔ x.capacity ≤ k) ∧
      xs_capacity x = 2 ^ x.capacity - 1 := by
  obtain ⟨h1, x, nb, hnew, hip, _, hcap, _⟩ := xs_new_heap_layout h p hnul (by omega) hlen
  have hspec := ilog2_spec (p.length + 1) (by omega) (lt_trans hlen (by decide))
  have hlo : 2 ^ (x.capacity - 1) ≤ p.length + 1 := by
    rw [hcap, Nat.add_sub_cancel]; exact hspec.1
  have hhi : p.length + 1 < 2 ^ x.capacity := by rw [hcap]; exact hspec.2
  refine ⟨h1, x, hnew, hcap, hlo, hhi, ?_, ?_⟩
  · intro k
    constructor
    · intro hk
      by_contra hc
      have h2 : 2 ^ k ≤ 2 ^ (x.capacity - 1) := Nat.pow_le_pow_right (by decide) (by omega)
      have h3 : 0 < 2 ^ k := Nat.pow_pos (by decide)
      omega
    · intro hk
      have h2 : 2 ^ x.capacity ≤ 2 ^ k := Nat.pow_le_pow_right (by decide) hk
      omega
  · simp [xs_capacity, xs_is_ptr, hip]

/-- Instance of `xs_new_capacity_class`: a source of 31 bytes on the empty heap. -/
theorem xs_new_capacity_class_witness :
    ∃ h1 x, xs_new demo_heap (List.replicate 31 97) = some (h1, x) ∧
      x.capacity = ilog2 ((List.replicate 31 97).length + 1) + 1 ∧
      2 ^ (x.capacity - 1) ≤ (List.replicate 31 97).length + 1 ∧
      (List.replicate 31 97).length + 1 < 2 ^ x.capacity ∧
      (∀ k, (List.replicate 31 97).length + 1 ≤ 2 ^ k - 1 ↔ x.capacity ≤ k) ∧
      xs_capacity x = 2 ^ x.capacity - 1 :=
  xs_new_capacity_class demo_heap (List.replicate 31 97) (by decide) (by decide) (by decide)

/-- C14 (amended). For every NUL-free string `p` of 300 bytes and operands that
are well-formed before the scenario starts: `xs_new` followed by five calls of
`xs_copy` leaves the shared count at 6 (the original and the five copies);
`xs_concat` on one copy then forks, its result is `pfx ++ p ++ sfx` in a block
of its own, the shared count becomes 5, and the cell of the original and of the
other copies still has size 300, the 300 bytes of `p` and the terminator. -/
theorem shared_count_scenario (h : Heap) (p : List Nat) (pfx sfx : xs) (pd qd : List Nat)
    (hnul : ∀ b ∈ p, b ≠ 0 ∧ b < 256) (hlen : p.length = 300)
    (hvp : Valid h pfx) (hvq : Valid h sfx)
    (hpd : xs_str h pfx = some pd) (hqd : xs_str h sfx = some qd)
    (htot : 300 + pd.length + qd.length < 2 ^ 30) :
    ∃ h0 x h1 h2 h3 h4 h5 h6 y,
      xs_new h p = some (h0, x) ∧ xs_copy h0 x = some (h1, x) ∧ xs_copy h1 x = some (h2, x) ∧
      xs_copy h2 x = some (h3, x) ∧ xs_copy h3 x = some (h4, x) ∧ xs_copy h4 x = some (h5, x) ∧
      xs_get_ref_count h5 x = some 6 ∧
      xs_concat h5 x pfx sfx = some (h6, y) ∧ y.ptr ≠ x.ptr ∧
      xs_str h6 y = some (pd ++ p ++ qd) ∧
      xs_get_ref_count h6 x = some 5 ∧ xs_size x = 300 ∧ xs_str h6 x = some p ∧
      xs_term h6 x = some 0 := by
  have hpow : (2 : Nat) ^ 30 = 1073741824 := by decide
  have hil : ilog2 301 = 8 := by decide
  have hL : LARGE_STRING_LEN = 256 := rfl
  obtain ⟨h0, x, nb, hnew, hp, hptr, hcap, hsz, _, _, hlg, hb0, hbytes, _, hlarge, hkeep0⟩ :=
    xs_new_heap_layout h p hnul (by omega) (by omega)
  have hl : x.is_large_string = true := hlg.mpr (by omega)
  rw [hlen, hil] at hcap
  obtain ⟨hnbl, rest, hnb⟩ := hlarge hl
  rw [hcap] at hnbl
  rw [List.append_assoc] at hnb
  subst hnb
  -- the five copies
  obtain ⟨h1, hc1, hb1, hd1, hf1⟩ := copy_large_step 1 2 hp hl hb0 (length_leEncode 4 _)
    (leDecode_header 1 (by decide) (by decide)) (by decide) (by decide) (by decide)
  obtain ⟨h2, hc2, hb2, hd2, hf2⟩ := copy_large_step 2 3 hp hl hb1 (length_leEncode 4 _)
    hd1 (by decide) (by decide) (by decide)
  obtain ⟨h3, hc3, hb3, hd3, hf3⟩ := copy_large_step 3 4 hp hl hb2 (length_leEncode 4 _)
    hd2 (by decide) (by decide) (by decide)
  obtain ⟨h4, hc4, hb4, hd4, hf4⟩ := copy_large_step 4 5 hp hl hb3 (length_leEncode 4 _)
    hd3 (by decide) (by decide) (by decide)
  obtain ⟨h5, hc5, hb5, hd5, hf5⟩ := copy_large_step 5 6 hp hl hb4 (length_leEncode 4 _)
    hd4 (by decide) (by decide) (by decide)
  have hlen5 : (leEncode 4 (ofInt32 6) ++ (p ++ [0] ++ rest)).length = 516 := by
    simp only [List.length_append, length_leEncode] at hnbl ⊢
    omega
  have htake5 : (leEncode 4 (ofInt32 6) ++ (p ++ [0] ++ rest)).take 4 = leEncode 4 (ofInt32 6) :=
    List.take_left' (length_leEncode 4 _)
  have hdrop5 : (leEncode 4 (ofInt32 6) ++ (p ++ [0] ++ rest)).drop 4 = p ++ [0] ++ rest :=
    List.drop_left' (length_leEncode 4 _)
  have hform : ∀ hdr : List Nat, hdr ++ (p ++ [0] ++ rest) = hdr ++ p ++ [0] ++ rest := by
    intro hdr; simp
  have hd : xs_data x = .heap x.ptr 4 := by
    simp [xs_data, xs_is_ptr, xs_is_large_string, hp, hl]
  have hsz2 : x.size = p.length := hsz
  have hcount5 : xs_get_ref_count h5 x = some 6 := by
    unfold xs_get_ref_count
    simp only [xs_is_large_string, hl, Bool.not_true, Bool.false_eq_true, if_false]
    rw [ref_count_at_eq hb5 (by omega), htake5, hd5]
  obtain ⟨_, hstr5, hterm5⟩ := heap_read h5 x x.ptr 4 (leEncode 4 (ofInt32 6)) p rest hd hp hsz2
    (by rw [← hform]; exact hb5) (length_leEncode 4 _) (by rw [← hform, hlen5]; decide)
  -- the operands are where they were
  have hsame : ∀ q blk, h.block q = some blk → h5.block q = some blk ∧ q ≠ x.ptr := by
    intro q blk hq
    have hne : q ≠ x.ptr := by
      have := (block_some_pos hq).2
      omega
    rw [hf5 q hne, hf4 q hne, hf3 q hne, hf2 q hne, hf1 q hne]
    exact ⟨hkeep0 q blk hq, hne⟩
  have hsameP : pfx.is_ptr = true → h5.block pfx.ptr = h.block pfx.ptr ∧ pfx.ptr ≠ x.ptr := by
    intro hpp
    obtain ⟨bp, _, hbp, _⟩ := valid_heap hvp hpp
    rw [hbp]
    exact hsame _ _ hbp
  have hsameQ : sfx.is_ptr = true → h5.block sfx.ptr = h.block sfx.ptr ∧ sfx.ptr ≠ x.ptr := by
    intro hpp
    obtain ⟨bp, _, hbp, _⟩ := valid_heap hvq hpp
    rw [hbp]
    exact hsame _ _ hbp
  have hpd5 : xs_str h5 pfx = some pd :=
    ((operand_load h pfx pd hvp hpd).2.2.2 h5 (fun hpp => (hsameP hpp).1)).1
  have hqd5 : xs_str h5 sfx = some qd :=
    ((operand_load h sfx qd hvq hqd).2.2.2 h5 (fun hpp => (hsameQ hpp).1)).1
  have hvx : Valid h5 x := by
    unfold Valid
    rw [if_pos hp]
    refine ⟨_, hb5, by rw [hlen5]; decide, ?_, by omega, by omega, ?_, ?_⟩
    · intro v hv
      simp only [List.mem_append] at hv
      rcases hv with hv | hv
      · exact leEncode_lt _ _ v hv
      · exact hbytes v (by simp only [List.mem_append]; exact Or.inr hv)
    · rw [hsz2, hlen, hcap]; decide
    · rw [if_pos hl]
      refine ⟨by omega, by rw [hcap, hlen5]; decide, by rw [htake5, hd5]; decide, ?_⟩
      rw [hsz2, hform]
      have := getElem?_terminator (leEncode 4 (ofInt32 6)) p rest
      rw [length_leEncode] at this
      exact this
  obtain ⟨h6, y, hcat, _, hstry, _⟩ := xs_concat_layout h5 x pfx sfx p pd qd hvx
    (valid_of_same_block hvp (fun hpp => (hsameP hpp).1))
    (valid_of_same_block hvq (fun hpp => (hsameQ hpp).1))
    (fun _ hpp => (hsameP hpp).2) (fun _ hpp => (hsameQ hpp).2) hstr5 hpd5 hqd5
    (by rw [hlen]; exact htot)
    (fun c _ _ => by
      simp only [xs_size, xs_is_ptr, hp, if_true]
      rw [hsz2]; omega)
  -- what the fork and the body leave of the shared block
  have hc6 : 1 < toInt32 (leDecode ((leEncode 4 (ofInt32 6) ++ (p ++ [0] ++ rest)).take 4)) := by
    rw [htake5, hd5]; decide
  have hcat2 := hcat
  unfold xs_concat at hcat2
  simp only [Option.bind_eq_some] at hcat2
  obtain ⟨r, hcow, hbody⟩ := hcat2
  obtain ⟨_, hdr, hrp, hne, _⟩ := cow_fork hp hl hb5 (by omega) hc6 hcow
  have hold := cow_fork_old_block hp hl hb5 (by omega) hc6 hcow
  rw [htake5, hd5, hdrop5, show ((6 : Int) - 1) = 5 by decide,
    toInt32_ofInt32 5 (by decide) (by decide)] at hold
  rw [hdr] at hbody
  simp only [Option.getD_some] at hbody
  obtain ⟨off, hoff⟩ := xs_data_heap hrp
  rw [hoff] at hbody
  have hcap15 : 15 ≤ xs_capacity x := by
    simp only [xs_capacity, xs_is_ptr, hp, if_true]
    rw [hcap]; decide
  obtain ⟨hb6, hyne⟩ := concat_body_frame hcap15 hbody (Ne.symm hne) hold
  have hb6x : h6.block x.ptr = some (leEncode 4 (ofInt32 5) ++ (p ++ [0] ++ rest)) := hb6
  have hlen6 : (leEncode 4 (ofInt32 5) ++ (p ++ [0] ++ rest)).length = 516 := by
    simp only [List.length_append, length_leEncode] at hlen5 ⊢
    omega
  obtain ⟨hsx, hstr6, hterm6⟩ := heap_read h6 x x.ptr 4 (leEncode 4 (ofInt32 5)) p rest hd hp hsz2
    (by rw [← hform]; exact hb6x) (length_leEncode 4 _) (by rw [← hform, hlen6]; decide)
  refine ⟨h0, x, h1, h2, h3, h4, h5, h6, y, hnew, hc1, hc2, hc3, hc4, hc5, hcount5, hcat,
    hyne, hstry, ?_, by rw [hsx, hlen], hstr6, hterm6⟩
  unfold xs_get_ref_count
  simp only [xs_is_large_string, hl, Bool.not_true, Bool.false_eq_true, if_false]
  rw [ref_count_at_eq hb6x (by omega), List.take_left' (length_leEncode 4 _),
    leDecode_header 5 (by decide) (by decide)]

set_option maxRecDepth 1000000 in
/-- Instance of `shared_count_scenario`: 300 times `a` on the empty heap, with
the inline prefix `(` and the empty suffix. -/
theorem shared_count_scenario_witness :
    ∃ h0 x h1 h2 h3 h4 h5 h6 y,
      xs_new demo_heap (List.replicate 300 97) = some (h0, x) ∧
      xs_copy h0 x = some (h1, x) ∧ xs_copy h1 x = some (h2, x) ∧
      xs_copy h2 x = some (h3, x) ∧ xs_copy h3 x = some (h4, x) ∧ xs_copy h4 x = some (h5, x) ∧
      xs_get_ref_count h5 x = some 6 ∧
      xs_concat h5 x
        { ptr := 40, lo56 := 0, space_left := 14, is_ptr := false,
          is_large_string := false, flag2 := false, flag3 := false } xs_literal_empty
        = some (h6, y) ∧ y.ptr ≠ x.ptr ∧
      xs_str h6 y = some ([40] ++ List.replicate 300 97 ++ []) ∧
      xs_get_ref_count h6 x = some 5 ∧ xs_size x = 300 ∧
      xs_str h6 x = some (List.replicate 300 97) ∧ xs_term h6 x = some 0 :=
  shared_count_scenario demo_heap (List.replicate 300 97)
    { ptr := 40, lo56 := 0, space_left := 14, is_ptr := false,
      is_large_string := false, flag2 := false, flag3 := false } xs_literal_empty [40] []
    (by decide) (by decide)
    (by unfold Valid; rw [if_neg (show ¬ (false = true) by decide)]; decide)
    (by unfold Valid; rw [if_neg (show ¬ (xs_literal_empty.is_ptr = true) by decide)]; decide)
    (by decide) (by decide) (by decide)

/-- The cell that `xs_new` builds for a source of at most 15 bytes: no flag is
set, `space_left = 15 - length`, the cell bytes start with the source and its
terminator, and the heap is the one it was given. -/
theorem xs_new_inline_cell (h : Heap) (p : List Nat) (hnul : ∀ b ∈ p, b ≠ 0 ∧ b < 256)
    (h15 : p.length ≤ 15) :
    ∃ x tail, xs_new h p = some (h, x) ∧ x.is_ptr = false ∧ x.is_large_string = false ∧
      x.flag2 = false ∧ x.flag3 = false ∧ x.space_left = 15 - p.length ∧
      x.data = p ++ [0] ++ tail := by
  unfold xs_new
  simp only [strlen_nul_free p hnul, cbytes_nul_free p hnul, gt_iff_lt,
    show ¬ 16 < p.length + 1 by omega, if_false, Nat.add_sub_cancel]
  rw [store_cell_eq h xs_literal_empty 0 (p ++ [0]) (by simp; omega)]
  simp only [Option.map_some', List.take_zero, List.nil_append, Nat.zero_add,
    List.length_append, List.length_singleton]
  generalize hl : p ++ [0] ++ xs_literal_empty.data.drop (p.length + 1) = l
  have hlen : l.length = 16 := by
    rw [← hl]
    simp [length_data]
    omega
  have hlt : ∀ b ∈ l, b < 256 := by
    intro b hb
    rw [← hl] at hb
    simp only [List.mem_append, List.mem_singleton] at hb
    rcases hb with (hb | hb) | hb
    · exact (hnul b hb).2
    · omega
    · exact data_lt _ b (List.mem_of_mem_drop hb)
  have hlast : l.getD 15 0 < 16 := by
    rw [List.getD_eq_getElem _ _ (by omega : 15 < l.length)]
    by_cases hn : p.length = 15
    · have : l = p ++ [0] := by
        rw [← hl, List.drop_of_length_le (by rw [length_data]; omega), List.append_nil]
      subst this
      have hb15 : 15 < (p ++ [0]).length := by omega
      have e : (p ++ [0])[15] = 0 := by
        rw [List.getElem_append_right (by omega)]
        simp [hn]
      rw [e]
      omega
    · have hb15 : 15 < l.length := by omega
      have e : l[15] = 15 := by
        have hd := data_literal_empty
        have : l = p ++ [0] ++ (List.replicate 15 0 ++ [15]).drop (p.length + 1) := by
          rw [← hl, hd]
        subst this
        rw [List.getElem_append_right (by simp; omega)]
        simp only [List.length_append, List.length_singleton, List.getElem_drop]
        rw [List.getElem_append_right (by simp; omega)]
        simp
      rw [e]
      omega
  obtain ⟨e1, e2, e3, e4, e5, tail, e6⟩ := inline_finish l p
    (xs_literal_empty.data.drop (p.length + 1)) hl.symm hlen hlt hlast
  exact ⟨_, tail, rfl, e1, e2, e3, e4, e5, e6⟩

/-- Representation selection below the `int` shift limit (the part of C11 that
holds): for a NUL-free source of fewer than `2^30 - 1` bytes, `xs_new` gives an
inline value, with `space_left = 15 - length` and the heap untouched, exactly
when the length is at most 15; otherwise a heap value that is large, with count
1, exactly from `LARGE_STRING_LEN` on, and medium, without a count, below. -/
theorem xs_new_representation (h : Heap) (p : List Nat) (hnul : ∀ b ∈ p, b ≠ 0 ∧ b < 256)
    (hlen : p.length + 1 < 2 ^ 30) :
    ∃ h1 x, xs_new h p = some (h1, x) ∧
      (x.is_ptr = false ↔ p.length ≤ 15) ∧
      (p.length ≤ 15 → h1 = h ∧ x.is_large_string = false ∧ x.space_left = 15 - p.length) ∧
      (15 < p.length →
        (x.is_large_string = true ↔ LARGE_STRING_LEN ≤ p.length) ∧
        (x.is_large_string = true → xs_get_ref_count h1 x = some 1) ∧
        (x.is_large_string = false → xs_get_ref_count h1 x = some 0)) := by
  by_cases h15 : p.length ≤ 15
  · obtain ⟨x, tail, hnew, hp, hl, _, _, hs, _⟩ := xs_new_inline_cell h p hnul h15
    exact ⟨h, x, hnew, ⟨fun _ => h15, fun _ => hp⟩, fun _ => ⟨rfl, hl, hs⟩,
      fun hx => absurd h15 (by omega)⟩
  · obtain ⟨h1, x, nb, hnew, hp, _, _, _, _, _, hlg, hb, _, _, hlarge, _⟩ :=
      xs_new_heap_layout h p hnul (by omega) hlen
    refine ⟨h1, x, hnew, ⟨fun hx => ?_, fun hx => absurd hx h15⟩,
      fun hx => absurd hx h15, fun _ => ⟨hlg, fun hl => ?_, fun hl => ?_⟩⟩
    · rw [hp] at hx; cases hx
    · obtain ⟨hnl, rest, hnb⟩ := hlarge hl
      unfold xs_get_ref_count
      simp only [xs_is_large_string, hl, Bool.not_true, Bool.false_eq_true, if_false]
      rw [ref_count_at_eq hb (by rw [hnl]; exact Nat.le_add_left _ _), hnb, List.append_assoc,
        List.take_left' (length_leEncode 4 _), leDecode_header 1 (by decide) (by decide)]
    · simp [xs_get_ref_count, xs_is_large_string, hl]

set_option maxRecDepth 1000000 in
/-- Instance of `xs_new_representation`: a source of 256 bytes on the empty heap. -/
theorem xs_new_representation_witness :
    ∃ h1 x, xs_new demo_heap (List.replicate 256 97) = some (h1, x) ∧
      (x.is_ptr = false ↔ (List.replicate 256 97).length ≤ 15) ∧
      ((List.replicate 256 97).length ≤ 15 →
        h1 = demo_heap ∧ x.is_large_string = false ∧
          x.space_left = 15 - (List.replicate 256 97).length) ∧
      (15 < (List.replicate 256 97).length →
        (x.is_large_string = true ↔ LARGE_STRING_LEN ≤ (List.replicate 256 97).length) ∧
        (x.is_large_string = true → xs_get_ref_count h1 x = some 1) ∧
        (x.is_large_string = false → xs_get_ref_count h1 x = some 0)) :=
  xs_new_representation demo_heap (List.replicate 256 97) (by decide) (by decide)

/-- The medium branch of `xs_allocate_data` with `reallocate` on a live block:
the block is resized in place to `2^capacity` bytes and the cell is unchanged. -/
theorem allocate_realloc_medium (h : Heap) (x : xs) (len : Nat) (b : List Nat)
    (hc : x.capacity < 31) (hl : len < LARGE_STRING_LEN) (hb : h.block x.ptr = some b) :
    xs_allocate_data h x len true =
      some (h.set_block x.ptr
        (some (b.take (2 ^ x.capacity) ++ h.fresh b.length (2 ^ x.capacity - b.length))), x) := by
  have hp0 : x.ptr ≠ 0 := (block_some_pos hb).1
  unfold xs_allocate_data
  simp only [int_shl_one, hc, if_true, Option.some_bind, hl, krealloc, hp0, if_false, hb,
    Option.map_some']

/-- The large branch of `xs_allocate_data` with `reallocate` on a live block:
the block is resized in place to `2^capacity + 4` bytes, the count 1 is written
over its first four bytes and the large flag is set. -/
theorem allocate_realloc_large (h : Heap) (x : xs) (len : Nat) (b : List Nat)
    (hc : x.capacity < 31) (hl : ¬ len < LARGE_STRING_LEN) (hb : h.block x.ptr = some b) :
    ∃ h1, xs_allocate_data h x len true = some (h1, { x with is_large_string := true }) ∧
      h1.block x.ptr = some (leEncode 4 (ofInt32 1) ++
        (b.take (2 ^ x.capacity + 4) ++ h.fresh b.length (2 ^ x.capacity + 4 - b.length)).drop 4) ∧
      (∀ q, q ≠ x.ptr → h1.block q = h.block q) := by
  have hp0 : x.ptr ≠ 0 := (block_some_pos hb).1
  generalize hnb : b.take (2 ^ x.capacity + 4) ++ h.fresh b.length (2 ^ x.capacity + 4 - b.length)
    = nb
  have hnl : 4 ≤ nb.length := by
    rw [← hnb]
    have hpos : 0 < 2 ^ x.capacity := Nat.pow_pos (by decide)
    simp only [List.length_append, List.length_take, length_fresh]
    omega
  have hb1 : (h.set_block x.ptr (some nb)).block x.ptr = some nb := block_set_block_same hb _
  have hset := set_ref_count_eq (x := ({ x with is_large_string := true } : xs)) hb1 hnl 1
  unfold xs_allocate_data
  simp only [int_shl_one, hc, if_true, Option.some_bind, hl, krealloc, hp0, if_false, hb, hnb]
  refine ⟨_, ?_, block_set_block_same hb1 _, ?_⟩
  · show (xs_set_ref_count (h.set_block x.ptr (some nb))
        ({ x with is_large_string := true } : xs) 1).map _ = _
    rw [hset]
    rfl
  · intro q hq
    show ((h.set_block x.ptr (some nb)).set_block x.ptr _).block q = _
    rw [block_set_block_other _ hq, block_set_block_other _ hq]

theorem length_resized (h : Heap) (b : List Nat) (n : Nat) :
    (b.take n ++ h.fresh b.length (n - b.length)).length = n := by
  simp only [List.length_append, List.length_take, length_fresh]
  omega

/-- Allocation size below the `int` shift limit (the part of C19 that holds):
for a capacity class `k < 31`, `xs_allocate_data` leaves the value pointing to
a block of exactly `2^k` bytes when `len < LARGE_STRING_LEN` and of `2^k + 4`
bytes with a count of 1 otherwise, whether it allocates or reallocates (a NULL
or live pointer). -/
theorem xs_allocate_data_size (h : Heap) (x : xs) (len : Nat) (r : Bool) (b : List Nat)
    (hc : x.capacity < 31) (hlive : r = true → x.ptr = 0 ∨ h.block x.ptr = some b) :
    ∃ h1 x1 nb, xs_allocate_data h x len r = some (h1, x1) ∧ h1.block x1.ptr = some nb ∧
      nb.length = 2 ^ x.capacity + (if len < LARGE_STRING_LEN then 0 else 4) ∧
      (¬ len < LARGE_STRING_LEN →
        x1.is_large_string = true ∧ xs_get_ref_count h1 x1 = some 1) := by
  have hnew : ∃ h1 x1 nb, xs_allocate_data h x len false = some (h1, x1) ∧
      h1.block x1.ptr = some nb ∧
      nb.length = 2 ^ x.capacity + (if len < LARGE_STRING_LEN then 0 else 4) ∧
      (¬ len < LARGE_STRING_LEN →
        x1.is_large_string = true ∧ xs_get_ref_count h1 x1 = some 1) := by
    obtain ⟨h1, x1, nb, ha, hptr, _, _, _, _, _, hlg, hb1, hnl, hcnt, _⟩ :=
      allocate_new_block h x len hc
    rw [← hptr] at hb1
    refine ⟨h1, x1, nb, ha, hb1, hnl, fun hl => ⟨hlg hl, ?_⟩⟩
    unfold xs_get_ref_count
    simp only [xs_is_large_string, hlg hl, Bool.not_true, Bool.false_eq_true, if_false]
    rw [ref_count_at_eq hb1 (by rw [hnl, if_neg hl]; exact Nat.le_add_left _ _), hcnt hl]
  cases r with
  | false => exact hnew
  | true =>
    rcases hlive rfl with h0 | hb
    · rw [allocate_realloc_null len h0]
      exact hnew
    · by_cases hl : len < LARGE_STRING_LEN
      · rw [allocate_realloc_medium h x len b hc hl hb]
        refine ⟨_, _, _, rfl, block_set_block_same hb _, ?_, fun hx => absurd hl hx⟩
        rw [length_resized, if_pos hl, Nat.add_zero]
      · obtain ⟨h1, ha, hb1, _⟩ := allocate_realloc_large h x len b hc hl hb
        refine ⟨h1, _, _, ha, hb1, ?_, fun _ => ⟨rfl, ?_⟩⟩
        · rw [if_neg hl]
          have := length_resized h b (2 ^ x.capacity + 4)
          simp only [List.length_append, length_leEncode, List.length_drop] at this ⊢
          rw [this]
          have hpos : 0 < 2 ^ x.capacity := Nat.pow_pos (by decide)
          omega
        · unfold xs_get_ref_count
          simp only [xs_is_large_string, Bool.not_true, Bool.false_eq_true, if_false]
          have hb2 : h1.block ({ x with is_large_string := true } : xs).ptr = _ := hb1
          rw [ref_count_at_eq hb2 (by simp [length_leEncode]),
            List.take_left' (length_leEncode 4 _), leDecode_header 1 (by decide) (by decide)]

/-- Instance of `xs_allocate_data_size`: reallocating the 32-byte block of the
medium demo value for a length of 300 with capacity class 9. -/
theorem xs_allocate_data_size_witness :
    ∃ h1 x1 nb, xs_allocate_data demo_medium_heap (demo_medium_cell.set_capacity 9) 300 true
        = some (h1, x1) ∧ h1.block x1.ptr = some nb ∧
      nb.length = 2 ^ (demo_medium_cell.set_capacity 9).capacity
        + (if 300 < LARGE_STRING_LEN then 0 else 4) ∧
      (¬ 300 < LARGE_STRING_LEN →
        x1.is_large_string = true ∧ xs_get_ref_count h1 x1 = some 1) :=
  xs_allocate_data_size demo_medium_heap (demo_medium_cell.set_capacity 9) 300 true
    (List.replicate 16 97 ++ [0] ++ List.replicate 15 16) (by decide) (fun _ => Or.inr rfl)

/-- What `xs_allocate_data` leaves of the cell: only `ptr` and the large flag
can change, and the flag is set exactly when it was set or `len` is large. -/
theorem allocate_cell {h : Heap} {x : xs} {len : Nat} {r : Bool} {res : Heap × xs}
    (ha : xs_allocate_data h x len r = some res) :
    res.2.is_ptr = x.is_ptr ∧ res.2.lo56 = x.lo56 ∧ res.2.space_left = x.space_left ∧
      res.2.flag2 = x.flag2 ∧ res.2.flag3 = x.flag3 ∧
      (res.2.is_large_string = true ↔ x.is_large_string = true ∨ ¬ len < LARGE_STRING_LEN) := by
  unfold xs_allocate_data at ha
  simp only [Option.bind_eq_some] at ha
  obtain ⟨n, _, ha⟩ := ha
  by_cases hl : len < LARGE_STRING_LEN
  · simp only [hl, if_true, Option.map_eq_some'] at ha
    obtain ⟨a, _, rfl⟩ := ha
    exact ⟨rfl, rfl, rfl, rfl, rfl, by simp [hl]⟩
  · simp only [hl, if_false, Option.bind_eq_some, Option.map_eq_some'] at ha
    obtain ⟨a, _, h2, _, rfl⟩ := ha
    exact ⟨rfl, rfl, rfl, rfl, rfl, by simp [hl]⟩

/-- Growth policy below the `int` shift limit (the part of C17 that holds):
for a value whose pointer member is NULL or a live block and `len < 2^30`,
`xs_grow` changes nothing when `len ≤ xs_capacity`; otherwise the result is a
heap value of capacity `2^k - 1` with `k = ilog2(len) + 1` the smallest
exponent such that `2^k - 1 ≥ len`, the capacity at least doubles plus one,
and a large value stays large. -/
theorem xs_grow_policy (h : Heap) (x : xs) (len : Nat) (b : List Nat) (hlen : len < 2 ^ 30)
    (hlive : x.ptr = 0 ∨ h.block x.ptr = some b) :
    (len ≤ xs_capacity x → xs_grow h x len = some (h, x)) ∧
    (xs_capacity x < len → ∃ h1 x1, xs_grow h x len = some (h1, x1) ∧ x1.is_ptr = true ∧
      x1.capacity = ilog2 len + 1 ∧ xs_capacity x1 = 2 ^ (ilog2 len + 1) - 1 ∧
      (∀ k, len ≤ 2 ^ k - 1 ↔ ilog2 len + 1 ≤ k) ∧
      2 * xs_capacity x + 1 ≤ xs_capacity x1 ∧
      (x1.is_large_string = true ↔ x.is_large_string = true ∨ LARGE_STRING_LEN ≤ len)) := by
  constructor
  · intro hfit
    unfold xs_grow
    rw [if_pos hfit]
  · intro hgt
    have hpow : (2 : Nat) ^ 30 = 1073741824 := by decide
    have hlen1 : 1 ≤ len := by omega
    have hk : ilog2 len < 30 := ilog2_lt_of_lt_pow _ 30 hlen1 (by decide) hlen
    obtain ⟨hlo, hhi⟩ := ilog2_spec len hlen1 (by omega)
    generalize hx0 : ({ x with is_ptr := true } : xs).set_capacity (ilog2 len + 1) = x0
    have hx0cap : x0.capacity = ilog2 len + 1 := by
      rw [← hx0, capacity_set_capacity, Nat.mod_eq_of_lt (by omega)]
    have hx0p : x0.is_ptr = true := by rw [← hx0]; rfl
    have hx0l : x0.is_large_string = x.is_large_string := by rw [← hx0]; rfl
    have hx0ptr : x0.ptr = x.ptr := by rw [← hx0]; rfl
    obtain ⟨h1, x1, nb, ha, _⟩ := xs_allocate_data_size h x0 len true b (by omega)
      (fun _ => by rw [hx0ptr]; exact hlive)
    obtain ⟨c1, c2, c3, _, _, c6⟩ := allocate_cell ha
    have hgrow : xs_grow h x len = some (h1, x1) := by
      unfold xs_grow
      rw [if_neg (by omega)]
      simp only [hx0, xs_is_ptr, hx0p, if_true]
      exact ha
    have hx1cap : x1.capacity = ilog2 len + 1 := by
      unfold xs.capacity at hx0cap ⊢
      rw [c2, c3]
      exact hx0cap
    have hx1p : x1.is_ptr = true := by rw [c1]; exact hx0p
    have hcap1 : xs_capacity x1 = 2 ^ (ilog2 len + 1) - 1 := by
      simp only [xs_capacity, xs_is_ptr, hx1p, if_true]
      rw [hx1cap]
    refine ⟨h1, x1, hgrow, hx1p, hx1cap, hcap1, ?_, ?_, ?_⟩
    · intro k
      constructor
      · intro hle
        by_contra hc
        have h2 : 2 ^ k ≤ 2 ^ ilog2 len := Nat.pow_le_pow_right (by decide) (by omega)
        have h3 : 0 < 2 ^ k := Nat.pow_pos (by decide)
        omega
      · intro hle
        have h2 : 2 ^ (ilog2 len + 1) ≤ 2 ^ k := Nat.pow_le_pow_right (by decide) hle
        omega
    · rw [hcap1]
      rcases Bool.eq_false_or_eq_true (xs_is_ptr x) with hxp | hxp
      · simp only [xs_capacity, hxp, if_true] at hgt ⊢
        have hc : x.capacity < ilog2 len + 1 := by
          by_contra hc
          have h2 : 2 ^ (ilog2 len + 1) ≤ 2 ^ x.capacity :=
            Nat.pow_le_pow_right (by decide) (by omega)
          omega
        have h2 : 2 ^ (x.capacity + 1) ≤ 2 ^ (ilog2 len + 1) :=
          Nat.pow_le_pow_right (by decide) hc
        have h3 : 0 < 2 ^ x.capacity := Nat.pow_pos (by decide)
        rw [pow_succ] at h2
        omega
      · simp only [xs_capacity, hxp, Bool.false_eq_true, if_false] at hgt ⊢
        have hc : 4 < ilog2 len + 1 := by
          by_contra hc
          have h2 : 2 ^ (ilog2 len + 1) ≤ 2 ^ 4 := Nat.pow_le_pow_right (by decide) (by omega)
          have h3 : (2 : Nat) ^ 4 = 16 := by decide
          omega
        have h2 : 2 ^ 5 ≤ 2 ^ (ilog2 len + 1) := Nat.pow_le_pow_right (by decide) hc
        have h3 : (2 : Nat) ^ 5 = 32 := by decide
        omega
    · rw [c6, hx0l]
      constructor
      · rintro (hx | hx)
        · exact Or.inl hx
        · exact Or.inr (Nat.le_of_not_lt hx)
      · rintro (hx | hx)
        · exact Or.inl hx
        · exact Or.inr (Nat.not_lt.mpr hx)

/-- Instance of `xs_grow_policy`: the medium demo value (capacity 31) and the
lengths 31 and 300. -/
theorem xs_grow_policy_witness :
    (31 ≤ xs_capacity demo_medium_cell →
      xs_grow demo_medium_heap demo_medium_cell 31 = some (demo_medium_heap, demo_medium_cell)) ∧
    (xs_capacity demo_medium_cell < 300 →
      ∃ h1 x1, xs_grow demo_medium_heap demo_medium_cell 300 = some (h1, x1) ∧
        x1.is_ptr = true ∧ x1.capacity = ilog2 300 + 1 ∧
        xs_capacity x1 = 2 ^ (ilog2 300 + 1) - 1 ∧
        (∀ k, 300 ≤ 2 ^ k - 1 ↔ ilog2 300 + 1 ≤ k) ∧
        2 * xs_capacity demo_medium_cell + 1 ≤ xs_capacity x1 ∧
        (x1.is_large_string = true ↔
          demo_medium_cell.is_large_string = true ∨ LARGE_STRING_LEN ≤ 300)) :=
  ⟨(xs_grow_policy demo_medium_heap demo_medium_cell 31
      (List.replicate 16 97 ++ [0] ++ List.replicate 15 16) (by decide) (Or.inr rfl)).1,
    (xs_grow_policy demo_medium_heap demo_medium_cell 300
      (List.replicate 16 97 ++ [0] ++ List.replicate 15 16) (by decide) (Or.inr rfl)).2⟩

theorem take_drop_resized (b rest : List Nat) (n o m : Nat) (h1 : o + m ≤ n)
    (h2 : o + m ≤ b.length) : ((b.take n ++ rest).drop o).take m = (b.drop o).take m := by
  apply List.ext_getElem?
  intro i
  by_cases hi : i < m
  · rw [List.getElem?_take_of_lt hi, List.getElem?_take_of_lt hi, List.getElem?_drop,
      List.getElem?_drop, List.getElem?_append_left (by simp; omega),
      List.getElem?_take_of_lt (by omega)]
  · rw [List.getElem?_eq_none (by simp; omega), List.getElem?_eq_none (by simp; omega)]

/-- Reads inside the old data area give the same bytes after `xs_grow`
resized the block of a heap value that keeps its representation kind. -/
theorem grow_heap_reads (h : Heap) (x : xs) (len : Nat) (hv : Valid h x)
    (hp : x.is_ptr = true) (hgt : xs_capacity x < len) (hlen : len < 2 ^ 30)
    (hkind : x.is_large_string = false → len < LARGE_STRING_LEN) :
    ∃ h1 x1 off, xs_grow h x len = some (h1, x1) ∧ x1.is_ptr = true ∧ x1.size = x.size ∧
      x1.ptr = x.ptr ∧ xs_data x1 = .heap x.ptr off ∧ xs_data x = .heap x.ptr off ∧
      x1.is_large_string = x.is_large_string ∧
      (∀ o m, off ≤ o → o + m ≤ off + x.size + 1 → h1.read x.ptr o m = h.read x.ptr o m) ∧
      (∀ q, q ≠ x.ptr → h1.block q = h.block q) := by
  have hpow : (2 : Nat) ^ 30 = 1073741824 := by decide
  obtain ⟨b, off, hb, hdl, h64, _, h5, hcap, hfit, hblen, _, hlarge, hsmall⟩ := valid_heap hv hp
  have hlen1 : 1 ≤ len := by omega
  have hk : ilog2 len < 30 := ilog2_lt_of_lt_pow _ 30 hlen1 (by decide) hlen
  obtain ⟨hlo, hhi⟩ := ilog2_spec len hlen1 (by omega)
  have hcx : xs_capacity x = 2 ^ x.capacity - 1 := by simp [xs_capacity, xs_is_ptr, hp]
  rw [hcx] at hgt
  have hpos : 0 < 2 ^ x.capacity := Nat.pow_pos (by decide)
  have h230 : 2 ^ (ilog2 len + 1) ≤ 2 ^ 30 := Nat.pow_le_pow_right (by decide) (by omega)
  generalize hx0 : ({ x with is_ptr := true } : xs).set_capacity (ilog2 len + 1) = x0
  have hx0cap : x0.capacity = ilog2 len + 1 := by
    rw [← hx0, capacity_set_capacity, Nat.mod_eq_of_lt (by omega)]
  have hx0p : x0.is_ptr = true := by rw [← hx0]; rfl
  have hx0l : x0.is_large_string = x.is_large_string := by rw [← hx0]; rfl
  have hx0ptr : x0.ptr = x.ptr := by rw [← hx0]; rfl
  have hx0s : x0.size = x.size := by
    rw [← hx0, size_set_capacity]
    rfl
  have hgrow : xs_grow h x len = xs_allocate_data h x0 len true := by
    unfold xs_grow
    rw [if_neg (by rw [hcx]; omega)]
    simp only [hx0, xs_is_ptr, hx0p, if_true]
  have hb0 : h.block x0.ptr = some b := by rw [hx0ptr]; exact hb
  rw [hgrow]
  by_cases hl : len < LARGE_STRING_LEN
  · have hxl : x.is_large_string = false := by
      rcases Bool.eq_false_or_eq_true x.is_large_string with hx | hx
      · have := (hlarge hx).2.1
        have h9 : 2 ^ 9 ≤ 2 ^ x.capacity := Nat.pow_le_pow_right (by decide) this
        have : (2 : Nat) ^ 9 = 512 := by decide
        have : LARGE_STRING_LEN = 256 := rfl
        omega
      · exact hx
    have ho : off = 0 := hsmall hxl
    subst ho
    rw [allocate_realloc_medium h x0 len b (by omega) hl hb0, hx0ptr, hx0cap]
    have hd1 : xs_data x0 = .heap x.ptr 0 := by
      simp [xs_data, xs_is_ptr, xs_is_large_string, hx0p, hx0l, hxl, hx0ptr]
    refine ⟨_, _, 0, rfl, hx0p, hx0s, hx0ptr, hd1, hdl, by rw [hx0l], ?_, ?_⟩
    · intro o m _ hom
      have hnb := block_set_block_same hb (some (b.take (2 ^ (ilog2 len + 1))
        ++ h.fresh b.length (2 ^ (ilog2 len + 1) - b.length)))
      rw [read_eq hnb o m (by rw [length_resized]; omega) (by omega),
        read_eq hb o m (by omega) (by omega),
        take_drop_resized _ _ _ _ _ (by omega) (by omega)]
    · intro q hq
      exact block_set_block_other h hq _
  · have hxl : x.is_large_string = true := by
      rcases Bool.eq_false_or_eq_true x.is_large_string with hx | hx
      · exact hx
      · exact absurd (hkind hx) hl
    have ho : off = 4 := (hlarge hxl).1
    subst ho
    obtain ⟨h1, ha, hnb, hfr⟩ := allocate_realloc_large h x0 len b (by omega) hl hb0
    rw [ha]
    rw [hx0ptr, hx0cap] at hnb
    have hd1 : xs_data ({ x0 with is_large_string := true } : xs) = .heap x.ptr 4 := by
      simp [xs_data, xs_is_ptr, xs_is_large_string, hx0p, hx0ptr]
    refine ⟨h1, _, 4, rfl, hx0p, hx0s, hx0ptr, hd1, hdl, hxl.symm ▸ rfl, ?_, ?_⟩
    · intro o m ho hom
      have hrl := length_resized h b (2 ^ (ilog2 len + 1) + 4)
      have hnl : (leEncode 4 (ofInt32 1) ++ (b.take (2 ^ (ilog2 len + 1) + 4)
          ++ h.fresh b.length (2 ^ (ilog2 len + 1) + 4 - b.length)).drop 4).length
          = 2 ^ (ilog2 len + 1) + 4 := by
        simp only [List.length_append, length_leEncode, List.length_drop] at hrl ⊢
        rw [hrl]
        omega
      rw [read_eq hnb o m (by rw [hnl]; omega) (by omega),
        read_eq hb o m (by omega) (by omega)]
      obtain ⟨j, rfl⟩ : ∃ j, o = 4 + j := ⟨o - 4, by omega⟩
      rw [← List.drop_drop, List.drop_left' (length_leEncode 4 _), List.drop_drop,
        take_drop_resized _ _ _ _ _ (by omega) (by omega)]
    · intro q hq
      rw [hfr q (by rw [hx0ptr]; exact hq)]

/-- Growth preserves content where the representation kind is kept (the part of
C18 that holds): for a well-formed heap value and `xs_capacity < len < 2^30`,
with `len < LARGE_STRING_LEN` when the value is medium, `xs_grow` returns a
value with the same size, the same data bytes and the same terminator. -/
theorem xs_grow_preserves (h : Heap) (x : xs) (len : Nat) (hv : Valid h x)
    (hp : x.is_ptr = true) (hgt : xs_capacity x < len) (hlen : len < 2 ^ 30)
    (hkind : x.is_large_string = false → len < LARGE_STRING_LEN) :
    ∃ h1 x1, xs_grow h x len = some (h1, x1) ∧ xs_size x1 = xs_size x ∧
      xs_str h1 x1 = xs_str h x ∧ xs_term h1 x1 = xs_term h x := by
  obtain ⟨h1, x1, off, hg, hp1, hs1, _, hd1, hd, _, hrd, _⟩ :=
    grow_heap_reads h x len hv hp hgt hlen hkind
  have hsz1 : xs_size x1 = x.size := by simp [xs_size, xs_is_ptr, hp1, hs1]
  have hsz : xs_size x = x.size := by simp [xs_size, xs_is_ptr, hp]
  refine ⟨h1, x1, hg, by rw [hsz1, hsz], ?_, ?_⟩
  · unfold xs_str
    rw [hd1, hd, hsz1, hsz]
    exact hrd off x.size (le_refl _) (by omega)
  · unfold xs_term load_byte
    rw [hd1, hd, hsz1, hsz]
    simp only [Loc.add, load]
    rw [hrd (off + x.size) 1 (by omega) (by omega)]

/-- Instance of `xs_grow_preserves`: the medium demo value grown to 100 bytes. -/
theorem xs_grow_preserves_witness :
    ∃ h1 x1, xs_grow demo_medium_heap demo_medium_cell 100 = some (h1, x1) ∧
      xs_size x1 = xs_size demo_medium_cell ∧
      xs_str h1 x1 = xs_str demo_medium_heap demo_medium_cell ∧
      xs_term h1 x1 = xs_term demo_medium_heap demo_medium_cell :=
  xs_grow_preserves demo_medium_heap demo_medium_cell 100
    (by
      unfold Valid
      rw [if_pos (show demo_medium_cell.is_ptr = true from rfl)]
      exact ⟨_, rfl, by decide, by decide, by decide, by decide, by decide, by decide⟩)
    rfl (by decide) (by decide) (fun _ => by decide)

/-- Fork of a shared large value of at least `LARGE_STRING_LEN` bytes (the part
of C20 that holds): the old count goes from `c` to `c - 1`, and the value then
points to a new block of `2^capacity + 4` bytes whose count is 1 and whose data
area holds the same `xs_size` bytes; the cell is still large. -/
theorem xs_cow_fork_large (h : Heap) (x : xs) (c : Int) (hv : Valid h x)
    (hp : x.is_ptr = true) (hl : x.is_large_string = true)
    (hc : xs_get_ref_count h x = some c) (hc1 : 1 < c)
    (hsize : LARGE_STRING_LEN ≤ xs_size x) :
    ∃ h1 x1 nb, xs_cow_lazy_copy h x (some (xs_data x)) = some (h1, x1, some (xs_data x1), true) ∧
      xs_get_ref_count h1 x = some (c - 1) ∧ x1.ptr ≠ x.ptr ∧
      h1.block x1.ptr = some nb ∧ nb.length = 2 ^ x1.capacity + 4 ∧
      xs_get_ref_count h1 x1 = some 1 ∧ x1.is_large_string = true ∧
      xs_size x1 = xs_size x ∧ xs_str h1 x1 = xs_str h x := by
  obtain ⟨b, off, hb, hdl, h64, _, _, hcap, hfit, hblen, _, hlarge, _⟩ := valid_heap hv hp
  obtain ⟨ho, _, _⟩ := hlarge hl
  subst ho
  have hpos : 0 < 2 ^ x.capacity := Nat.pow_pos (by decide)
  have hsz : xs_size x = x.size := by simp [xs_size, xs_is_ptr, hp]
  rw [hsz] at hsize
  have hg : xs_get_ref_count h x = some (toInt32 (leDecode (b.take 4))) := by
    unfold xs_get_ref_count
    simp only [xs_is_large_string, hl, Bool.not_true, Bool.false_eq_true, if_false]
    exact ref_count_at_eq hb (by omega)
  rw [hg] at hc
  have hce : toInt32 (leDecode (b.take 4)) = c := Option.some.inj hc
  have hrange := toInt32_range (leDecode (b.take 4))
  rw [hce] at hrange
  obtain ⟨h1, x1, nb, hcow, hptr, hp1, hl1, hlo, hsp, hnb, hroom, hnb64, hsame, hbig, _, _⟩ :=
    cow_fork_content h x b hp hl hb (by omega) h64 (by rw [hce]; exact hc1) hcap hfit
      (fun hx => by have : LARGE_STRING_LEN = 256 := rfl; omega)
  obtain ⟨hcnt, hnl⟩ := hbig hsize
  have hold := cow_fork_old_block hp hl hb (by omega) (by rw [hce]; exact hc1) hcow
  have hold2 : h1.block x.ptr = some (leEncode 4 (ofInt32 (c - 1)) ++ b.drop 4) := by
    have e : toInt32 (ofInt32 (c - 1)) = c - 1 := toInt32_ofInt32 _ (by omega) (by omega)
    rw [hce, e] at hold
    exact hold
  have hne : x1.ptr ≠ x.ptr := by
    have := (block_some_pos hb).2
    omega
  have hs1 : x1.size = x.size := by unfold xs.size; rw [hlo]
  have hc1cap : x1.capacity = x.capacity := by unfold xs.capacity; rw [hlo, hsp]
  have hd1 : xs_data x1 = .heap x1.ptr 4 := by
    simp [xs_data, xs_is_ptr, xs_is_large_string, hp1, hl1]
  have hsz1 : xs_size x1 = x.size := by simp [xs_size, xs_is_ptr, hp1, hs1]
  refine ⟨h1, x1, nb, by rw [hdl, hd1]; exact hcow, ?_, hne, hnb, by rw [hc1cap]; exact hnl, ?_,
    hl1, by rw [hsz1, hsz], ?_⟩
  · unfold xs_get_ref_count
    simp only [xs_is_large_string, hl, Bool.not_true, Bool.false_eq_true, if_false]
    rw [ref_count_at_eq hold2 (by simp [length_leEncode]),
      List.take_left' (length_leEncode 4 _), leDecode_header _ (by omega) (by omega)]
  · unfold xs_get_ref_count
    simp only [xs_is_large_string, hl1, Bool.not_true, Bool.false_eq_true, if_false]
    rw [ref_count_at_eq hnb (by omega), hcnt]
  · unfold xs_str
    rw [hd1, hdl, hsz1, hsz]
    simp only [load]
    rw [read_eq hnb 4 x.size (by omega) (by omega), read_eq hb 4 x.size (by omega) (by omega),
      hsame]

set_option maxRecDepth 1000000 in
/-- Instance of `xs_cow_fork_large`: the large demo value of 256 bytes with a
count of 2. -/
theorem xs_cow_fork_large_witness :
    ∃ h1 x1 nb, xs_cow_lazy_copy (demo_large_heap [2, 0, 0, 0]) demo_large_cell
        (some (xs_data demo_large_cell)) = some (h1, x1, some (xs_data x1), true) ∧
      xs_get_ref_count h1 demo_large_cell = some (2 - 1) ∧ x1.ptr ≠ demo_large_cell.ptr ∧
      h1.block x1.ptr = some nb ∧ nb.length = 2 ^ x1.capacity + 4 ∧
      xs_get_ref_count h1 x1 = some 1 ∧ x1.is_large_string = true ∧
      xs_size x1 = xs_size demo_large_cell ∧
      xs_str h1 x1 = xs_str (demo_large_heap [2, 0, 0, 0]) demo_large_cell :=
  xs_cow_fork_large (demo_large_heap [2, 0, 0, 0]) demo_large_cell 2
    (by
      unfold Valid
      rw [if_pos (show demo_large_cell.is_ptr = true from rfl)]
      exact ⟨_, rfl, by decide, by decide, by decide, by decide, by decide, by decide⟩)
    rfl rfl (by decide) (by decide) (by decide)

/-- The data of a well-formed value can be read. -/
theorem valid_str {h : Heap} {x : xs} (hv : Valid h x) : ∃ d, xs_str h x = some d := by
  rcases Bool.eq_false_or_eq_true x.is_ptr with hp | hp
  · obtain ⟨b, off, hb, hdl, h64, _, _, _, hfit, hblen, _⟩ := valid_heap hv hp
    have hpos : 0 < 2 ^ x.capacity := Nat.pow_pos (by decide)
    refine ⟨(b.drop off).take x.size, ?_⟩
    unfold xs_str
    rw [hdl]
    simp only [xs_size, xs_is_ptr, hp, if_true, load]
    exact read_eq hb off x.size (by omega) (by omega)
  · refine ⟨x.data.take (15 - x.space_left % 16), ?_⟩
    unfold xs_str
    simp only [xs_data, xs_size, xs_is_ptr, hp, Bool.not_false, Bool.false_eq_true, if_true,
      if_false, load, Nat.zero_add, List.drop_zero]
    rw [if_pos (by omega)]

/-- No heap effect for short strings (the part of C12 that holds): `xs_new` of
at most 15 bytes, `xs_trim` of a well-formed inline value that is empty or has
a byte outside the set, and `xs_concat` on a well-formed inline value with
well-formed operands and a total of at most 15 bytes all return the heap they
were given, read no count (the value is not large), and give an inline value. -/
theorem inline_ops_frame (h : Heap) (x pfx sfx : xs) (set s cs : List Nat)
    (hnul : ∀ b ∈ s, b ≠ 0 ∧ b < 256) (hs15 : s.length ≤ 15)
    (hv : Valid h x) (hp : x.is_ptr = false) (hvp : Valid h pfx) (hvq : Valid h sfx)
    (hcs : xs_str h x = some cs) (hmem : cs = [] ∨ ∃ v ∈ cs, trim_member set v = false)
    (hfit : xs_size pfx + xs_size x + xs_size sfx ≤ 15) :
    (∃ y, xs_new h s = some (h, y) ∧ y.is_ptr = false) ∧
    x.is_large_string = false ∧
    (∃ x1, xs_trim h x set = some (h, x1) ∧ x1.is_ptr = false) ∧
    (∃ x1, xs_concat h x pfx sfx = some (h, x1) ∧ x1.is_ptr = false) := by
  obtain ⟨hl, hf2, hf3, hs, _⟩ := valid_inline hv hp
  have hdl : xs_data x = .cell 0 := by simp [xs_data, xs_is_ptr, hp]
  have hsz : xs_size x = 15 - x.space_left := by
    simp only [xs_size, xs_is_ptr, hp, Bool.false_eq_true, if_false]
    omega
  have hcs2 : x.data.take (15 - x.space_left) = cs := by
    unfold xs_str at hcs
    rw [hdl, hsz] at hcs
    simpa only [load, Nat.zero_add, show 15 - x.space_left ≤ 16 by omega, if_true,
      List.drop_zero, Option.some.injEq] using hcs
  have hget : xs_get_ref_count h x = some 0 := by
    simp [xs_get_ref_count, xs_is_large_string, hl]
  refine ⟨?_, hl, ?_, ?_⟩
  · obtain ⟨y, _, hnew, hyp, _⟩ := xs_new_inline_cell h s hnul hs15
    exact ⟨y, hnew, hyp⟩
  · by_cases hset : (cbytes set 1).headD 0 = 0
    · refine ⟨x, ?_, hp⟩
      unfold xs_trim
      rw [if_pos hset]
    · rw [xs_trim_unfold h x set hset, cow_unshared h x _ 0 hget (by decide)]
      simp only [Option.some_bind, Option.getD_some, Bool.false_eq_true, if_false, hdl]
      rw [← hcs2, ← mask_is_member] at hmem
      obtain ⟨x1, w, tail, _, _, hbody, g1, _⟩ := trim_body_inline h x set hp hl hf2 hf3 hs hmem
      exact ⟨x1, hbody, g1⟩
  · obtain ⟨pd, hpd⟩ := valid_str hvp
    obtain ⟨qd, hqd⟩ := valid_str hvq
    obtain ⟨hpl, _, hpb, hPl⟩ := operand_load h pfx pd hvp hpd
    obtain ⟨hql, _, hqb, hQl⟩ := operand_load h sfx qd hvq hqd
    unfold xs_concat
    rw [cow_unshared h x _ 0 hget (by decide)]
    simp only [Option.some_bind, Option.getD_some, hdl, hsz]
    have hcp : xs_capacity x = 15 := by simp [xs_capacity, xs_is_ptr, hp]
    rw [hcp]
    obtain ⟨x1, tail, hbody, g1, _⟩ :=
      concat_body_inplace_inline h x pfx sfx cs pd qd hp hl hf2 hf3 hs hcs2 hpl hql hpb hqb
        (by omega) (hPl h (fun _ => rfl)).1 (hQl h (fun _ => rfl)).2
    exact ⟨x1, hbody, g1⟩

/-- Instance of `inline_ops_frame`: the inline string ` x ` with the trim set
of blanks, the inline prefix `(` and the empty suffix. -/
theorem inline_ops_frame_witness :
    (∃ y, xs_new demo_heap [104, 105] = some (demo_heap, y) ∧ y.is_ptr = false) ∧
    ({ ptr := 2127904, lo56 := 0, space_left := 12, is_ptr := false,
       is_large_string := false, flag2 := false, flag3 := false } : xs).is_large_string
      = false ∧
    (∃ x1, xs_trim demo_heap
        { ptr := 2127904, lo56 := 0, space_left := 12, is_ptr := false,
          is_large_string := false, flag2 := false, flag3 := false } [32, 0]
        = some (demo_heap, x1) ∧ x1.is_ptr = false) ∧
    (∃ x1, xs_concat demo_heap
        { ptr := 2127904, lo56 := 0, space_left := 12, is_ptr := false,
          is_large_string := false, flag2 := false, flag3 := false }
        { ptr := 40, lo56 := 0, space_left := 14, is_ptr := false,
          is_large_string := false, flag2 := false, flag3 := false } xs_literal_empty
        = some (demo_heap, x1) ∧ x1.is_ptr = false) :=
  inline_ops_frame demo_heap
    { ptr := 2127904, lo56 := 0, space_left := 12, is_ptr := false,
      is_large_string := false, flag2 := false, flag3 := false }
    { ptr := 40, lo56 := 0, space_left := 14, is_ptr := false,
      is_large_string := false, flag2 := false, flag3 := false } xs_literal_empty
    [32, 0] [104, 105] [32, 120, 32] (by decide) (by decide)
    (by unfold Valid; rw [if_neg (show ¬ (false = true) by decide)]; decide)
    rfl
    (by unfold Valid; rw [if_neg (show ¬ (false = true) by decide)]; decide)
    (by unfold Valid; rw [if_neg (show ¬ (xs_literal_empty.is_ptr = true) by decide)]; decide)
    (by decide) (Or.inr ⟨120, by decide, by decide⟩) (by decide)

/-- A heap value stays a possible target after an in-place rewrite of its data
area that leaves the bytes before the data offset alone. -/
theorem valid0_after_inplace {h3 : Heap} {x : xs} {b w : List Nat} {off total : Nat}
    (hp : x.is_ptr = true) (h64 : b.length < 18446744073709551616)
    (h5 : 5 ≤ x.capacity) (hcap : x.capacity < 31) (hroom : 2 ^ x.capacity + off ≤ b.length)
    (hlarge : x.is_large_string = true → off = 4 ∧ 9 ≤ x.capacity ∧
      1 ≤ toInt32 (leDecode (b.take 4)))
    (hw : off + w.length + 1 ≤ b.length) (hfit : total < 2 ^ x.capacity)
    (hblk : h3.block x.ptr = some (b.take off ++ w ++ [0] ++ b.drop (off + w.length + 1))) :
    Valid0 h3 (x.set_size total) := by
  have h230 : 2 ^ x.capacity ≤ 2 ^ 30 := Nat.pow_le_pow_right (by decide) (by omega)
  have hpow : (2 : Nat) ^ 30 = 1073741824 := by decide
  have hlen : (b.take off ++ w ++ [0] ++ b.drop (off + w.length + 1)).length = b.length := by
    simp only [List.length_append, List.length_take, List.length_drop, List.length_singleton]
    omega
  have hc : (x.set_size total).capacity = x.capacity := capacity_set_size _ _
  refine valid0_heap_intro off hp hblk (by rw [hlen]; exact h64) (by rw [hc]; exact h5)
    (by rw [hc]; exact hcap) ?_ (by rw [hc, hlen]; exact hroom) ?_
  · rw [hc, size_set_size, Nat.mod_eq_of_lt (by omega)]
    exact hfit
  · intro hl
    obtain ⟨ho, h9, hcnt⟩ := hlarge hl
    refine ⟨ho, by rw [hc]; exact h9, ?_⟩
    subst ho
    rw [List.append_assoc, List.append_assoc,
      List.take_left' (by rw [List.length_take]; omega)]
    exact hcnt

/-- Concatenation on a target without terminator requirement: as
`xs_concat_layout`, for a target that is only asked to be `Valid0`; moreover
the result is again a possible target, the live blocks other than the target's
are kept, and the result does not point to any of them. -/
theorem xs_concat_layout0 (h : Heap) (t p q : xs) (td pd qd : List Nat)
    (hvt : Valid0 h t) (hvp : Valid h p) (hvq : Valid h q)
    (hnp : t.is_ptr = true → p.is_ptr = true → p.ptr ≠ t.ptr)
    (hnq : t.is_ptr = true → q.is_ptr = true → q.ptr ≠ t.ptr)
    (htd : xs_str h t = some td) (hpd : xs_str h p = some pd) (hqd : xs_str h q = some qd)
    (htot : td.length + pd.length + qd.length < 2 ^ 30)
    (hnoslip : ∀ c, xs_get_ref_count h t = some c → 1 < c → LARGE_STRING_LEN ≤ xs_size t) :
    ∃ h1 t1, xs_concat h t p q = some (h1, t1) ∧
      xs_size t1 = td.length + pd.length + qd.length ∧
      xs_str h1 t1 = some (pd ++ td ++ qd) ∧ xs_term h1 t1 = some 0 ∧ Valid0 h1 t1 ∧
      (∀ a blk, h.block a = some blk → (t.is_ptr = true → a ≠ t.ptr) →
        h1.block a = some blk ∧ (t1.is_ptr = true → t1.ptr ≠ a)) ∧
      (t1.is_large_string = true → t.is_large_string = true ∨
        LARGE_STRING_LEN ≤ td.length + pd.length + qd.length) := by
  have hpow : (2 : Nat) ^ 30 = 1073741824 := by decide
  obtain ⟨hpl, _, hpb, hPl⟩ := operand_load h p pd hvp hpd
  obtain ⟨hql, _, hqb, hQl⟩ := operand_load h q qd hvq hqd
  have hPk : ∀ h2 : Heap, (∀ a blk, h.block a = some blk → h2.block a = some blk) →
      load h2 p (xs_data p) (xs_size p) = some pd := by
    intro h2 hk
    refine (hPl h2 (fun hpp => ?_)).1
    obtain ⟨bp, _, hbp, _⟩ := valid_heap hvp hpp
    rw [hbp]; exact hk _ _ hbp
  have hQk : ∀ h2 : Heap, (∀ a blk, h.block a = some blk → h2.block a = some blk) →
      load h2 q (xs_data q) (xs_size q + 1) = some (qd ++ [0]) := by
    intro h2 hk
    refine (hQl h2 (fun hpp => ?_)).2
    obtain ⟨bp, _, hbp, _⟩ := valid_heap hvq hpp
    rw [hbp]; exact hk _ _ hbp
  unfold xs_concat
  rcases Bool.eq_false_or_eq_true t.is_ptr with hp | hp
  rotate_left
  · -- inline target
    obtain ⟨hl, hf2, hf3, hs⟩ := valid0_inline hvt hp
    have hdl : xs_data t = .cell 0 := by simp [xs_data, xs_is_ptr, hp]
    have hsz : xs_size t = 15 - t.space_left := by
      simp only [xs_size, xs_is_ptr, hp, Bool.false_eq_true, if_false]
      omega
    have hcp : xs_capacity t = 15 := by simp [xs_capacity, xs_is_ptr, hp]
    have htd2 : t.data.take (15 - t.space_left) = td := by
      unfold xs_str at htd
      rw [hdl, hsz] at htd
      simpa only [load, Nat.zero_add, show 15 - t.space_left ≤ 16 by omega, if_true,
        List.drop_zero, Option.some.injEq] using htd
    have htdl : td.length = 15 - t.space_left := by
      rw [← htd2, List.length_take, length_data]; omega
    have hget : xs_get_ref_count h t = some 0 := by
      simp [xs_get_ref_count, xs_is_large_string, hl]
    rw [cow_unshared h t _ 0 hget (by decide)]
    simp only [Option.some_bind, Option.getD_some, hdl, hsz, hcp]
    by_cases hfit : 15 - t.space_left + xs_size p + xs_size q ≤ 15
    · obtain ⟨x1, tail, hbody, g1, g2, g3, g4, gs, gd⟩ :=
        concat_body_inplace_inline h t p q td pd qd hp hl hf2 hf3 hs htd2 hpl hql hpb hqb hfit
          (hPl h (fun _ => rfl)).1 (hQl h (fun _ => rfl)).2
      obtain ⟨o1, o2, o3⟩ := inline_read h x1 (pd ++ td ++ qd) tail g1 gs
        (by simp only [List.length_append]; omega) gd
      refine ⟨h, x1, hbody, ?_, o2, o3, ?_, ?_, ?_⟩
      · rw [o1]
        simp only [List.length_append]
        omega
      · unfold Valid0
        rw [if_neg (by rw [g1]; decide)]
        exact ⟨g2, g3, g4, by rw [gs]; omega⟩
      · intro a blk hab _
        exact ⟨hab, fun hx => by rw [g1] at hx; cases hx⟩
      · intro hx; rw [g2] at hx; cases hx
    · obtain ⟨h4, g, hbody, _, o1, o2, o3, _, gptr, gfr, gv, gl⟩ :=
        concat_body_rebuild_full h t p q (.cell 0) (15 - t.space_left) 15 td pd qd (le_refl _)
          (by omega) (by omega) htdl hpl hql
          (fun _ _ => by
            simp only [load, Nat.zero_add, show 15 - t.space_left ≤ 16 by omega, if_true,
              List.drop_zero, htd2])
          hPk hQk (fun hx => by rw [hp] at hx; cases hx)
      refine ⟨h4, g, hbody, by rw [o1]; omega, o2, o3, gv, ?_,
        fun hx => Or.inr (by have := gl hx; omega)⟩
      intro a blk hab hne
      refine ⟨gfr a blk hab hne, fun _ => ?_⟩
      have := (block_some_pos hab).2
      omega
  · -- heap target
    obtain ⟨b, off, hb, hdl, h64, h5, hcap, hfitc, hblen, hlarge, hsmall⟩ := valid0_heap hvt hp
    have h230 : 2 ^ t.capacity ≤ 2 ^ 30 := Nat.pow_le_pow_right (by decide) (by omega)
    have h25 : 2 ^ 5 ≤ 2 ^ t.capacity := Nat.pow_le_pow_right (by decide) h5
    have hpow5 : (2 : Nat) ^ 5 = 32 := by decide
    have hoff : off ≤ 4 := by
      rcases Bool.eq_false_or_eq_true t.is_large_string with hx | hx
      · have := (hlarge hx).1; omega
      · have := hsmall hx; omega
    have hsz : xs_size t = t.size := by simp [xs_size, xs_is_ptr, hp]
    have hcp : xs_capacity t = 2 ^ t.capacity - 1 := by simp [xs_capacity, xs_is_ptr, hp]
    obtain ⟨htd2, htdl⟩ := xs_str_heap hp hdl hb (by omega) h64 htd
    have hPf : ∀ dst, (p.is_ptr = true → p.ptr ≠ dst) → ∀ hbase : Heap,
        (p.is_ptr = true → hbase.block p.ptr = h.block p.ptr) → ∀ h2 : Heap,
        (∀ a, a ≠ dst → h2.block a = hbase.block a) →
        load h2 p (xs_data p) (xs_size p) = some pd :=
      fun dst hne hbase hsame h2 hfr =>
        (hPl h2 (fun hpp => (hfr _ (hne hpp)).trans (hsame hpp))).1
    have hQf : ∀ dst, (q.is_ptr = true → q.ptr ≠ dst) → ∀ hbase : Heap,
        (q.is_ptr = true → hbase.block q.ptr = h.block q.ptr) → ∀ h2 : Heap,
        (∀ a, a ≠ dst → h2.block a = hbase.block a) →
        load h2 q (xs_data q) (xs_size q + 1) = some (qd ++ [0]) :=
      fun dst hne hbase hsame h2 hfr =>
        (hQl h2 (fun hpp => (hfr _ (hne hpp)).trans (hsame hpp))).2
    by_cases hshared : ∃ c, xs_get_ref_count h t = some c ∧ 1 < c
    · -- shared large value: fork first
      obtain ⟨c, hgc, hc1⟩ := hshared
      have h256 := hnoslip c hgc hc1
      rw [hsz] at h256
      have hl : t.is_large_string = true := by
        by_contra hx
        have hx2 : t.is_large_string = false := by simpa using hx
        simp [xs_get_ref_count, xs_is_large_string, hx2] at hgc
        omega
      obtain ⟨ho4, h9, _⟩ := hlarge hl
      subst ho4
      have hrc : c = toInt32 (leDecode (b.take 4)) := by
        have : xs_get_ref_count h t = some (toInt32 (leDecode (b.take 4))) := by
          unfold xs_get_ref_count
          simp only [xs_is_large_string, hl, Bool.not_true, Bool.false_eq_true, if_false]
          exact ref_count_at_eq hb (by omega)
        rw [this] at hgc
        exact (Option.some.inj hgc).symm
      obtain ⟨hc, t1, nb, hcow, ht1ptr, ht1p, ht1l, ht1lo, ht1sp, hnb, hnbroom, hnb64, hnbcs, hnbbig,
        _, hckeep⟩ := cow_fork_content h t b hp hl hb (by omega) h64 (by rw [← hrc]; exact hc1)
          hcap hfitc (fun hx => by have : LARGE_STRING_LEN = 256 := rfl; omega)
      have ht1sz : t1.size = t.size := by unfold xs.size; rw [ht1lo]
      have ht1cap : t1.capacity = t.capacity := by unfold xs.capacity; rw [ht1lo, ht1sp]
      have hd1 : xs_data t1 = .heap t1.ptr 4 := by
        simp [xs_data, xs_is_ptr, xs_is_large_string, ht1p, ht1l]
      obtain ⟨hnbcnt, hnblen⟩ := hnbbig h256
      have hne1 : t1.ptr ≠ t.ptr := by
        have := (block_some_pos hb).2
        omega
      have hsameP : p.is_ptr = true → hc.block p.ptr = h.block p.ptr := by
        intro hpp
        obtain ⟨bp, _, hbp, _⟩ := valid_heap hvp hpp
        rw [hbp]; exact hckeep _ _ (hnp hp hpp) hbp
      have hsameQ : q.is_ptr = true → hc.block q.ptr = h.block q.ptr := by
        intro hpp
        obtain ⟨bp, _, hbp, _⟩ := valid_heap hvq hpp
        rw [hbp]; exact hckeep _ _ (hnq hp hpp) hbp
      have hneP : p.is_ptr = true → p.ptr ≠ t1.ptr := by
        intro hpp
        obtain ⟨bp, _, hbp, _⟩ := valid_heap hvp hpp
        have := (block_some_pos hbp).2
        omega
      have hneQ : q.is_ptr = true → q.ptr ≠ t1.ptr := by
        intro hpp
        obtain ⟨bp, _, hbp, _⟩ := valid_heap hvq hpp
        have := (block_some_pos hbp).2
        omega
      rw [hdl, hcow]
      simp only [Option.some_bind, Option.getD_some, hsz, hcp]
      rw [← hnbcs] at htd2
      rw [← ht1sz] at htd2 htdl ⊢
      by_cases hfit : t1.size + xs_size p + xs_size q ≤ 2 ^ t.capacity - 1
      · obtain ⟨h3, x1, hbody, o1, o2, o3, _⟩ :=
          concat_inplace_heap_obs hc t1 p q 4 (2 ^ t.capacity - 1) nb td pd qd hd1 ht1p hnb hnb64
            htd2 htdl hpl hql hfit (by omega) (by omega)
            (hPf t1.ptr hneP hc hsameP) (hQf t1.ptr hneQ hc hsameQ)
        obtain ⟨h3b, hbody2, hblk, hfr⟩ :=
          concat_body_inplace_heap hc t1 p q t1.ptr 4 t1.size (2 ^ t.capacity - 1) nb td pd qd
            ht1p hnb hnb64 htd2 htdl hpl hql hfit (by omega)
            (hPf t1.ptr hneP hc hsameP) (hQf t1.ptr hneQ hc hsameQ)
        rw [hbody] at hbody2
        cases hbody2
        refine ⟨_, _, hbody, by rw [o1]; omega, o2, o3, ?_, ?_, fun _ => Or.inl hl⟩
        · exact valid0_after_inplace ht1p hnb64 (by rw [ht1cap]; exact h5)
            (by rw [ht1cap]; exact hcap) (by rw [ht1cap, hnblen])
            (fun _ => ⟨rfl, by rw [ht1cap]; exact h9, by rw [hnbcnt]⟩)
            (by simp only [List.length_append]; omega) (by rw [ht1cap]; omega) hblk
        · intro a blk hab hne
          have hne2 : a ≠ t1.ptr := by
            have := (block_some_pos hab).2
            omega
          refine ⟨?_, fun _ => Ne.symm hne2⟩
          rw [hfr a hne2]
          exact hckeep a blk (hne hp) hab
      · obtain ⟨h4, g, hbody, _, o1, o2, o3, _, gptr, gfr, gv, gl⟩ :=
          concat_body_rebuild_full hc t1 p q (.heap t1.ptr 4) t1.size (2 ^ t.capacity - 1) td pd qd
            (by omega) (by omega) (by omega) htdl hpl hql
            (fun h2 hk => by
              simp only [load]
              rw [read_eq (hk _ _ hnb) 4 t1.size (by omega) (by omega)]
              exact congrArg some htd2)
            (fun h2 hk => (hPl h2 (fun hpp => by
              obtain ⟨bp, _, hbp, _⟩ := valid_heap hvp hpp
              rw [hbp]; exact hk _ _ (by rw [hsameP hpp]; exact hbp))).1)
            (fun h2 hk => (hQl h2 (fun hpp => by
              obtain ⟨bp, _, hbp, _⟩ := valid_heap hvq hpp
              rw [hbp]; exact hk _ _ (by rw [hsameQ hpp]; exact hbp))).2)
            (fun _ => ⟨nb, hnb, fun _ => by omega⟩)
        refine ⟨h4, g, hbody, by rw [o1]; omega, o2, o3, gv, ?_, fun _ => Or.inl hl⟩
        intro a blk hab hne
        have hac : hc.block a = some blk := hckeep a blk (hne hp) hab
        have hne2 : a ≠ t1.ptr := by
          have := (block_some_pos hab).2
          omega
        refine ⟨gfr a blk hac (fun _ => hne2), fun _ => ?_⟩
        have := (block_some_pos hac).2
        omega
    · -- medium, or large with a single holder
      have hun : ∃ c, xs_get_ref_count h t = some c ∧ c ≤ 1 := by
        rcases Bool.eq_false_or_eq_true t.is_large_string with hl | hl
        · have hg : xs_get_ref_count h t = some (toInt32 (leDecode (b.take 4))) := by
            unfold xs_get_ref_count
            simp only [xs_is_large_string, hl, Bool.not_true, Bool.false_eq_true, if_false]
            have := (hlarge hl).1
            exact ref_count_at_eq hb (by omega)
          refine ⟨_, hg, ?_⟩
          by_contra hx
          exact hshared ⟨_, hg, by omega⟩
        · exact ⟨0, by simp [xs_get_ref_count, xs_is_large_string, hl], by decide⟩
      obtain ⟨c, hgc, hc1⟩ := hun
      rw [cow_unshared h t _ c hgc hc1]
      simp only [Option.some_bind, Option.getD_some, hdl, hsz, hcp]
      by_cases hfit : t.size + xs_size p + xs_size q ≤ 2 ^ t.capacity - 1
      · obtain ⟨h3, x1, hbody, o1, o2, o3, _⟩ :=
          concat_inplace_heap_obs h t p q off (2 ^ t.capacity - 1) b td pd qd hdl hp hb h64
            htd2 htdl hpl hql hfit (by omega) (by omega)
            (hPf t.ptr (hnp hp) h (fun _ => rfl)) (hQf t.ptr (hnq hp) h (fun _ => rfl))
        obtain ⟨h3b, hbody2, hblk, hfr⟩ :=
          concat_body_inplace_heap h t p q t.ptr off t.size (2 ^ t.capacity - 1) b td pd qd
            hp hb h64 htd2 htdl hpl hql hfit (by omega)
            (hPf t.ptr (hnp hp) h (fun _ => rfl)) (hQf t.ptr (hnq hp) h (fun _ => rfl))
        rw [hbody] at hbody2
        cases hbody2
        refine ⟨_, _, hbody, by rw [o1]; omega, o2, o3, ?_, ?_, fun hx => Or.inl hx⟩
        · exact valid0_after_inplace hp h64 h5 hcap hblen hlarge
            (by simp only [List.length_append]; omega) (by omega) hblk
        · intro a blk hab hne
          refine ⟨?_, fun _ => Ne.symm (hne hp)⟩
          rw [hfr a (hne hp)]
          exact hab
      · obtain ⟨h4, g, hbody, _, o1, o2, o3, _, gptr, gfr, gv, gl⟩ :=
          concat_body_rebuild_full h t p q (.heap t.ptr off) t.size (2 ^ t.capacity - 1) td pd qd
            (by omega) (by omega) (by omega) htdl hpl hql
            (fun h2 hk => by
              simp only [load]
              rw [read_eq (hk _ _ hb) off t.size (by omega) (by omega)]
              exact congrArg some htd2)
            hPk hQk
            (fun _ => ⟨b, hb, fun hx => by have := (hlarge hx).1; omega⟩)
        refine ⟨h4, g, hbody, by rw [o1]; omega, o2, o3, gv, ?_,
          fun hx => Or.inr (by have := gl hx; omega)⟩
        intro a blk hab hne
        refine ⟨gfr a blk hab hne, fun _ => ?_⟩
        have := (block_some_pos hab).2
        omega

/-- What `xs_copy` gives for a well-formed source whose count, when it is
large, is below `INT_MAX`: a possible target with the same size, kind and data
bytes; the live blocks other than the source's are kept and the copy does not
point to any of them. -/
theorem xs_copy_target (h : Heap) (x : xs) (hv : Valid h x)
    (hmax : ∀ c, xs_get_ref_count h x = some c → c < 2147483647) :
    ∃ hc y, xs_copy h x = some (hc, y) ∧ Valid0 hc y ∧ xs_str hc y = xs_str h x ∧
      xs_size y = xs_size x ∧ y.is_ptr = x.is_ptr ∧ y.is_large_string = x.is_large_string ∧
      (∀ q blk, h.block q = some blk → (x.is_ptr = true → q ≠ x.ptr) →
        hc.block q = some blk ∧ (y.is_ptr = true → y.ptr ≠ q)) := by
  rcases Bool.eq_false_or_eq_true x.is_ptr with hp | hp
  rotate_left
  · refine ⟨h, x, ?_, valid0_of_valid hv, rfl, rfl, rfl, rfl, ?_⟩
    · simp [xs_copy, xs_is_ptr, hp]
    · intro q blk hq _
      exact ⟨hq, fun hx => by rw [hp] at hx; cases hx⟩
  · obtain ⟨b, off, hb, hdl, h64, _, h5, hcap, hfit, hblen, _, hlarge, hsmall⟩ := valid_heap hv hp
    have hpos : 0 < 2 ^ x.capacity := Nat.pow_pos (by decide)
    rcases Bool.eq_false_or_eq_true x.is_large_string with hl | hl
    · -- large: the count goes up by one
      obtain ⟨ho, h9, hc1⟩ := hlarge hl
      subst ho
      have hg : xs_get_ref_count h x = some (toInt32 (leDecode (b.take 4))) := by
        unfold xs_get_ref_count
        simp only [xs_is_large_string, hl, Bool.not_true, Bool.false_eq_true, if_false]
        exact ref_count_at_eq hb (by omega)
      have hm := hmax _ hg
      have hcp := xs_copy_large_eq hp hl hb (by omega) rfl hm
      have hnb := block_set_block_same hb
        (some (leEncode 4 (ofInt32 (toInt32 (leDecode (b.take 4)) + 1)) ++ b.drop 4))
      have hnl := length_header_block (ofInt32 (toInt32 (leDecode (b.take 4)) + 1)) b (by omega)
      refine ⟨_, x, hcp, ?_, ?_, rfl, rfl, rfl, ?_⟩
      · refine valid0_heap_intro 4 hp hnb (by rw [hnl]; exact h64) h5 hcap hfit
          (by rw [hnl]; exact hblen) (fun _ => ⟨rfl, h9, ?_⟩)
        rw [header_of_set _ (by omega) (by omega)]
        omega
      · exact (xs_str_past_header hp hl hb (by omega) (length_leEncode 4 _) hnb).1
      · intro q blk hq hne
        refine ⟨?_, fun _ => Ne.symm (hne hp)⟩
        rw [block_set_block_other h (hne hp)]
        exact hq
    · -- medium: a new block with the data bytes
      have ho : off = 0 := hsmall hl
      subst ho
      have hrd : (kmalloc h (2 ^ x.capacity)).2.read x.ptr 0 x.size
          = some ((b.drop 0).take x.size) :=
        read_eq (block_kmalloc_old hb _) 0 x.size (by omega) (by omega)
      have htl : ((b.drop 0).take x.size).length = x.size := by
        rw [List.length_take, List.length_drop]; omega
      have hwr := write_eq (block_kmalloc_new h (2 ^ x.capacity)) 0 ((b.drop 0).take x.size)
        (by rw [htl, length_fresh]; omega) (by rw [htl]; omega)
      have hcp : xs_copy h x = some (((kmalloc h (2 ^ x.capacity)).2.set_block
          (kmalloc h (2 ^ x.capacity)).1
          (some ((h.fresh 0 (2 ^ x.capacity)).take 0 ++ (b.drop 0).take x.size
            ++ (h.fresh 0 (2 ^ x.capacity)).drop (0 + ((b.drop 0).take x.size).length))),
          { x with ptr := (kmalloc h (2 ^ x.capacity)).1 })) := by
        unfold xs_copy
        simp only [xs_is_ptr, hp, Bool.not_true, Bool.false_eq_true, if_false,
          xs_is_large_string, hl, hrd, Option.some_bind]
        rw [hwr]
        rfl
      have hnb := block_set_block_same (block_kmalloc_new h (2 ^ x.capacity))
        (some ((h.fresh 0 (2 ^ x.capacity)).take 0 ++ (b.drop 0).take x.size
            ++ (h.fresh 0 (2 ^ x.capacity)).drop (0 + ((b.drop 0).take x.size).length)))
      have hnl := length_splice (h.fresh 0 (2 ^ x.capacity)) ((b.drop 0).take x.size) 0
        (by rw [htl, length_fresh]; omega)
      rw [length_fresh] at hnl
      have hyd : xs_data ({ x with ptr := (kmalloc h (2 ^ x.capacity)).1 } : xs)
          = .heap (kmalloc h (2 ^ x.capacity)).1 0 := by
        simp [xs_data, xs_is_ptr, xs_is_large_string, hp, hl]
      refine ⟨_, _, hcp, ?_, ?_, ?_, rfl, rfl, ?_⟩
      · exact valid0_heap_intro 0 (x := { x with ptr := (kmalloc h (2 ^ x.capacity)).1 })
          hp hnb (by rw [hnl]; omega) h5 hcap hfit (by rw [hnl]; exact le_refl _)
          (fun hx => by
            have : x.is_large_string = true := hx
            rw [hl] at this; cases this)
      · unfold xs_str
        rw [hyd, hdl]
        have e1 : xs_size ({ x with ptr := (kmalloc h (2 ^ x.capacity)).1 } : xs) = x.size := by
          simp [xs_size, xs_is_ptr, hp]
          rfl
        have e2 : xs_size x = x.size := by simp [xs_size, xs_is_ptr, hp]
        rw [e1, e2]
        simp only [load]
        rw [read_eq hnb 0 x.size (by rw [hnl]; omega) (by omega),
          read_eq hb 0 x.size (by omega) (by omega)]
        congr 1
        simp only [List.take_zero, List.nil_append, List.drop_zero]
        rw [List.take_append_of_le_length (by rw [List.length_take]; omega),
          List.take_take, Nat.min_self]
      · simp [xs_size, xs_is_ptr, hp]
        rfl
      · intro q blk hq _
        have hne : q ≠ (kmalloc h (2 ^ x.capacity)).1 := Ne.symm (kmalloc_ne_live hq _)
        refine ⟨?_, fun _ => Ne.symm hne⟩
        rw [block_set_block_other _ hne]
        exact block_kmalloc_old hq _

theorem large_of_count {h : Heap} {x : xs} {c : Int} (hc : xs_get_ref_count h x = some c)
    (h1 : 1 < c) : x.is_large_string = true := by
  by_contra hx
  have hx2 : x.is_large_string = false := by simpa using hx
  simp [xs_get_ref_count, xs_is_large_string, hx2] at hc
  omega

theorem valid_literal_empty (h : Heap) : Valid h xs_literal_empty := by
  unfold Valid
  rw [if_neg (show ¬ (xs_literal_empty.is_ptr = true) by decide)]
  decide

/-- Associativity of the concatenation layout (the part of C15 that holds): for
well-formed `x`, `a`, `b` with the operands' buffers distinct from the buffer
of `x`, a combined length below `2^30`, a count below `INT_MAX`, and `x` not a
large value shorter than `LARGE_STRING_LEN`, concatenating `a` in front of a
copy of `x` and then `b` behind it gives the same size and the same data bytes,
`a ++ x ++ b`, as `xs_concat(x, a, b)`, on every path the calls take. -/
theorem concat_assoc_layout (h : Heap) (x a b : xs) (xd ad bd : List Nat)
    (hvx : Valid h x) (hva : Valid h a) (hvb : Valid h b)
    (hna : x.is_ptr = true → a.is_ptr = true → a.ptr ≠ x.ptr)
    (hnb : x.is_ptr = true → b.is_ptr = true → b.ptr ≠ x.ptr)
    (hxd : xs_str h x = some xd) (had : xs_str h a = some ad) (hbd : xs_str h b = some bd)
    (htot : xd.length + ad.length + bd.length < 2 ^ 30)
    (hbig : x.is_large_string = true → LARGE_STRING_LEN ≤ xs_size x)
    (hmax : ∀ c, xs_get_ref_count h x = some c → c < 2147483647) :
    ∃ h1 x1 hc y h2 y2 h3 y3, xs_concat h x a b = some (h1, x1) ∧
      xs_copy h x = some (hc, y) ∧ xs_concat hc y a xs_literal_empty = some (h2, y2) ∧
      xs_concat h2 y2 xs_literal_empty b = some (h3, y3) ∧
      xs_size y3 = xs_size x1 ∧ xs_str h3 y3 = xs_str h1 x1 ∧
      xs_str h1 x1 = some (ad ++ xd ++ bd) ∧ xs_term h3 y3 = some 0 ∧
      xs_term h1 x1 = some 0 := by
  -- the direct route
  obtain ⟨h1, x1, hcat, hs1, hstr1, hterm1⟩ := xs_concat_layout h x a b xd ad bd hvx hva hvb
    hna hnb hxd had hbd htot (fun c hc hc1 => hbig (large_of_count hc hc1))
  -- the copy
  obtain ⟨hc, y, hcopy, hvy, hstry, hszy, hyp, hyl, hfr⟩ := xs_copy_target h x hvx hmax
  have hkeepA : a.is_ptr = true → hc.block a.ptr = h.block a.ptr ∧ (y.is_ptr = true → a.ptr ≠ y.ptr) := by
    intro hpp
    obtain ⟨bp, _, hbp, _⟩ := valid_heap hva hpp
    obtain ⟨e1, e2⟩ := hfr a.ptr bp hbp (fun hxp => hna hxp hpp)
    exact ⟨by rw [hbp]; exact e1, fun hx => Ne.symm (e2 hx)⟩
  have hkeepB : b.is_ptr = true → hc.block b.ptr = h.block b.ptr ∧ (y.is_ptr = true → b.ptr ≠ y.ptr) := by
    intro hpp
    obtain ⟨bp, _, hbp, _⟩ := valid_heap hvb hpp
    obtain ⟨e1, e2⟩ := hfr b.ptr bp hbp (fun hxp => hnb hxp hpp)
    exact ⟨by rw [hbp]; exact e1, fun hx => Ne.symm (e2 hx)⟩
  have hvac : Valid hc a := valid_of_same_block hva (fun hpp => (hkeepA hpp).1)
  have hvbc : Valid hc b := valid_of_same_block hvb (fun hpp => (hkeepB hpp).1)
  have hadc : xs_str hc a = some ad :=
    ((operand_load h a ad hva had).2.2.2 hc (fun hpp => (hkeepA hpp).1)).1
  have hbdc : xs_str hc b = some bd :=
    ((operand_load h b bd hvb hbd).2.2.2 hc (fun hpp => (hkeepB hpp).1)).1
  have hempty : ∀ hh : Heap, xs_str hh xs_literal_empty = some [] := fun _ => rfl
  have hnoe : ∀ t : xs, t.is_ptr = true → xs_literal_empty.is_ptr = true →
      xs_literal_empty.ptr ≠ t.ptr := fun _ _ hx => by cases hx
  -- the prefix on the copy
  obtain ⟨h2, y2, hcat1, hs2, hstr2, _, hvy2, hfr2, hl2⟩ := xs_concat_layout0 hc y a
    xs_literal_empty xd ad [] hvy hvac (valid_literal_empty hc)
    (fun hx hpp => (hkeepA hpp).2 hx) (hnoe y) (by rw [hstry]; exact hxd) hadc (hempty hc)
    (by simp only [List.length_nil]; omega)
    (fun c hcc hc1 => by
      have := large_of_count hcc hc1
      rw [hyl] at this
      rw [hszy]
      exact hbig this)
  have hsx : xs_size x = xd.length := by
    obtain ⟨d, hd⟩ := valid_str hvx
    have := (operand_load h x d hvx hd).1
    rw [hxd] at hd
    cases hd
    exact this.symm
  have hkeepB2 : b.is_ptr = true →
      h2.block b.ptr = hc.block b.ptr ∧ (y2.is_ptr = true → b.ptr ≠ y2.ptr) := by
    intro hpp
    obtain ⟨bp, _, hbp, _⟩ := valid_heap hvbc hpp
    obtain ⟨e1, e2⟩ := hfr2 b.ptr bp hbp (fun hx => (hkeepB hpp).2 hx)
    exact ⟨by rw [hbp]; exact e1, fun hx => Ne.symm (e2 hx)⟩
  have hbd2 : xs_str h2 b = some bd :=
    ((operand_load hc b bd hvbc hbdc).2.2.2 h2 (fun hpp => (hkeepB2 hpp).1)).1
  -- the suffix on the result
  obtain ⟨h3, y3, hcat2, hs3, hstr3, hterm3, _, _, _⟩ := xs_concat_layout0 h2 y2
    xs_literal_empty b (ad ++ xd ++ []) [] bd hvy2 (valid_literal_empty h2)
    (valid_of_same_block hvbc (fun hpp => (hkeepB2 hpp).1))
    (hnoe y2) (fun hx hpp => (hkeepB2 hpp).2 hx) hstr2 (hempty h2) hbd2
    (by simp only [List.length_append, List.length_nil]; omega)
    (fun c hcc hc1 => by
      have hly2 := large_of_count hcc hc1
      rw [hs2]
      rcases hl2 hly2 with hx | hx
      · rw [hyl] at hx
        have := hbig hx
        rw [hsx] at this
        omega
      · omega)
  refine ⟨h1, x1, hc, y, h2, y2, h3, y3, hcat, hcopy, hcat1, hcat2, ?_, ?_, hstr1, hterm3,
    hterm1⟩
  · rw [hs3, hs1]
    simp only [List.length_append, List.length_nil]
    omega
  · rw [hstr3, hstr1]
    simp

/-- Instance of `concat_assoc_layout`: the medium demo value of sixteen `a`
with the inline operands `(` and `)`. -/
theorem concat_assoc_layout_witness :
    ∃ h1 x1 hc y h2 y2 h3 y3,
      xs_concat demo_medium_heap demo_medium_cell
        { ptr := 40, lo56 := 0, space_left := 14, is_ptr := false,
          is_large_string := false, flag2 := false, flag3 := false }
        { ptr := 41, lo56 := 0, space_left := 14, is_ptr := false,
          is_large_string := false, flag2 := false, flag3 := false } = some (h1, x1) ∧
      xs_copy demo_medium_heap demo_medium_cell = some (hc, y) ∧
      xs_concat hc y
        { ptr := 40, lo56 := 0, space_left := 14, is_ptr := false,
          is_large_string := false, flag2 := false, flag3 := false } xs_literal_empty
        = some (h2, y2) ∧
      xs_concat h2 y2 xs_literal_empty
        { ptr := 41, lo56 := 0, space_left := 14, is_ptr := false,
          is_large_string := false, flag2 := false, flag3 := false } = some (h3, y3) ∧
      xs_size y3 = xs_size x1 ∧ xs_str h3 y3 = xs_str h1 x1 ∧
      xs_str h1 x1 = some ([40] ++ List.replicate 16 97 ++ [41]) ∧ xs_term h3 y3 = some 0 ∧
      xs_term h1 x1 = some 0 :=
  concat_assoc_layout demo_medium_heap demo_medium_cell
    { ptr := 40, lo56 := 0, space_left := 14, is_ptr := false,
      is_large_string := false, flag2 := false, flag3 := false }
    { ptr := 41, lo56 := 0, space_left := 14, is_ptr := false,
      is_large_string := false, flag2 := false, flag3 := false }
    (List.replicate 16 97) [40] [41]
    (by
      unfold Valid
      rw [if_pos (show demo_medium_cell.is_ptr = true from rfl)]
      exact ⟨_, rfl, by decide, by decide, by decide, by decide, by decide, by decide⟩)
    (by unfold Valid; rw [if_neg (show ¬ (false = true) by decide)]; decide)
    (by unfold Valid; rw [if_neg (show ¬ (false = true) by decide)]; decide)
    (fun _ hx => by cases hx) (fun _ hx => by cases hx)
    (by decide) (by decide) (by decide) (by decide)
    (fun hx => by cases hx)
    (fun c hc => by
      have : xs_get_ref_count demo_medium_heap demo_medium_cell = some 0 := by decide
      rw [this] at hc
      cases hc
      decide)

end Xs
